import Mathlib

/-!
# Trade collector of bbgo: a shallow embedding

Source: `pkg/bbgo/tradecollector.go` and `pkg/bbgo/tradecollector_callbacks.go`.

The collector owns a pending trade store, a position, and the set of trade
keys that were already applied.  The order store is shared with the code that
submits orders, so every operation takes the order store as it is at the time
of the call.  Calls of `Position.AddTrade` and of the `Emit*` methods are
recorded, in order, in the field `log`; the section on callbacks says what the
handlers registered with the `On*` methods see of them.

The file also embeds the checkpoints of the stock distribution that
`cmd/pnl.go` calls, and the trade, k-line and deposit queries of
`pkg/exchange/ftx/exchange.go`.
-/

namespace Bbgo

/-! ## Data model -/

/-- Side of a trade (`types.SideType`). -/
inductive SideType where
  | Buy
  | Sell
deriving DecidableEq, Repr

/-- Modelled from the spec: `types.TradeKey` is not among the sources; the
spec defines the trade key as "exchange trade id + symbol". -/
structure TradeKey where
  ID : Nat
  Symbol : String
deriving DecidableEq, Repr

/-- Modelled from the spec: `types.Trade` is not among the sources; the spec
lists its fields: key (trade id and symbol), order identifier, side, price,
quantity, fee amount, fee currency and timestamp.  Values of type
`fixedpoint.Value` are integers counted in units of `10^-8`. -/
structure Trade where
  ID : Nat
  OrderID : Nat
  Symbol : String
  Side : SideType
  Price : Int
  Quantity : Int
  Fee : Int
  FeeCurrency : String
  Time : Nat
deriving DecidableEq, Repr

/-- Modelled from the spec: `Trade.Key()`, the trade id together with the symbol. -/
def Trade.Key (t : Trade) : TradeKey := ⟨t.ID, t.Symbol⟩

/-- Modelled from the spec: `types.Position` is not among the sources; the
spec lists symbol, signed quantity (positive long, negative short), average
cost and accumulated fee. -/
structure Position where
  Symbol : String
  Base : Int
  AverageCost : Int
  Fee : Int
deriving DecidableEq, Repr

/-- Type of `Position.AddTrade`: the position after the call together with
the returned `(profit, netProfit, madeProfit)`.  The collector is stated over
an arbitrary function of this type. -/
abbrev AddTradeFn := Position → Trade → Position × Int × Int × Bool

namespace fixedpoint

/-- The fixed-point representation of the number one. -/
def One : Int := 100000000

/-- Modelled from the spec: product of two fixed-precision decimal values,
truncated to the precision. -/
def Mul (a b : Int) : Int := (a * b).tdiv One

/-- Modelled from the spec: quotient of two fixed-precision decimal values,
truncated to the precision. -/
def Div (a b : Int) : Int := (a * One).tdiv b

end fixedpoint

/-- Modelled from the spec: `Position.AddTrade` is not among the sources.  A
trade that opens or extends exposure in the existing direction moves the
average cost to the quantity-weighted average and realizes nothing.  A trade
against the existing exposure realizes
`(price - averageCost) * closedQuantity * directionSign` on the closed
portion, `netProfit` is the profit less the fee of the trade, and a remainder
beyond the closed exposure opens the new exposure at the trade price. -/
def Position.AddTrade : AddTradeFn := fun p trade =>
  let signed : Int := match trade.Side with
    | SideType.Buy => trade.Quantity
    | SideType.Sell => - trade.Quantity
  let against : Bool :=
    (decide (p.Base < 0) && decide (trade.Side = SideType.Buy)) ||
    (decide (0 < p.Base) && decide (trade.Side = SideType.Sell))
  if against then
    let closed : Int := min |p.Base| trade.Quantity
    let directionSign : Int := if 0 < p.Base then 1 else -1
    let profit : Int := fixedpoint.Mul (trade.Price - p.AverageCost) closed * directionSign
    let averageCost : Int := if |p.Base| < trade.Quantity then trade.Price else p.AverageCost
    ({ p with Base := p.Base + signed, AverageCost := averageCost, Fee := p.Fee + trade.Fee },
      profit, profit - trade.Fee, true)
  else
    let averageCost : Int :=
      fixedpoint.Div
        (fixedpoint.Mul p.AverageCost |p.Base| + fixedpoint.Mul trade.Price trade.Quantity)
        (|p.Base| + trade.Quantity)
    ({ p with Base := p.Base + signed, AverageCost := averageCost, Fee := p.Fee + trade.Fee },
      0, 0, false)

/-- Modelled from the spec: `OrderStore` is not among the sources; the
collector needs only the existence predicate keyed by order id.  The store is
the list of registered order ids. -/
structure OrderStore where
  ids : List Nat
deriving DecidableEq, Repr

/-- Modelled from the spec: `OrderStore.Exists(orderID)`, true once the order
has been registered. -/
def OrderStore.Exists (s : OrderStore) (orderID : Nat) : Bool := decide (orderID ∈ s.ids)

/-- Modelled from the spec: registration of an order id in the `OrderStore`. -/
def OrderStore.Add (s : OrderStore) (orderID : Nat) : OrderStore := ⟨orderID :: s.ids⟩

/-- Modelled from the spec: `TradeStore` is not among the sources; it is the
pending buffer, a mapping from trade key to buffered trade.  The mapping is
kept as the list of its entries; the order of the list is the order in which
a pass over the buffer visits the entries. -/
structure TradeStore where
  Symbol : String
  trades : List Trade
deriving DecidableEq, Repr

/-- Modelled from the spec: `NewTradeStore(symbol)`, the empty buffer. -/
def NewTradeStore (symbol : String) : TradeStore := ⟨symbol, []⟩

/-- Modelled from the spec: `TradeStore.Add(trade)` inserts or overwrites by
trade key. -/
def TradeStore.Add (s : TradeStore) (trade : Trade) : TradeStore :=
  if s.trades.any (fun u => decide (u.Key = trade.Key)) then
    { s with trades := s.trades.map (fun u => if u.Key = trade.Key then trade else u) }
  else
    { s with trades := s.trades ++ [trade] }

/-- Modelled from the spec: the single pass of `TradeStore.Filter(predicate)`
over the buffered trades.  The predicate has side effects, so it takes and
returns the state `σ` it acts on; every trade for which it returns true is
removed. -/
def filterPass {σ : Type} (predicate : σ → Trade → Bool × σ) : List Trade → σ → List Trade × σ
  | [], s => ([], s)
  | trade :: rest, s =>
    let r := predicate s trade
    let r2 := filterPass predicate rest r.2
    (if r.1 then r2.1 else trade :: r2.1, r2.2)

/-- Calls made by the collector that the claims speak about: the calls of
`Position.AddTrade` and of the four `Emit*` methods. -/
inductive Effect where
  | addTrade (trade : Trade)
  | emitTrade (trade : Trade)
  | emitProfit (trade : Trade) (profit netProfit : Int)
  | emitPositionUpdate (position : Position)
  | emitRecover (trade : Trade)
deriving DecidableEq, Repr

/-- State of `TradeCollector`.  The channels `orderSig` and `tradeC` belong to
the run loop and are not part of the state the operations below act on; the
order store is passed to every operation. -/
structure TradeCollector where
  Symbol : String
  tradeStore : TradeStore
  position : Position
  doneTrades : Finset TradeKey
  log : List Effect
deriving DecidableEq

/-- The constructor `NewTradeCollector(symbol, position, orderStore)`; the order
store is passed to the operations instead of being kept in the collector. -/
def NewTradeCollector (symbol : String) (position : Position) : TradeCollector :=
  { Symbol := symbol
    tradeStore := NewTradeStore symbol
    doneTrades := ∅
    position := position
    log := [] }

namespace TradeCollector

/-- The method `EmitTrade(trade)`. -/
def EmitTrade (c : TradeCollector) (trade : Trade) : TradeCollector :=
  { c with log := c.log ++ [Effect.emitTrade trade] }

/-- The method `EmitProfit(trade, profit, netProfit)`. -/
def EmitProfit (c : TradeCollector) (trade : Trade) (profit netProfit : Int) : TradeCollector :=
  { c with log := c.log ++ [Effect.emitProfit trade profit netProfit] }

/-- The method `EmitPositionUpdate(position)`. -/
def EmitPositionUpdate (c : TradeCollector) (position : Position) : TradeCollector :=
  { c with log := c.log ++ [Effect.emitPositionUpdate position] }

/-- The method `EmitRecover(trade)`. -/
def EmitRecover (c : TradeCollector) (trade : Trade) : TradeCollector :=
  { c with log := c.log ++ [Effect.emitRecover trade] }

/-- The call `c.position.AddTrade(trade)`: the position is updated in place
and the call is recorded. -/
def callAddTrade (addTrade : AddTradeFn) (c : TradeCollector) (trade : Trade) :
    TradeCollector × Int × Int × Bool :=
  let r := addTrade c.position trade
  ({ c with position := r.1, log := c.log ++ [Effect.addTrade trade] }, r.2)

/-- The statement shared by `Process` and `processTrade`:
`if profit, netProfit, madeProfit := c.position.AddTrade(trade); madeProfit`
emits the trade and the profit, and otherwise the trade only. -/
def applyTrade (addTrade : AddTradeFn) (c : TradeCollector) (trade : Trade) : TradeCollector :=
  let r := callAddTrade addTrade c trade
  if r.2.2.2 then
    (r.1.EmitTrade trade).EmitProfit trade r.2.1 r.2.2.1
  else
    r.1.EmitTrade trade

/-- The closure passed to `tradeStore.Filter` in `Process`; its state is the
collector together with the local variable `positionChanged`. -/
def processFilter (addTrade : AddTradeFn) (orders : OrderStore)
    (s : TradeCollector × Bool) (trade : Trade) : Bool × (TradeCollector × Bool) :=
  let key := trade.Key
  if key ∈ s.1.doneTrades then
    (true, s)
  else if orders.Exists trade.OrderID then
    let c1 := { s.1 with doneTrades := insert key s.1.doneTrades }
    let c2 := applyTrade addTrade c1 trade
    (true, (c2, true))
  else
    (false, s)

/-- The method `Process()`: one pass over the pending trades, then one
position-update event when the pass changed the position. -/
def Process (addTrade : AddTradeFn) (orders : OrderStore) (c : TradeCollector) :
    Bool × TradeCollector :=
  let r := filterPass (processFilter addTrade orders) c.tradeStore.trades (c, false)
  let c1 := { r.2.1 with tradeStore := { c.tradeStore with trades := r.1 } }
  let positionChanged := r.2.2
  if positionChanged then
    (positionChanged, c1.EmitPositionUpdate c1.position)
  else
    (positionChanged, c1)

/-- The method `processTrade(trade)`. -/
def processTrade (addTrade : AddTradeFn) (orders : OrderStore) (c : TradeCollector)
    (trade : Trade) : Bool × TradeCollector :=
  if orders.Exists trade.OrderID then
    let key := trade.Key
    if key ∈ c.doneTrades then
      (false, c)
    else
      let c1 := applyTrade addTrade c trade
      let c2 := c1.EmitPositionUpdate c1.position
      (true, { c2 with doneTrades := insert key c2.doneTrades })
  else
    (false, c)

/-- The method `ProcessTrade(trade)`. -/
def ProcessTrade (addTrade : AddTradeFn) (orders : OrderStore) (c : TradeCollector)
    (trade : Trade) : Bool × TradeCollector :=
  let key := trade.Key
  if key ∈ c.doneTrades then
    (false, c)
  else
    let r := processTrade addTrade orders c trade
    if r.1 then
      (true, r.2)
    else
      (false, { r.2 with tradeStore := r.2.tradeStore.Add trade })

/-- The loop of `Recover` over the trades the history query returned. -/
def recoverLoop (addTrade : AddTradeFn) (orders : OrderStore) :
    TradeCollector → List Trade → TradeCollector
  | c, [] => c
  | c, td :: rest =>
    let r := ProcessTrade addTrade orders c td
    if r.1 then
      recoverLoop addTrade orders (r.2.EmitRecover td) rest
    else
      recoverLoop addTrade orders r.2 rest

/-- The method `Recover(ctx, ex, symbol, from)`: `query` is what `ex.QueryTrades`
returned, the trades or the error; the result is the returned error (`none`
for `nil`) and the collector after the call. -/
def Recover {ε : Type} (addTrade : AddTradeFn) (orders : OrderStore) (c : TradeCollector)
    (query : Except ε (List Trade)) : Option ε × TradeCollector :=
  match query with
  | Except.error err => (some err, c)
  | Except.ok trades => (none, recoverLoop addTrade orders c trades)

/-- The collector `c` seen by a pass of `Process` that meets the pending
trades in the order `visit`. -/
def withVisit (c : TradeCollector) (visit : List Trade) : TradeCollector :=
  { c with tradeStore := { c.tradeStore with trades := visit } }

/-- One call made on the collector, with the order store as it is at the time
of the call.  The iteration order of a Go map is not fixed, so a call of
`Process` also names the order `visit` in which its pass meets the pending
trades. -/
inductive Call where
  | processTrade (orders : OrderStore) (trade : Trade)
  | process (orders : OrderStore) (visit : List Trade)

/-- The collector after one call.  A `visit` that is not a rearrangement of the
pending trades describes no pass of `Process`; such a call changes nothing. -/
def callStep (addTrade : AddTradeFn) (c : TradeCollector) : Call → TradeCollector
  | Call.processTrade orders trade => (ProcessTrade addTrade orders c trade).2
  | Call.process orders visit =>
    if visit.Perm c.tradeStore.trades then
      (Process addTrade orders (c.withVisit visit)).2
    else
      c

/-- The collector after a finite sequence of calls. -/
def runCalls (addTrade : AddTradeFn) (c : TradeCollector) (calls : List Call) : TradeCollector :=
  calls.foldl (callStep addTrade) c

end TradeCollector

/-- Whether an entry of the log is a call of `Position.AddTrade` with a trade of key `k`. -/
def Effect.isAddTradeOf (k : TradeKey) : Effect → Bool
  | Effect.addTrade trade => decide (trade.Key = k)
  | _ => false

/-- Number of calls of `Position.AddTrade` with a trade of key `k` in a log. -/
def addTradeCount (k : TradeKey) (log : List Effect) : Nat :=
  log.countP (Effect.isAddTradeOf k)

/-- Whether an entry of the log is a call of `Position.AddTrade`. -/
def Effect.isAddTrade : Effect → Bool
  | Effect.addTrade _ => true
  | _ => false

/-- Whether an entry of the log is a position-update event. -/
def Effect.isPositionUpdate : Effect → Bool
  | Effect.emitPositionUpdate _ => true
  | _ => false

/-- The values `(trade, profit, netProfit)` of the profit events of a log, in order. -/
def profitEvents (log : List Effect) : List (Trade × Int × Int) :=
  log.filterMap fun e =>
    match e with
    | Effect.emitProfit trade profit netProfit => some (trade, profit, netProfit)
    | _ => none

/-- What was appended to the log between the collector `before` and the
collector `after` of an operation. -/
def emitted (before after : TradeCollector) : List Effect :=
  after.log.drop before.log.length

namespace TradeCollector

/-- The state of the closure of `Process` after its pass over the pending trades. -/
def passResult (addTrade : AddTradeFn) (orders : OrderStore) (c : TradeCollector) :
    List Trade × (TradeCollector × Bool) :=
  filterPass (processFilter addTrade orders) c.tradeStore.trades (c, false)

/-- Invariant behind idempotence: relative to a log that held `n` calls of
`AddTrade` for the key `k`, at most one more call was made, and none while the
key is not in the done set. -/
def OncePerKey (k : TradeKey) (n : Nat) (c : TradeCollector) : Prop :=
  addTradeCount k c.log ≤ n + 1 ∧ (k ∉ c.doneTrades → addTradeCount k c.log ≤ n)

/-- What holds of the state `s` of the closure of `Process` during a pass that
started from the collector `c`: the log grew by entries `e` without any
position-update event, and `positionChanged` is set exactly when `e` holds a
call of `AddTrade`. -/
def PassLog (c : TradeCollector) (s : TradeCollector × Bool) : Prop :=
  ∃ e : List Effect, s.1.log = c.log ++ e ∧ e.countP Effect.isPositionUpdate = 0 ∧
    (s.2 = true ↔ 0 < e.countP Effect.isAddTrade)

/-- A buffered trade that a pass of `Process` applies, given the done set at
the start of the pass: its key is not done and its order exists. -/
def applicable (orders : OrderStore) (done : Finset TradeKey) (u : Trade) : Bool :=
  decide (u.Key ∉ done) && orders.Exists u.OrderID

/-- A buffered trade that a pass of `Process` leaves in the pending store, given
the done set at the start of the pass: its key is not done and its order is
unknown. -/
def stays (orders : OrderStore) (done : Finset TradeKey) (u : Trade) : Bool :=
  decide (u.Key ∉ done) && !orders.Exists u.OrderID

/-- The collector after the trades `trades` were applied one after the other
the way the closure of `Process` applies a trade: the key is marked done, then
`AddTrade` is called and the events are emitted. -/
def applyAll (addTrade : AddTradeFn) (c : TradeCollector) (trades : List Trade) :
    TradeCollector :=
  trades.foldl
    (fun c u => applyTrade addTrade { c with doneTrades := insert u.Key c.doneTrades } u) c

/-- Two collectors that agree on position, done set, pending store and on the
values of the profit events emitted so far. -/
def SameLedger (c d : TradeCollector) : Prop :=
  c.position = d.position ∧ c.doneTrades = d.doneTrades ∧ c.tradeStore = d.tradeStore ∧
    profitEvents c.log = profitEvents d.log

/-- The pending store is a mapping keyed by trade key: no two entries share a key. -/
def KeysUnique (c : TradeCollector) : Prop :=
  (c.tradeStore.trades.map Trade.Key).Nodup

end TradeCollector

/-- The trades of the recovered events of a log, in order. -/
def recoverEvents (log : List Effect) : List Trade :=
  log.filterMap fun e =>
    match e with
    | Effect.emitRecover trade => some trade
    | _ => none

/-- Whether an entry of the log is a trade event or a recovered event. -/
def Effect.isTradeOrRecover : Effect → Bool
  | Effect.emitTrade _ => true
  | Effect.emitRecover _ => true
  | _ => false

/-- For each trade of the list, its trade event followed by its recovered event. -/
def tradeThenRecover : List Trade → List Effect
  | [] => []
  | trade :: rest => Effect.emitTrade trade :: Effect.emitRecover trade :: tradeThenRecover rest

namespace TradeCollector

/-- The trades of a delivery, in order, that are applied when they are met
one after the other: the order of the trade exists and its key is neither in
`done` nor the key of an earlier trade of the delivery that was applied. -/
def firstDeliveries (orders : OrderStore) : Finset TradeKey → List Trade → List Trade
  | _, [] => []
  | done, trade :: rest =>
    if trade.Key ∉ done ∧ orders.Exists trade.OrderID = true then
      trade :: firstDeliveries orders (insert trade.Key done) rest
    else
      firstDeliveries orders done rest

/-- The trades for which `ProcessTrade` returns true when it is called on each
trade of the list in order. -/
def newlyApplied (addTrade : AddTradeFn) (orders : OrderStore) :
    TradeCollector → List Trade → List Trade
  | _, [] => []
  | c, trade :: rest =>
    if (ProcessTrade addTrade orders c trade).1 then
      trade :: newlyApplied addTrade orders (ProcessTrade addTrade orders c trade).2 rest
    else
      newlyApplied addTrade orders (ProcessTrade addTrade orders c trade).2 rest

/-- The log entries of applying the trades one after the other from the
position `p`: for each trade the call of `AddTrade`, the trade event and, when
`AddTrade` reported a profit, the profit event with the returned values. -/
def applyTrace (addTrade : AddTradeFn) : Position → List Trade → List Effect
  | _, [] => []
  | p, trade :: rest =>
    Effect.addTrade trade :: Effect.emitTrade trade ::
      ((if (addTrade p trade).2.2.2 then
        [Effect.emitProfit trade (addTrade p trade).2.1 (addTrade p trade).2.2.1]
      else []) ++ applyTrace addTrade (addTrade p trade).1 rest)

/-- The position after `AddTrade` was called with the trades one after the other. -/
def applyPosition (addTrade : AddTradeFn) : Position → List Trade → Position
  | p, [] => p
  | p, trade :: rest => applyPosition addTrade (addTrade p trade).1 rest

end TradeCollector

/-! ## Callbacks

Source: `pkg/bbgo/tradecollector_callbacks.go`.  A handler is a function with
side effects; it is a function on the state `W` of the observers. -/

/-- The callback lists of `TradeCollector`. -/
structure Callbacks (W : Type) where
  recoverCallbacks : List (Trade → W → W)
  tradeCallbacks : List (Trade → W → W)
  positionUpdateCallbacks : List (Position → W → W)
  profitCallbacks : List (Trade → Int → Int → W → W)

namespace Callbacks

/-- The callback lists of a new collector: `NewTradeCollector` leaves them nil. -/
def empty {W : Type} : Callbacks W := ⟨[], [], [], []⟩

/-- The method `OnTrade(cb)`. -/
def OnTrade {W : Type} (c : Callbacks W) (cb : Trade → W → W) : Callbacks W :=
  { c with tradeCallbacks := c.tradeCallbacks ++ [cb] }

/-- The method `EmitTrade(trade)`: the loop over `tradeCallbacks`. -/
def EmitTrade {W : Type} (c : Callbacks W) (trade : Trade) (w : W) : W :=
  c.tradeCallbacks.foldl (fun w cb => cb trade w) w

/-- The method `OnPositionUpdate(cb)`. -/
def OnPositionUpdate {W : Type} (c : Callbacks W) (cb : Position → W → W) : Callbacks W :=
  { c with positionUpdateCallbacks := c.positionUpdateCallbacks ++ [cb] }

/-- The method `EmitPositionUpdate(position)`: the loop over `positionUpdateCallbacks`. -/
def EmitPositionUpdate {W : Type} (c : Callbacks W) (position : Position) (w : W) : W :=
  c.positionUpdateCallbacks.foldl (fun w cb => cb position w) w

/-- Modelled from the spec: `OnRecover(cb)` is called by the collector's users
and is not in the callbacks file; it follows the pattern of `OnTrade`. -/
def OnRecover {W : Type} (c : Callbacks W) (cb : Trade → W → W) : Callbacks W :=
  { c with recoverCallbacks := c.recoverCallbacks ++ [cb] }

/-- Modelled from the spec: `EmitRecover(trade)` is called by `Recover` and is
not in the callbacks file; it follows the pattern of `EmitTrade`. -/
def EmitRecover {W : Type} (c : Callbacks W) (trade : Trade) (w : W) : W :=
  c.recoverCallbacks.foldl (fun w cb => cb trade w) w

/-- Modelled from the spec: `OnProfit(cb)` is not in the callbacks file; it
follows the pattern of `OnTrade`. -/
def OnProfit {W : Type} (c : Callbacks W) (cb : Trade → Int → Int → W → W) : Callbacks W :=
  { c with profitCallbacks := c.profitCallbacks ++ [cb] }

/-- Modelled from the spec: `EmitProfit(trade, profit, netProfit)` is called by
`Process` and `processTrade` and is not in the callbacks file; it follows the
pattern of `EmitTrade`. -/
def EmitProfit {W : Type} (c : Callbacks W) (trade : Trade) (profit netProfit : Int) (w : W) : W :=
  c.profitCallbacks.foldl (fun w cb => cb trade profit netProfit w) w

/-- What one entry of the collector's log does to the observers: an `Emit*`
call runs the handlers of its kind, a call of `AddTrade` runs none. -/
def deliver {W : Type} (c : Callbacks W) : Effect → W → W
  | Effect.addTrade _, w => w
  | Effect.emitTrade trade, w => c.EmitTrade trade w
  | Effect.emitProfit trade profit netProfit, w => c.EmitProfit trade profit netProfit w
  | Effect.emitPositionUpdate position, w => c.EmitPositionUpdate position w
  | Effect.emitRecover trade, w => c.EmitRecover trade w

/-- What the entries of a log do to the observers, in order. -/
def deliverAll {W : Type} (c : Callbacks W) (log : List Effect) (w : W) : W :=
  log.foldl (fun w e => c.deliver e w) w

/-- A handler that records its number and the value it was invoked with. -/
def record {α : Type} (i : Nat) : α → List (Nat × α) → List (Nat × α) :=
  fun a w => w ++ [(i, a)]

/-- The callback lists after `OnTrade` was called with each handler of the list in order. -/
def registerTrade {W : Type} (c : Callbacks W) (cbs : List (Trade → W → W)) : Callbacks W :=
  cbs.foldl OnTrade c

/-- The callback lists after `OnPositionUpdate` was called with each handler
of the list in order. -/
def registerPositionUpdate {W : Type} (c : Callbacks W) (cbs : List (Position → W → W)) :
    Callbacks W :=
  cbs.foldl OnPositionUpdate c

end Callbacks

namespace TradeCollector

/-- The log entries of a recovery that newly applies the trades of the list
one after the other from the position `p`: for each trade the entries of its
application, the position-update event and the recovered event. -/
def recoverTrace (addTrade : AddTradeFn) : Position → List Trade → List Effect
  | _, [] => []
  | p, trade :: rest =>
    Effect.addTrade trade :: Effect.emitTrade trade ::
      ((if (addTrade p trade).2.2.2 then
        [Effect.emitProfit trade (addTrade p trade).2.1 (addTrade p trade).2.2.1]
      else []) ++
        Effect.emitPositionUpdate (addTrade p trade).1 :: Effect.emitRecover trade ::
          recoverTrace addTrade (addTrade p trade).1 rest)

end TradeCollector

/-- Observers that record the invocations of one handler registered with
`OnTrade`, numbered 1, and of one handler registered with `OnRecover`,
numbered 2. -/
def Callbacks.tradeAndRecoverRecorder : Callbacks (List (Nat × Trade)) :=
  (Callbacks.empty.OnTrade (Callbacks.record 1)).OnRecover (Callbacks.record 2)

namespace TradeCollector

/-- One wake-up of the loop of `Run`: the context is done, the ticker fired,
the order signal fired, or a trade was taken from the trade channel. -/
inductive Wake where
  | ctxDone
  | ticker
  | orderSig
  | tradeC (trade : Trade)

/-- One turn of the loop of `Run` for the wake-up it was given: the collector
after the turn, and whether the loop goes on (false when `Run` returns). -/
def runStep (addTrade : AddTradeFn) (orders : OrderStore) (c : TradeCollector) :
    Wake → Bool × TradeCollector
  | Wake.ctxDone => (false, c)
  | Wake.ticker => (true, (Process addTrade orders c).2)
  | Wake.orderSig => (true, (Process addTrade orders c).2)
  | Wake.tradeC trade => (true, (ProcessTrade addTrade orders c trade).2)

/-- The done set of `d` extends the done set of `c`, the log of `d` holds at
least the calls of `AddTrade` of the log of `c`, and for every key that is
done in `d` and was not in `c` the log of `d` holds a call of `AddTrade` with a
trade of that key that the log of `c` does not hold. -/
def DoneGrows (c d : TradeCollector) : Prop :=
  c.doneTrades ⊆ d.doneTrades ∧
    (∀ k, addTradeCount k c.log ≤ addTradeCount k d.log) ∧
    (∀ k, k ∈ d.doneTrades → k ∉ c.doneTrades →
      addTradeCount k c.log < addTradeCount k d.log)

end TradeCollector

/-! ## Stock distribution

Source: the call `stockManager.AddTrades(trades)` in `cmd/pnl.go`; the type
`StockDistribution` itself is not among the sources. -/

/-- The quantity of a trade with its sign: positive for a buy, negative for a sell. -/
def Trade.signedQuantity (trade : Trade) : Int :=
  match trade.Side with
  | SideType.Buy => trade.Quantity
  | SideType.Sell => - trade.Quantity

/-- The running net quantity after the trades, from the quantity `start`. -/
def netQuantity (start : Int) (trades : List Trade) : Int :=
  start + (trades.map Trade.signedQuantity).sum

/-- Modelled from the spec: `StockDistribution` is not among the sources; its
state is the ordered trade sequence and the running inventory, kept by the
average-cost rule of the position. -/
structure StockDistribution where
  Symbol : String
  TradingFeeCurrency : String
  Trades : List Trade
  Stocks : Position
deriving DecidableEq, Repr

namespace StockDistribution

/-- Modelled from the spec: the loop of `AddTrades` from the trade index `idx`:
each trade is replayed into the running inventory, and the index is recorded
as a checkpoint when the inventory is back at exactly zero. -/
def addTradesLoop : StockDistribution → Nat → List Trade → List Nat →
    StockDistribution × List Nat
  | m, _, [], checkpoints => (m, checkpoints)
  | m, idx, trade :: rest, checkpoints =>
    let m1 : StockDistribution :=
      { m with Trades := m.Trades ++ [trade], Stocks := (Position.AddTrade m.Stocks trade).1 }
    let checkpoints1 := if m1.Stocks.Base = 0 then checkpoints ++ [idx] else checkpoints
    addTradesLoop m1 (idx + 1) rest checkpoints1

/-- Modelled from the spec: `AddTrades(trades) -> (checkpoints, error)`; the
result is the distribution after the call, the checkpoints and the error.
The error is for trade fields that cannot be parsed; a `Trade` value has none,
so no error is returned. -/
def AddTrades (m : StockDistribution) (trades : List Trade) :
    StockDistribution × List Nat × Option String :=
  let r := addTradesLoop m 0 trades []
  (r.1, r.2, none)

end StockDistribution

/-! ## FTX exchange

Source: `pkg/exchange/ftx/exchange.go` and `pkg/exchange/ftx/convert.go`.  The
REST client, the rate limiter, the clock and the conversions that are not
among the sources are the fields of `Client`; every query returns its result
together with the requests it sent to the exchange. -/

namespace Ftx

/-- An instant (`time.Time`), in nanoseconds counted from the zero value
`time.Time{}`; `After` and `Before` are the order of the integers. -/
abbrev Time := Int

/-- A k-line interval (`types.Interval`), a string such as `1m`. -/
abbrev Interval := String

/-- The function `TrimUpperString`: `strings.ToUpper(strings.TrimSpace(original))`.
The model trims the blanks and raises the letters of ASCII only, with which
the names that the exchange sends are written; `strings.TrimSpace` and
`strings.ToUpper` also treat the spaces and letters of Unicode beyond ASCII.
No theorem of this development depends on which characters are trimmed or
raised. -/
def TrimUpperString (original : String) : String := original.trim.toUpper

/-- Options of a trade query (`types.TradeQueryOptions`); a nil time is `none`. -/
structure TradeQueryOptions where
  StartTime : Option Time
  EndTime : Option Time
  Limit : Int
  LastTradeID : Nat
deriving DecidableEq, Repr

/-- Options of a k-line query (`types.KLineQueryOptions`); a nil time is `none`. -/
structure KLineQueryOptions where
  StartTime : Option Time
  EndTime : Option Time
  Limit : Int
deriving DecidableEq, Repr

/-- A fill as the exchange returns it (`ftxapi.Fill`). -/
structure Fill where
  Id : Nat
  OrderId : Nat
  Market : String
  Side : String
  Price : Int
  Size : Int
  Fee : Int
  FeeCurrency : String
  Time : Time
deriving DecidableEq, Repr

/-- A candle as the exchange returns it in the historical prices. -/
structure Candle where
  StartTime : Time
  Open : Int
  High : Int
  Low : Int
  Close : Int
  Volume : Int
deriving DecidableEq, Repr

/-- A k-line (`types.KLine`). -/
structure KLine where
  Symbol : String
  Interval : Interval
  StartTime : Time
  EndTime : Time
  Open : Int
  High : Int
  Low : Int
  Close : Int
  Volume : Int
deriving DecidableEq, Repr

/-- A deposit record as the exchange returns it. -/
structure DepositRecord where
  ID : Nat
  Coin : String
  Size : Int
  Status : String
  Time : Time
deriving DecidableEq, Repr

/-- A deposit (`types.Deposit`). -/
structure Deposit where
  Asset : String
  Amount : Int
  Time : Time
deriving DecidableEq, Repr

/-- Response of the historical-prices request. -/
structure HistoricalPricesResponse where
  Success : Bool
  Result : List Candle
deriving DecidableEq, Repr

/-- Response of the deposit-history request. -/
structure DepositHistoryResponse where
  Success : Bool
  Result : List DepositRecord
deriving DecidableEq, Repr

/-- A request sent to the exchange. -/
inductive Request where
  | fills (market : String) (since upto : Time)
  | historicalPrices (market : String) (interval : Interval) (since upto : Time)
  | depositHistory (since upto : Time)
deriving DecidableEq, Repr

/-- The errors the queries return: the errors built with `fmt.Errorf` in the
queries, and an error of a collaborator, which is returned as it is. -/
inductive QueryError (ε : Type) where
  | invalidTradesTimeRange (since upto : Time)
  | limitOne
  | invalidKLinesTimeRange (since upto : Time)
  | unsupportedInterval (interval : Interval)
  | ftxFailure
  | invalidDepositTimeRange (since upto : Time)
  | upstream (err : ε)
deriving DecidableEq, Repr

/-- What a query returns, `(value, nil)` or `(nil, err)`, and the requests it
sent to the exchange, in order. -/
structure Outcome (ε α : Type) where
  result : Except (QueryError ε) α
  requests : List Request

/-- The collaborators of the exchange that are not among the sources: the
symbol translation, the answers of the exchange (the fills request is
answered according to the number of fills requests sent before it by the same
query), the rate limiter, the conversions and the clock. -/
structure Client (ε : Type) where
  toLocalSymbol : String → String
  doFills : Nat → String → Time → Time → Except ε (List Fill)
  toGlobalTrade : Fill → Except ε Trade
  wait : Except ε Unit
  historicalPrices : String → Interval → Time → Time → Except ε HistoricalPricesResponse
  toGlobalKLine : String → Interval → Candle → Except ε KLine
  depositHistory : Time → Time → Except ε DepositHistoryResponse
  toGlobalDeposit : DepositRecord → Except ε Deposit
  now : Time

/-- The map `supportedIntervals`: the supported intervals and their length in minutes. -/
def supportedIntervals : List (Interval × Nat) :=
  [("1m", 1), ("5m", 5), ("15m", 15), ("1h", 60), ("1d", 60 * 24), ("3d", 60 * 24 * 3)]

/-- The function `isIntervalSupportedInKLine`. -/
def isIntervalSupportedInKLine (interval : Interval) : Bool :=
  (supportedIntervals.lookup interval).isSome

/-- The loop of `_queryKLines` over the candles of the response. -/
def toGlobalKLines {ε : Type} (client : Client ε) (symbol : String) (interval : Interval) :
    List Candle → List KLine → Except ε (List KLine)
  | [], klines => Except.ok klines
  | r :: rest, klines =>
    match client.toGlobalKLine symbol interval r with
    | Except.error err => Except.error err
    | Except.ok globalKline => toGlobalKLines client symbol interval rest (klines ++ [globalKline])

/-- The method `_queryKLines(ctx, symbol, interval, options)`. -/
def _queryKLines {ε : Type} (client : Client ε) (symbol : String) (interval : Interval)
    (options : KLineQueryOptions) : Outcome ε (List KLine) :=
  let since : Time := options.StartTime.getD 0
  let upto : Time := options.EndTime.getD client.now
  if since > upto then
    ⟨Except.error (QueryError.invalidKLinesTimeRange since upto), []⟩
  else if !isIntervalSupportedInKLine interval then
    ⟨Except.error (QueryError.unsupportedInterval interval), []⟩
  else
    match client.wait with
    | Except.error err => ⟨Except.error (QueryError.upstream err), []⟩
    | Except.ok _ =>
      let request := Request.historicalPrices (client.toLocalSymbol symbol) interval since upto
      match client.historicalPrices (client.toLocalSymbol symbol) interval since upto with
      | Except.error err => ⟨Except.error (QueryError.upstream err), [request]⟩
      | Except.ok resp =>
        if !resp.Success then
          ⟨Except.error QueryError.ftxFailure, [request]⟩
        else
          match toGlobalKLines client symbol interval resp.Result [] with
          | Except.error err => ⟨Except.error (QueryError.upstream err), [request]⟩
          | Except.ok klines => ⟨Except.ok klines, [request]⟩

end Ftx

namespace Ftx

/-- The variables of the loops of `QueryTrades`. -/
structure TradesState where
  since : Time
  tradeIDs : Finset Nat
  lastTradeID : Nat
  trades : List Trade

/-- The loop of `QueryTrades` over the fills of one response, sorted by id. -/
def fillsLoop {ε : Type} (client : Client ε) (upto : Time) :
    TradesState → List Fill → Except ε TradesState
  | st, [] => Except.ok st
  | st, fill :: rest =>
    let st1 : TradesState := { st with since := fill.Time }
    if fill.Id ∈ st1.tradeIDs then
      fillsLoop client upto st1 rest
    else if fill.Id ≤ st1.lastTradeID ∨ fill.Time < st1.since ∨ fill.Time > upto then
      fillsLoop client upto st1 rest
    else
      let st2 : TradesState :=
        { st1 with tradeIDs := insert fill.Id st1.tradeIDs, lastTradeID := fill.Id }
      match client.toGlobalTrade fill with
      | Except.error err => Except.error err
      | Except.ok t => fillsLoop client upto { st2 with trades := st2.trades ++ [t] } rest

/-- The loop `for since.Before(until)` of `QueryTrades`.  The exchange may
answer so that the loop never ends; `fuel` bounds the number of turns, and
the result is `none` when the bound is reached. -/
def tradesLoop {ε : Type} (client : Client ε) (symbol : String) (upto : Time) (limit : Int) :
    Nat → TradesState → List Request → Option (Outcome ε (List Trade))
  | fuel, st, requests =>
    if st.since < upto then
      match fuel with
      | 0 => none
      | fuel + 1 =>
        let request := Request.fills (client.toLocalSymbol symbol) st.since upto
        match client.doFills requests.length (client.toLocalSymbol symbol) st.since upto with
        | Except.error err =>
          some ⟨Except.error (QueryError.upstream err), requests ++ [request]⟩
        | Except.ok fills =>
          match fillsLoop client upto st (fills.insertionSort fun a b => a.Id ≤ b.Id) with
          | Except.error err =>
            some ⟨Except.error (QueryError.upstream err), requests ++ [request]⟩
          | Except.ok st1 =>
            if (fills.length : Int) < limit then
              some ⟨Except.ok st1.trades, requests ++ [request]⟩
            else
              tradesLoop client symbol upto limit fuel st1 (requests ++ [request])
    else
      some ⟨Except.ok st.trades, requests⟩

/-- The method `QueryTrades(ctx, symbol, options)`.  The call
`strings.ToUpper(symbol)` is modelled by `String.toUpper`, which raises the
letters of ASCII only. -/
def QueryTrades {ε : Type} (client : Client ε) (fuel : Nat) (symbol : String)
    (options : TradeQueryOptions) : Option (Outcome ε (List Trade)) :=
  let since : Time := options.StartTime.getD 0
  let upto : Time := options.EndTime.getD client.now
  if since > upto then
    some ⟨Except.error (QueryError.invalidTradesTimeRange since upto), []⟩
  else if options.Limit = 1 then
    some ⟨Except.error QueryError.limitOne, []⟩
  else
    let limit : Int := if options.Limit = 0 then 200 else options.Limit
    tradesLoop client symbol.toUpper upto limit fuel
      ⟨since, ∅, options.LastTradeID, []⟩ []

/-- The loop of `QueryDepositHistory` over the records of the response, sorted by time. -/
def depositsLoop {ε : Type} (client : Client ε) (asset : String) (since upto : Time) :
    List DepositRecord → List Deposit → Except ε (List Deposit)
  | [], allDeposits => Except.ok allDeposits
  | r :: rest, allDeposits =>
    match client.toGlobalDeposit r with
    | Except.error err => Except.error err
    | Except.ok d =>
      if d.Asset = asset ∧ ¬ since > d.Time ∧ ¬ upto < d.Time then
        depositsLoop client asset since upto rest (allDeposits ++ [d])
      else
        depositsLoop client asset since upto rest allDeposits

/-- The method `QueryDepositHistory(ctx, asset, since, until)`. -/
def QueryDepositHistory {ε : Type} (client : Client ε) (asset : String) (since upto : Time) :
    Outcome ε (List Deposit) :=
  let upto : Time := if upto = 0 then client.now else upto
  if since > upto then
    ⟨Except.error (QueryError.invalidDepositTimeRange since upto), []⟩
  else
    let request := Request.depositHistory since upto
    match client.depositHistory since upto with
    | Except.error err => ⟨Except.error (QueryError.upstream err), [request]⟩
    | Except.ok resp =>
      if !resp.Success then
        ⟨Except.error QueryError.ftxFailure, [request]⟩
      else
        match depositsLoop client (TrimUpperString asset) since upto
            (resp.Result.insertionSort fun a b => a.Time ≤ b.Time) [] with
        | Except.error err => ⟨Except.error (QueryError.upstream err), [request]⟩
        | Except.ok allDeposits => ⟨Except.ok allDeposits, [request]⟩

end Ftx

namespace Ftx

/-- The method `IsSupportedInterval(interval)`. -/
def IsSupportedInterval (interval : Interval) : Bool :=
  isIntervalSupportedInKLine interval

/-- The six intervals that are the keys of `supportedIntervals`. -/
def sixIntervals : List Interval := ["1m", "5m", "15m", "1h", "1d", "3d"]

/-- Whether a query returned an error. -/
def Outcome.failed {ε α : Type} (o : Outcome ε α) : Bool :=
  match o.result with
  | Except.error _ => true
  | Except.ok _ => false

/-- Whether the rate limiter let the query wait without error. -/
def Client.waitFailed {ε : Type} (client : Client ε) : Bool :=
  match client.wait with
  | Except.error _ => true
  | Except.ok _ => false

end Ftx

namespace Ftx

/-- The fills `accepted` are the fills the trades were converted from, one by
one and in order. -/
def ConvertedFrom {ε : Type} (client : Client ε) (accepted : List Fill) (trades : List Trade) :
    Prop :=
  List.Forall₂ (fun f t => client.toGlobalTrade f = Except.ok t) accepted trades

/-- What holds of the variables of `QueryTrades` between two fills: the trades
collected so far were converted from fills whose ids increase strictly, lie
above the `LastTradeID` of the options and are at most `lastTradeID`. -/
def AcceptedSoFar {ε : Type} (client : Client ε) (last : Nat) (st : TradesState)
    (accepted : List Fill) : Prop :=
  ConvertedFrom client accepted st.trades ∧
    (accepted.map Fill.Id).Pairwise (· < ·) ∧
    (∀ f ∈ accepted, last < f.Id ∧ f.Id ≤ st.lastTradeID) ∧
    last ≤ st.lastTradeID

end Ftx

namespace fixedpoint

/-- Modelled from the spec: `fixedpoint.NewFromInt`, the fixed-precision value of an integer. -/
def NewFromInt (n : Int) : Int := n * One

end fixedpoint

namespace Ftx

/-- Status of an order (`types.OrderStatus`): the four values that
`toGlobalOrder` assigns, and the empty status of a zero-valued order. -/
inductive OrderStatus where
  | Unset
  | New
  | PartiallyFilled
  | Filled
  | Canceled
deriving DecidableEq, Repr

/-- An order as the exchange returns it (the type `order` of the package);
`F` is the type of its `float64` fields, and `OrderType` is its field `Type`. -/
structure order (F : Type) where
  ID : Int
  ClientId : String
  Market : String
  Side : String
  OrderType : String
  Size : F
  Price : F
  FilledSize : F
  Status : String
  CreatedAt : Time

/-- The submitted part of an order (`types.SubmitOrder`), with the fields that
`toGlobalOrder` sets; `OrderType` is its field `Type`. -/
structure SubmitOrder (F : Type) where
  ClientOrderID : String
  Symbol : String
  Side : String
  OrderType : String
  Quantity : F
  Price : F
  TimeInForce : String

/-- An order (`types.Order`), with the fields that `toGlobalOrder` sets. -/
structure Order (F : Type) where
  SubmitOrder : SubmitOrder F
  Exchange : String
  IsWorking : Bool
  OrderID : Nat
  Status : OrderStatus
  ExecutedQuantity : F
  CreationTime : Time
  UpdateTime : Time

/-- The zero-valued order `types.Order{}`. -/
def Order.zero {F : Type} [Zero F] : Order F :=
  { SubmitOrder :=
      { ClientOrderID := ""
        Symbol := ""
        Side := ""
        OrderType := ""
        Quantity := 0
        Price := 0
        TimeInForce := "" }
    Exchange := ""
    IsWorking := false
    OrderID := 0
    Status := OrderStatus.Unset
    ExecutedQuantity := 0
    CreationTime := 0
    UpdateTime := 0 }

/-- Errors of the conversions: the value `errUnsupportedOrderStatus`, and an
error built by `fmt.Errorf` with the verb `%w`, which wraps another error. -/
inductive ConvertError where
  | unsupportedOrderStatus
  | wrapped (message : String) (inner : ConvertError)
deriving DecidableEq, Repr

/-- The variable `errUnsupportedOrderStatus`. -/
def errUnsupportedOrderStatus : ConvertError := ConvertError.unsupportedOrderStatus

/-- Whether the error is `target` or wraps it (`errors.Is`). -/
def ConvertError.Is : ConvertError → ConvertError → Bool
  | ConvertError.unsupportedOrderStatus, target =>
    decide (ConvertError.unsupportedOrderStatus = target)
  | ConvertError.wrapped message inner, target =>
    decide (ConvertError.wrapped message inner = target) || inner.Is target

/-- The function `toGlobalSymbol`. -/
def toGlobalSymbol (original : String) : String := TrimUpperString original

/-- The function `toGlobalOrder(r)`; `newFromFloat` is `fixedpoint.NewFromFloat`,
which is not among the sources.  The result is the returned order and the
returned error (`none` for `nil`). -/
def toGlobalOrder {F : Type} [Zero F] (newFromFloat : F → Int) (r : order F) :
    Order F × Option ConvertError :=
  let o : Order F :=
    { SubmitOrder :=
        { ClientOrderID := r.ClientId
          Symbol := toGlobalSymbol r.Market
          Side := TrimUpperString r.Side
          OrderType := TrimUpperString r.OrderType
          Quantity := r.Size
          Price := r.Price
          TimeInForce := "GTC" }
      Exchange := "ftx"
      IsWorking := decide (r.Status = "open")
      OrderID := (r.ID % 18446744073709551616).toNat
      Status := OrderStatus.Unset
      ExecutedQuantity := r.FilledSize
      CreationTime := r.CreatedAt
      UpdateTime := r.CreatedAt }
  if r.Status = "new" then
    ({ o with Status := OrderStatus.New }, none)
  else if r.Status = "open" then
    if newFromFloat o.ExecutedQuantity ≠ fixedpoint.NewFromInt 0 then
      ({ o with Status := OrderStatus.PartiallyFilled }, none)
    else
      ({ o with Status := OrderStatus.New }, none)
  else if r.Status = "closed" then
    if newFromFloat o.SubmitOrder.Quantity = newFromFloat o.ExecutedQuantity then
      ({ o with Status := OrderStatus.Filled }, none)
    else
      ({ o with Status := OrderStatus.Canceled }, none)
  else
    (Order.zero, some (ConvertError.wrapped
      ("unsupported status " ++ r.Status ++ ": unsupported order status")
      errUnsupportedOrderStatus))

end Ftx

namespace Ftx

/-- The constant `spotBrokerID`. -/
def spotBrokerID : String := "BBGO"

/-- The built-in `len` of Go on a string: the number of its bytes. -/
def len (s : String) : Nat := s.utf8ByteSize

/-- The slice `s[0:32]` of a string that has more than 32 bytes, for a string
of one-byte characters, as the text of a UUID behind the broker id is: its
first 32 characters. -/
def first32 (s : String) : String := ⟨s.data.take 32⟩

/-- The function `newSpotClientOrderID(originalID)`; `uuid` is the text that
`uuid.New().String()` returns. -/
def newSpotClientOrderID (uuid : String) (originalID : String) : String :=
  let pfx := "x-" ++ spotBrokerID
  let pfxLen := len pfx
  if originalID ≠ "" then
    if pfxLen + len originalID > 32 then
      originalID
    else
      pfx ++ originalID
  else
    let clientOrderID := pfx ++ uuid
    if len clientOrderID > 32 then
      first32 clientOrderID
    else
      clientOrderID

end Ftx

namespace TradeCollector

/-- The loop of `Run` over the wake-ups it gets, each with the order store as
it is at that time: one turn per wake-up, until the context is done; when the
wake-ups are used up the loop is blocked in its `select`. -/
def Run (addTrade : AddTradeFn) : TradeCollector → List (Wake × OrderStore) → TradeCollector
  | c, [] => c
  | c, (wake, orders) :: rest =>
    if (runStep addTrade orders c wake).1 then
      Run addTrade (runStep addTrade orders c wake).2 rest
    else
      (runStep addTrade orders c wake).2

end TradeCollector

namespace Ftx

/-- The method `Unix()` of an instant: the whole seconds since 1970, which
begins 62135596800 seconds after the zero value. -/
def Unix (t : Time) : Int := Int.fdiv t 1000000000 - 62135596800

/-- The variables of the loop of `QueryKLines`. -/
structure KLinesState where
  currentEnd : Time
  klines : List KLine

/-- The loop of `QueryKLines` over the lines of one response. -/
def linesLoop (since : Time) : KLinesState → List KLine → KLinesState
  | st, [] => st
  | st, line :: rest =>
    let st1 : KLinesState :=
      if Unix line.StartTime < Unix st.currentEnd then
        { st with currentEnd := line.StartTime }
      else st
    let st2 : KLinesState :=
      if Unix line.StartTime > Unix since then
        { st1 with klines := st1.klines ++ [line] }
      else st1
    linesLoop since st2 rest

/-- The loop `for` of `QueryKLines`: `clientAt turn` are the collaborators as
they answer in the turn `turn`, and `duration` is `interval.Duration()`.  The
exchange may answer so that the loop never ends; `fuel` bounds the number of
turns, and the result is `none` when the bound is reached.  Otherwise the
result is the error of `_queryKLines`, or the k-lines collected when the loop
is left, and the requests sent. -/
def klinesLoop {ε : Type} (clientAt : Nat → Client ε) (duration : Interval → Int)
    (symbol : String) (interval : Interval) (since : Time) (limit : Int) :
    Nat → Nat → KLinesState → List Request →
      Option (Except (QueryError ε) (List KLine) × List Request)
  | 0, _, _, _ => none
  | fuel + 1, turn, st, requests =>
    let out := _queryKLines (clientAt turn) symbol interval ⟨some since, some st.currentEnd, 0⟩
    match out.result with
    | Except.error err => some (Except.error err, requests ++ out.requests)
    | Except.ok lines =>
      if lines.length = 0 then
        some (Except.ok st.klines, requests ++ out.requests)
      else
        let st1 := linesLoop since st lines
        if lines.length = 1 ∧
            (lines.map fun l => Unix l.StartTime).head? = some (Unix st1.currentEnd) then
          some (Except.ok st1.klines, requests ++ out.requests)
        else if since = 0 ∨ Unix st1.currentEnd = Unix since ∨
            Unix (st1.currentEnd + duration interval * -1) ≤ Unix since then
          some (Except.ok st1.klines, requests ++ out.requests)
        else if limit ≠ 0 ∧ limit ≤ lines.length then
          some (Except.ok st1.klines, requests ++ out.requests)
        else
          klinesLoop clientAt duration symbol interval since limit fuel (turn + 1) st1
            (requests ++ out.requests)

/-- The closure that `QueryKLines` gives to `sort.Slice`: the k-line `a` goes
before `b` when it starts in an earlier whole second. -/
def less (a b : KLine) : Prop := Unix a.StartTime < Unix b.StartTime

instance less.decidable : DecidableRel less :=
  fun a b => inferInstanceAs (Decidable (Unix a.StartTime < Unix b.StartTime))

/-- What `sort.Slice` with the closure `less` promises of a function
`sortSlice` that stands for it: the sorted slice is a rearrangement of the
slice, and no element of it is `less` than an element that stands before it.
The sort is not stable: nothing is promised of the order of two k-lines that
start in the same second. -/
def SortsSlice (sortSlice : List KLine → List KLine) : Prop :=
  ∀ klines : List KLine,
    (sortSlice klines).Perm klines ∧ (sortSlice klines).Pairwise (fun a b => ¬ less b a)

/-- The k-line `a` does not start in a later whole second than `b`. -/
def startsBefore (a b : KLine) : Prop := Unix a.StartTime ≤ Unix b.StartTime

instance startsBefore.decidable : DecidableRel startsBefore :=
  fun a b => inferInstanceAs (Decidable (Unix a.StartTime ≤ Unix b.StartTime))

/-- A sort that moves a k-line before another only when it is `less`, so that
k-lines of one second stay in the order in which they were collected; it is
the insertion sort by which `sort.Slice` sorts a short slice. -/
def stableSortSlice (klines : List KLine) : List KLine := klines.insertionSort startsBefore

/-- The end of `QueryKLines`: the k-lines are sorted by `sortSlice`, which
stands for `sort.Slice` with the closure `less`, and, for a limit that is not
zero, cut to the last `limit` of them.  The slice `klines[limitedItems:]`
panics when `limitedItems` is beyond the length, which a negative limit
causes; the result is then `none`. -/
def sortAndLimit (sortSlice : List KLine → List KLine) (klines : List KLine) (limit : Int) :
    Option (List KLine) :=
  let sorted := sortSlice klines
  if limit ≠ 0 then
    let limitedItems : Int := (sorted.length : Int) - limit
    if limitedItems > 0 then
      if limitedItems ≤ sorted.length then
        some (sorted.drop limitedItems.toNat)
      else
        none
    else
      some sorted
  else
    some sorted

/-- The method `QueryKLines(ctx, symbol, interval, options)`, with the function
`sortSlice` for `sort.Slice`; the result is `none` when the method does not
return: its loop does not end within `fuel` turns, or its last slice panics. -/
def QueryKLines {ε : Type} (sortSlice : List KLine → List KLine) (clientAt : Nat → Client ε)
    (duration : Interval → Int) (fuel : Nat)
    (symbol : String) (interval : Interval) (options : KLineQueryOptions) :
    Option (Outcome ε (List KLine)) :=
  let since : Time := options.StartTime.getD 0
  let upto : Time := options.EndTime.getD (clientAt 0).now
  match klinesLoop clientAt duration symbol interval since options.Limit fuel 0 ⟨upto, []⟩ [] with
  | none => none
  | some (Except.error err, requests) => some ⟨Except.error err, requests⟩
  | some (Except.ok klines, requests) =>
    match sortAndLimit sortSlice klines options.Limit with
    | none => none
    | some result => some ⟨Except.ok result, requests⟩

end Ftx

/-! ## Factor zoo: the second momentum factor

`float64` is a type `F` with the operations that `calculateMomentum2` uses: the
zero, the literal 3, the sum, the product and the quotient.  The type
`KLineValueMapper` is declared outside `momentum2.go`; it is the type of the
functions from a k-line to a `float64`. -/

namespace Factorzoo

/-- The type `KLineValueMapper`: a function from a k-line to a `float64`. -/
abbrev KLineValueMapper (F : Type) := Ftx.KLine → F

/-- The error that `calculateMomentum2` makes with `fmt.Errorf`, kept with the
window that its message shows. -/
inductive MomentumError where
  | insufficientElements (window : Int)
deriving DecidableEq, Repr

/-- The text of the error. -/
def MomentumError.Error : MomentumError → String
  | .insufficientElements window =>
    "insufficient elements for calculating VOL with window = " ++ toString window

/-- The function `calculateMomentum2(klines, window, valA, valB, valC, valD)`;
the second component is the error, `none` for nil. -/
def calculateMomentum2 {F : Type} [Zero F] [Add F] [Mul F] [Div F] [OfNat F 3]
    (klines : List Ftx.KLine) (window : Int)
    (valA valB valC valD : KLineValueMapper F) : F × Option MomentumError :=
  let length := klines.length
  if h : length = 0 ∨ (length : Int) < window then
    (0, some (.insufficientElements window))
  else
    have hlast : length - 1 < klines.length := by
      have h0 : ¬ length = 0 := fun h0 => h (Or.inl h0)
      omega
    let momentum := (valA (klines.get ⟨length - 1, hlast⟩) + valB (klines.get ⟨length - 1, hlast⟩) +
      valC (klines.get ⟨length - 1, hlast⟩) / 3) * valD (klines.get ⟨length - 1, hlast⟩)
    (momentum, none)

end Factorzoo


namespace TradeCollector

/-- Whether the wake-up is the end of the context. -/
def Wake.isDone : Wake → Bool
  | Wake.ctxDone => true
  | _ => false

/-- One unit of work of the collector, as the description of `Run` names
them: a call of `Process`, or a call of `ProcessTrade` with a trade, each with
the order store as it is at that time. -/
inductive Work where
  | process (orders : OrderStore)
  | processTrade (orders : OrderStore) (trade : Trade)

/-- The collector after one unit of work. -/
def workStep (addTrade : AddTradeFn) (c : TradeCollector) : Work → TradeCollector
  | Work.process orders => (Process addTrade orders c).2
  | Work.processTrade orders trade => (ProcessTrade addTrade orders c trade).2

/-- The collector after a sequence of units of work. -/
def runWork (addTrade : AddTradeFn) (c : TradeCollector) (work : List Work) : TradeCollector :=
  work.foldl (workStep addTrade) c

/-- The units of work that the description of `Run` gives for a sequence of
wake-ups: one `Process` for a tick of the ticker, one `Process` for an order
signal, one `ProcessTrade` for a trade taken from the channel, and nothing
from the end of the context on. -/
def workOf : List (Wake × OrderStore) → List Work
  | [] => []
  | (Wake.ctxDone, _) :: _ => []
  | (Wake.ticker, orders) :: rest => Work.process orders :: workOf rest
  | (Wake.orderSig, orders) :: rest => Work.process orders :: workOf rest
  | (Wake.tradeC trade, orders) :: rest => Work.processTrade orders trade :: workOf rest

end TradeCollector

/-! ## Sample values -/

/-- An empty position for the symbol `BTCUSDT`. -/
def samplePosition : Position := ⟨"BTCUSDT", 0, 0, 0⟩

/-- Trade 1 of order 10: buy 1.0 at 100. -/
def sampleBuy : Trade :=
  ⟨1, 10, "BTCUSDT", SideType.Buy, 10000000000, 100000000, 0, "USDT", 0⟩

/-- Trade 2 of order 10: sell 1.0 at 120. -/
def sampleSell : Trade :=
  ⟨2, 10, "BTCUSDT", SideType.Sell, 12000000000, 100000000, 0, "USDT", 1⟩

/-- Trade 3 of order 11: buy 1.0 at 110. -/
def sampleOther : Trade :=
  ⟨3, 11, "BTCUSDT", SideType.Buy, 11000000000, 100000000, 0, "USDT", 2⟩

/-- A fresh collector for `BTCUSDT`. -/
def sampleCollector : TradeCollector := NewTradeCollector "BTCUSDT" samplePosition

/-- An order store without any order. -/
def noOrders : OrderStore := ⟨[]⟩

/-- An order store that knows order 10. -/
def knownOrders : OrderStore := noOrders.Add 10

/-- The fresh collector after the sample sell was delivered while its order
was unknown: the sell is buffered. -/
def sampleBuffered : TradeCollector :=
  (TradeCollector.ProcessTrade Position.AddTrade noOrders sampleCollector sampleSell).2

/-- The fresh collector after the sample trade of order 11 was delivered while
its order was unknown. -/
def sampleBufferedOther : TradeCollector :=
  (TradeCollector.ProcessTrade Position.AddTrade noOrders sampleCollector sampleOther).2

/-- The collector after the three sample trades were delivered while their
orders were unknown and the sample buy was delivered again with order 10
known: the buy is applied and still buffered, the sell and the trade of order
11 are buffered. -/
def sampleMixed : TradeCollector :=
  TradeCollector.runCalls Position.AddTrade sampleCollector
    [TradeCollector.Call.processTrade noOrders sampleBuy,
      TradeCollector.Call.processTrade noOrders sampleSell,
      TradeCollector.Call.processTrade noOrders sampleOther,
      TradeCollector.Call.processTrade knownOrders sampleBuy]

/-- The fresh collector after the sample buy was delivered while its order was
unknown: the buy is buffered. -/
def sampleBufferedBuy : TradeCollector :=
  (TradeCollector.ProcessTrade Position.AddTrade noOrders sampleCollector sampleBuy).2

/-- The collector `sampleBufferedBuy` after the sample buy was delivered again
with order 10 known: the buy is applied. -/
def sampleAppliedBuy : TradeCollector :=
  (TradeCollector.ProcessTrade Position.AddTrade knownOrders sampleBufferedBuy sampleBuy).2

/-- A client whose exchange answers every request with an empty result, at the
time 1000 of the clock. -/
def Ftx.sampleClient : Ftx.Client String :=
  { toLocalSymbol := fun s => s
    doFills := fun _ _ _ _ => Except.ok []
    toGlobalTrade := fun _ => Except.error "no conversion"
    wait := Except.ok ()
    historicalPrices := fun _ _ _ _ => Except.ok ⟨true, []⟩
    toGlobalKLine := fun _ _ _ => Except.error "no conversion"
    depositHistory := fun _ _ => Except.ok ⟨true, []⟩
    toGlobalDeposit := fun _ => Except.error "no conversion"
    now := 1000 }

/-- The sample client with a rate limiter that fails. -/
def Ftx.sampleLimitedClient : Ftx.Client String :=
  { Ftx.sampleClient with wait := Except.error "rate limit" }

/-- A fill with the id `id` at the time `t`. -/
def Ftx.sampleFill (id : Nat) (t : Ftx.Time) : Ftx.Fill :=
  ⟨id, 10, "BTC/USDT", "buy", 10000000000, 100000000, 0, "USDT", t⟩

/-- A conversion of a fill to a trade that keeps the id of the fill. -/
def Ftx.sampleConvert (f : Ftx.Fill) : Trade :=
  ⟨f.Id, f.OrderId, "BTCUSDT", SideType.Buy, f.Price, f.Size, f.Fee, f.FeeCurrency,
    f.Time.toNat⟩

/-- A client whose exchange answers the first fills request with the fills 3,
1, 2 and every later one with the fills 3, 4, so that the pages overlap; a
fill is converted to a trade with its id. -/
def Ftx.samplePagedClient : Ftx.Client String :=
  { Ftx.sampleClient with
    doFills := fun n _ _ _ =>
      if n = 0 then
        Except.ok [Ftx.sampleFill 3 30, Ftx.sampleFill 1 10, Ftx.sampleFill 2 20]
      else
        Except.ok [Ftx.sampleFill 3 30, Ftx.sampleFill 4 40]
    toGlobalTrade := fun f => Except.ok (Ftx.sampleConvert f)
    toLocalSymbol := fun _ => "BTC/USDT" }

/-- The text of a UUID. -/
def Ftx.sampleUuid : String := "123e4567-e89b-12d3-a456-426614174000"

/-- A client order id of 14 characters that take two bytes each. -/
def Ftx.sampleWideID : String := "éééééééééééééé"

/-- The instant `s` seconds after the beginning of 1970. -/
def Ftx.atSecond (s : Int) : Ftx.Time := (62135596800 + s) * 1000000000

/-- A candle that starts `s` seconds after the beginning of 1970. -/
def Ftx.sampleCandle (s : Int) : Ftx.Candle := ⟨Ftx.atSecond s, 1, 1, 1, 1, 1⟩

/-- A conversion of a candle to a k-line that keeps the start time. -/
def Ftx.sampleKLine (symbol : String) (interval : Ftx.Interval) (r : Ftx.Candle) : Ftx.KLine :=
  ⟨symbol, interval, r.StartTime, r.StartTime + 60000000000, r.Open, r.High, r.Low, r.Close,
    r.Volume⟩

/-- A client whose exchange answers the historical-prices request with the
candles of second 30, second 20 and second 5. -/
def Ftx.sampleKLineClient : Ftx.Client String :=
  { Ftx.sampleClient with
    historicalPrices := fun _ _ _ _ =>
      Except.ok ⟨true, [Ftx.sampleCandle 30, Ftx.sampleCandle 20, Ftx.sampleCandle 5]⟩
    toGlobalKLine := fun symbol interval r => Except.ok (Ftx.sampleKLine symbol interval r)
    toLocalSymbol := fun _ => "BTC/USDT" }

/-- A candle that starts at the instant `t`. -/
def Ftx.sampleCandleAt (t : Ftx.Time) : Ftx.Candle := ⟨t, 1, 1, 1, 1, 1⟩

/-- A client whose exchange answers the historical-prices request with two
candles of the second 200: the first starts 0.7 seconds and the second 0.2
seconds after the beginning of that second. -/
def Ftx.sampleSubSecondClient : Ftx.Client String :=
  { Ftx.sampleKLineClient with
    historicalPrices := fun _ _ _ _ =>
      Except.ok ⟨true, [Ftx.sampleCandleAt (Ftx.atSecond 200 + 700000000),
        Ftx.sampleCandleAt (Ftx.atSecond 200 + 200000000)]⟩ }

/-- Three k-lines; the last has the high 6, the low 4, the close 3 and the
volume 2. -/
def Factorzoo.sampleWindow : List Ftx.KLine :=
  [⟨"BTCUSDT", "1m", 0, 60, 1, 2, 1, 1, 9⟩, ⟨"BTCUSDT", "1m", 60, 120, 1, 3, 1, 2, 9⟩,
   ⟨"BTCUSDT", "1m", 120, 180, 5, 6, 4, 3, 2⟩]


/-! ## Basic facts -/

namespace TradeCollector

theorem applyTrade_eq (addTrade : AddTradeFn) (c : TradeCollector) (trade : Trade) :
    applyTrade addTrade c trade =
      { c with
        position := (addTrade c.position trade).1
        log := c.log ++ Effect.addTrade trade :: Effect.emitTrade trade ::
          (if (addTrade c.position trade).2.2.2 then
            [Effect.emitProfit trade (addTrade c.position trade).2.1
              (addTrade c.position trade).2.2.1]
          else []) } := by
  unfold applyTrade callAddTrade EmitProfit EmitTrade
  by_cases h : (addTrade c.position trade).2.2.2 = true <;> simp [h]

theorem processTrade_known (addTrade : AddTradeFn) (orders : OrderStore) (c : TradeCollector)
    (trade : Trade) (hk : trade.Key ∉ c.doneTrades) (ho : orders.Exists trade.OrderID = true) :
    processTrade addTrade orders c trade =
      (true, { c with
        position := (addTrade c.position trade).1
        doneTrades := insert trade.Key c.doneTrades
        log := c.log ++ Effect.addTrade trade :: Effect.emitTrade trade ::
          ((if (addTrade c.position trade).2.2.2 then
            [Effect.emitProfit trade (addTrade c.position trade).2.1
              (addTrade c.position trade).2.2.1]
          else []) ++ [Effect.emitPositionUpdate (addTrade c.position trade).1]) }) := by
  unfold processTrade
  simp [ho, hk, applyTrade_eq, EmitPositionUpdate]

theorem processTrade_unknown (addTrade : AddTradeFn) (orders : OrderStore) (c : TradeCollector)
    (trade : Trade) (ho : orders.Exists trade.OrderID = false) :
    processTrade addTrade orders c trade = (false, c) := by
  unfold processTrade
  simp [ho]

theorem mem_Add (s : TradeStore) (trade : Trade) : trade ∈ (s.Add trade).trades := by
  unfold TradeStore.Add
  split
  · rename_i h
    simp only [List.any_eq_true, decide_eq_true_eq] at h
    obtain ⟨u, hu, hkey⟩ := h
    simp only [List.mem_map]
    exact ⟨u, hu, by simp [hkey]⟩
  · simp

theorem ProcessTrade_done (addTrade : AddTradeFn) (orders : OrderStore) (c : TradeCollector)
    (trade : Trade) (hdone : trade.Key ∈ c.doneTrades) :
    ProcessTrade addTrade orders c trade = (false, c) := by
  unfold ProcessTrade
  simp [hdone]

theorem ProcessTrade_known (addTrade : AddTradeFn) (orders : OrderStore) (c : TradeCollector)
    (trade : Trade) (hk : trade.Key ∉ c.doneTrades) (ho : orders.Exists trade.OrderID = true) :
    ProcessTrade addTrade orders c trade =
      (true, { c with
        position := (addTrade c.position trade).1
        doneTrades := insert trade.Key c.doneTrades
        log := c.log ++ Effect.addTrade trade :: Effect.emitTrade trade ::
          ((if (addTrade c.position trade).2.2.2 then
            [Effect.emitProfit trade (addTrade c.position trade).2.1
              (addTrade c.position trade).2.2.1]
          else []) ++ [Effect.emitPositionUpdate (addTrade c.position trade).1]) }) := by
  unfold ProcessTrade
  simp [hk, processTrade_known addTrade orders c trade hk ho]

theorem ProcessTrade_unknown (addTrade : AddTradeFn) (orders : OrderStore) (c : TradeCollector)
    (trade : Trade) (hk : trade.Key ∉ c.doneTrades) (ho : orders.Exists trade.OrderID = false) :
    ProcessTrade addTrade orders c trade =
      (false, { c with tradeStore := c.tradeStore.Add trade }) := by
  unfold ProcessTrade
  simp [hk, processTrade_unknown addTrade orders c trade ho]

/-! ### The pass of `Filter` -/

theorem Process_fst (addTrade : AddTradeFn) (orders : OrderStore) (c : TradeCollector) :
    (Process addTrade orders c).1 = (passResult addTrade orders c).2.2 := by
  unfold Process passResult
  by_cases h : (filterPass (processFilter addTrade orders) c.tradeStore.trades (c, false)).2.2 = true
    <;> simp [h]

theorem Process_snd (addTrade : AddTradeFn) (orders : OrderStore) (c : TradeCollector) :
    (Process addTrade orders c).2 =
      { (passResult addTrade orders c).2.1 with
        tradeStore := { c.tradeStore with trades := (passResult addTrade orders c).1 }
        log := (passResult addTrade orders c).2.1.log ++
          (if (passResult addTrade orders c).2.2 then
            [Effect.emitPositionUpdate (passResult addTrade orders c).2.1.position]
          else []) } := by
  unfold Process passResult
  by_cases h : (filterPass (processFilter addTrade orders) c.tradeStore.trades (c, false)).2.2 = true
    <;> simp [h, EmitPositionUpdate]

theorem filterPass_invariant {σ : Type} (predicate : σ → Trade → Bool × σ) (P : σ → Prop)
    (hP : ∀ s trade, P s → P (predicate s trade).2) :
    ∀ (l : List Trade) (s : σ), P s → P (filterPass predicate l s).2
  | [], s, hs => by simpa [filterPass] using hs
  | trade :: rest, s, hs => by
    simp only [filterPass]
    exact filterPass_invariant predicate P hP rest _ (hP s trade hs)

theorem processFilter_inert (addTrade : AddTradeFn) (orders : OrderStore)
    (s : TradeCollector × Bool) (trade : Trade)
    (h : trade.Key ∈ s.1.doneTrades ∨ orders.Exists trade.OrderID = false) :
    (processFilter addTrade orders s trade).2 = s := by
  unfold processFilter
  by_cases hk : trade.Key ∈ s.1.doneTrades
  · simp [hk]
  · rcases h with h | h
    · exact absurd h hk
    · simp [hk, h]

theorem processFilter_apply (addTrade : AddTradeFn) (orders : OrderStore)
    (s : TradeCollector × Bool) (trade : Trade)
    (hk : trade.Key ∉ s.1.doneTrades) (ho : orders.Exists trade.OrderID = true) :
    processFilter addTrade orders s trade =
      (true, (applyTrade addTrade
        { s.1 with doneTrades := insert trade.Key s.1.doneTrades } trade, true)) := by
  unfold processFilter
  simp [hk, ho]

theorem mem_Add_cases (s : TradeStore) (trade u : Trade) (hu : u ∈ (s.Add trade).trades) :
    u = trade ∨ (u ∈ s.trades ∧ u.Key ≠ trade.Key) := by
  unfold TradeStore.Add at hu
  split at hu
  · simp only [List.mem_map] at hu
    obtain ⟨v, hv, hvu⟩ := hu
    by_cases hkey : v.Key = trade.Key
    · left
      simpa [hkey] using hvu.symm
    · right
      simp only [hkey, if_false] at hvu
      subst hvu
      exact ⟨hv, hkey⟩
  · rename_i hany
    simp only [List.mem_append, List.mem_singleton] at hu
    rcases hu with hu | hu
    · right
      refine ⟨hu, fun hkey => hany ?_⟩
      simp only [List.any_eq_true, decide_eq_true_eq]
      exact ⟨u, hu, hkey⟩
    · exact Or.inl hu

/-- A pass in which the only trade that can be applied is `trade`. -/
theorem filterPass_single (addTrade : AddTradeFn) (orders : OrderStore) (trade : Trade)
    (ho : orders.Exists trade.OrderID = true) :
    ∀ (l : List Trade) (s : TradeCollector × Bool),
      (∀ u ∈ l, u = trade ∨ u.Key ∈ s.1.doneTrades ∨ orders.Exists u.OrderID = false) →
      (filterPass (processFilter addTrade orders) l s).2 =
        if trade.Key ∈ s.1.doneTrades then s
        else if trade ∈ l then
          (applyTrade addTrade
            { s.1 with doneTrades := insert trade.Key s.1.doneTrades } trade, true)
        else s
  | [], s, _ => by simp [filterPass]
  | u :: rest, s, hl => by
    simp only [filterPass]
    have hrest : ∀ v ∈ rest,
        v = trade ∨ v.Key ∈ s.1.doneTrades ∨ orders.Exists v.OrderID = false :=
      fun v hv => hl v (List.mem_cons_of_mem _ hv)
    by_cases hd : trade.Key ∈ s.1.doneTrades
    · have hu : u.Key ∈ s.1.doneTrades ∨ orders.Exists u.OrderID = false := by
        rcases hl u (List.mem_cons_self _ _) with h | h
        · exact Or.inl (h ▸ hd)
        · exact h
      rw [processFilter_inert addTrade orders s u hu,
        filterPass_single addTrade orders trade ho rest s hrest]
      simp [hd]
    · by_cases hut : u = trade
      · subst hut
        rw [processFilter_apply addTrade orders s u hd ho]
        have hrest2 : ∀ v ∈ rest, v = u ∨
            v.Key ∈ (applyTrade addTrade
              { s.1 with doneTrades := insert u.Key s.1.doneTrades } u, true).1.doneTrades ∨
            orders.Exists v.OrderID = false := by
          intro v hv
          rcases hrest v hv with h | h | h
          · exact Or.inl h
          · exact Or.inr (Or.inl (by simp [applyTrade_eq, h]))
          · exact Or.inr (Or.inr h)
        rw [filterPass_single addTrade orders u ho rest _ hrest2]
        simp [hd, applyTrade_eq]
      · have hu : u.Key ∈ s.1.doneTrades ∨ orders.Exists u.OrderID = false := by
          rcases hl u (List.mem_cons_self _ _) with h | h
          · exact absurd h hut
          · exact h
        rw [processFilter_inert addTrade orders s u hu,
          filterPass_single addTrade orders trade ho rest s hrest]
        have : trade ∈ u :: rest ↔ trade ∈ rest := by
          simp only [List.mem_cons]
          constructor
          · rintro (h | h)
            · exact absurd h.symm hut
            · exact h
          · exact Or.inr
        simp only [hd, if_false, this]

theorem profitEvents_append (l₁ l₂ : List Effect) :
    profitEvents (l₁ ++ l₂) = profitEvents l₁ ++ profitEvents l₂ := by
  simp [profitEvents, List.filterMap_append]

/-! ### The log of one pass -/

theorem passLog_processFilter (addTrade : AddTradeFn) (orders : OrderStore)
    (c : TradeCollector) (s : TradeCollector × Bool) (trade : Trade)
    (hs : PassLog c s) : PassLog c (processFilter addTrade orders s trade).2 := by
  by_cases hk : trade.Key ∈ s.1.doneTrades
  · rw [processFilter_inert addTrade orders s trade (Or.inl hk)]
    exact hs
  · by_cases ho : orders.Exists trade.OrderID = true
    · rw [processFilter_apply addTrade orders s trade hk ho]
      obtain ⟨e, he, hupd, _⟩ := hs
      refine ⟨e ++ Effect.addTrade trade :: Effect.emitTrade trade ::
        (if (addTrade s.1.position trade).2.2.2 then
          [Effect.emitProfit trade (addTrade s.1.position trade).2.1
            (addTrade s.1.position trade).2.2.1]
        else []), ?_, ?_, ?_⟩
      · simp [applyTrade_eq, he]
      · rw [List.countP_append, hupd]
        split <;> simp [List.countP_cons, Effect.isPositionUpdate]
      · simp [List.countP_append, List.countP_cons, Effect.isAddTrade]
    · simp only [Bool.not_eq_true] at ho
      rw [processFilter_inert addTrade orders s trade (Or.inr ho)]
      exact hs

theorem passLog_passResult (addTrade : AddTradeFn) (orders : OrderStore) (c : TradeCollector) :
    PassLog c (passResult addTrade orders c).2 :=
  filterPass_invariant (processFilter addTrade orders) (PassLog c)
    (fun s trade hs => passLog_processFilter addTrade orders c s trade hs)
    c.tradeStore.trades (c, false) ⟨[], by simp, by simp, by simp⟩

/-! ### What one pass does when the keys of the pending store are distinct -/

theorem filterPass_spec (addTrade : AddTradeFn) (orders : OrderStore) :
    ∀ (l : List Trade) (s : TradeCollector × Bool), (l.map Trade.Key).Nodup →
      filterPass (processFilter addTrade orders) l s =
        (l.filter (stays orders s.1.doneTrades),
          (applyAll addTrade s.1 (l.filter (applicable orders s.1.doneTrades)),
            s.2 || !(l.filter (applicable orders s.1.doneTrades)).isEmpty))
  | [], s, _ => by simp [filterPass, applyAll]
  | u :: rest, s, hl => by
    rw [List.map_cons, List.nodup_cons] at hl
    obtain ⟨hu, hrest⟩ := hl
    simp only [filterPass]
    by_cases hk : u.Key ∈ s.1.doneTrades
    · rw [show processFilter addTrade orders s u = (true, s) by
        unfold processFilter; simp [hk]]
      rw [filterPass_spec addTrade orders rest s hrest]
      simp [List.filter_cons, stays, applicable, hk]
    · by_cases ho : orders.Exists u.OrderID = true
      · rw [processFilter_apply addTrade orders s u hk ho]
        rw [filterPass_spec addTrade orders rest _ hrest]
        have hdone : (applyTrade addTrade
            { s.1 with doneTrades := insert u.Key s.1.doneTrades } u).doneTrades =
            insert u.Key s.1.doneTrades := by simp [applyTrade_eq]
        have hne : ∀ v ∈ rest, v.Key ≠ u.Key := by
          intro v hv hvu
          exact hu (hvu ▸ List.mem_map_of_mem _ hv)
        have hst : rest.filter (stays orders (insert u.Key s.1.doneTrades)) =
            rest.filter (stays orders s.1.doneTrades) := by
          apply List.filter_congr
          intro v hv
          simp [stays, hne v hv]
        have hap : rest.filter (applicable orders (insert u.Key s.1.doneTrades)) =
            rest.filter (applicable orders s.1.doneTrades) := by
          apply List.filter_congr
          intro v hv
          simp [applicable, hne v hv]
        simp only [hdone, hst, hap]
        simp [List.filter_cons, stays, applicable, hk, ho, applyAll]
      · simp only [Bool.not_eq_true] at ho
        rw [show processFilter addTrade orders s u = (false, s) by
          unfold processFilter; simp [hk, ho]]
        rw [filterPass_spec addTrade orders rest s hrest]
        simp [List.filter_cons, stays, applicable, hk, ho]

theorem applyAll_doneTrades (addTrade : AddTradeFn) :
    ∀ (l : List Trade) (c : TradeCollector) (k : TradeKey),
      k ∈ (applyAll addTrade c l).doneTrades ↔ k ∈ c.doneTrades ∨ k ∈ l.map Trade.Key
  | [], c, k => by simp [applyAll]
  | u :: rest, c, k => by
    have ih := applyAll_doneTrades addTrade rest
      (applyTrade addTrade { c with doneTrades := insert u.Key c.doneTrades } u) k
    unfold applyAll at ih ⊢
    rw [List.foldl_cons, ih]
    simp only [applyTrade_eq, Finset.mem_insert, List.map_cons, List.mem_cons]
    tauto

theorem applyAll_count (addTrade : AddTradeFn) (t : Trade) :
    ∀ (l : List Trade) (c : TradeCollector),
      (applyAll addTrade c l).log.count (Effect.addTrade t) =
        c.log.count (Effect.addTrade t) + l.count t
  | [], c => by simp [applyAll]
  | u :: rest, c => by
    have ih := applyAll_count addTrade t rest
      (applyTrade addTrade { c with doneTrades := insert u.Key c.doneTrades } u)
    unfold applyAll at ih ⊢
    rw [List.foldl_cons, ih]
    simp only [applyTrade_eq, List.count_append, List.count_cons]
    have hz : List.count (Effect.addTrade t)
        (if (addTrade c.position u).2.2.2 = true then
          [Effect.emitProfit u (addTrade c.position u).2.1 (addTrade c.position u).2.2.1]
        else []) = 0 := by
      split <;> simp
    by_cases htu : u = t
    · subst htu
      simp [hz]
      omega
    · have htu2 : ¬ (Effect.addTrade u = Effect.addTrade t) := fun h => htu (by injection h)
      simp [hz, htu, htu2]

theorem Process_spec (addTrade : AddTradeFn) (orders : OrderStore) (c : TradeCollector)
    (hkeys : KeysUnique c) :
    (Process addTrade orders c).2 =
      { applyAll addTrade c (c.tradeStore.trades.filter (applicable orders c.doneTrades)) with
        tradeStore := { c.tradeStore with
          trades := c.tradeStore.trades.filter (stays orders c.doneTrades) }
        log := (applyAll addTrade c
            (c.tradeStore.trades.filter (applicable orders c.doneTrades))).log ++
          (if (c.tradeStore.trades.filter (applicable orders c.doneTrades)).isEmpty then []
          else [Effect.emitPositionUpdate (applyAll addTrade c
            (c.tradeStore.trades.filter (applicable orders c.doneTrades))).position]) } := by
  rw [Process_snd]
  unfold passResult
  rw [filterPass_spec addTrade orders c.tradeStore.trades (c, false) hkeys]
  cases (c.tradeStore.trades.filter (applicable orders c.doneTrades)).isEmpty <;> simp

/-! ### The keys of the pending store stay distinct -/

theorem keysUnique_Add (s : TradeStore) (trade : Trade)
    (h : (s.trades.map Trade.Key).Nodup) : ((s.Add trade).trades.map Trade.Key).Nodup := by
  unfold TradeStore.Add
  split
  · have hmap : (s.trades.map fun u => if u.Key = trade.Key then trade else u).map Trade.Key =
        s.trades.map Trade.Key := by
      rw [List.map_map]
      apply List.map_congr_left
      intro u _
      by_cases hu : u.Key = trade.Key <;> simp [hu]
    simpa [hmap] using h
  · rename_i hany
    simp only [List.any_eq_true, decide_eq_true_eq, not_exists, not_and] at hany
    simp only [List.map_append, List.map_cons, List.map_nil]
    rw [List.nodup_append]
    refine ⟨h, List.nodup_singleton _, ?_⟩
    intro k hk hk2
    simp only [List.mem_singleton] at hk2
    subst hk2
    obtain ⟨u, hu, hkey⟩ := List.mem_map.1 hk
    exact hany u hu hkey

theorem keysUnique_ProcessTrade (addTrade : AddTradeFn) (orders : OrderStore)
    (c : TradeCollector) (trade : Trade) (h : KeysUnique c) :
    KeysUnique (ProcessTrade addTrade orders c trade).2 := by
  by_cases hk : trade.Key ∈ c.doneTrades
  · rw [ProcessTrade_done addTrade orders c trade hk]
    exact h
  · by_cases ho : orders.Exists trade.OrderID = true
    · rw [ProcessTrade_known addTrade orders c trade hk ho]
      exact h
    · simp only [Bool.not_eq_true] at ho
      rw [ProcessTrade_unknown addTrade orders c trade hk ho]
      exact keysUnique_Add _ _ h

theorem keysUnique_Process (addTrade : AddTradeFn) (orders : OrderStore)
    (c : TradeCollector) (h : KeysUnique c) :
    KeysUnique (Process addTrade orders c).2 := by
  rw [Process_spec addTrade orders c h]
  exact List.Nodup.sublist (List.Sublist.map _ (List.filter_sublist _)) h

theorem keysUnique_callStep (addTrade : AddTradeFn) (c : TradeCollector) (call : Call)
    (h : KeysUnique c) : KeysUnique (callStep addTrade c call) := by
  cases call with
  | processTrade orders trade => exact keysUnique_ProcessTrade addTrade orders c trade h
  | process orders visit =>
    simp only [callStep]
    split
    · rename_i hperm
      apply keysUnique_Process
      exact ((hperm.map Trade.Key).nodup_iff).2 h
    · exact h

/-- Every collector reached from a new one by `ProcessTrade` and `Process`
calls has a pending store with distinct keys. -/
theorem keysUnique_runCalls (addTrade : AddTradeFn) :
    ∀ (calls : List Call) (c : TradeCollector), KeysUnique c →
      KeysUnique (runCalls addTrade c calls)
  | [], _, h => h
  | call :: rest, c, h => by
    unfold runCalls
    rw [List.foldl_cons]
    exact keysUnique_runCalls addTrade rest _ (keysUnique_callStep addTrade c call h)

theorem keysUnique_new (symbol : String) (position : Position) :
    KeysUnique (NewTradeCollector symbol position) := by
  simp [KeysUnique, NewTradeCollector, NewTradeStore]

/-! ### Recovery and live delivery -/

theorem sameLedger_ProcessTrade (addTrade : AddTradeFn) (orders : OrderStore)
    (c d : TradeCollector) (trade : Trade) (h : SameLedger c d) :
    (ProcessTrade addTrade orders c trade).1 = (ProcessTrade addTrade orders d trade).1 ∧
      SameLedger (ProcessTrade addTrade orders c trade).2
        (ProcessTrade addTrade orders d trade).2 := by
  obtain ⟨hp, hd, hs, hl⟩ := h
  by_cases hk : trade.Key ∈ c.doneTrades
  · rw [ProcessTrade_done addTrade orders c trade hk,
      ProcessTrade_done addTrade orders d trade (hd ▸ hk)]
    exact ⟨rfl, hp, hd, hs, hl⟩
  · by_cases ho : orders.Exists trade.OrderID = true
    · rw [ProcessTrade_known addTrade orders c trade hk ho,
        ProcessTrade_known addTrade orders d trade (hd ▸ hk) ho]
      refine ⟨rfl, ?_, ?_, hs, ?_⟩
      · simp [hp]
      · simp [hd]
      · simp only [profitEvents_append, hl, hp]
    · simp only [Bool.not_eq_true] at ho
      rw [ProcessTrade_unknown addTrade orders c trade hk ho,
        ProcessTrade_unknown addTrade orders d trade (hd ▸ hk) ho]
      exact ⟨rfl, hp, hd, by simp [hs], hl⟩

theorem sameLedger_EmitRecover (c d : TradeCollector) (trade : Trade) (h : SameLedger c d) :
    SameLedger (c.EmitRecover trade) d := by
  obtain ⟨hp, hd, hs, hl⟩ := h
  refine ⟨hp, hd, hs, ?_⟩
  simp only [EmitRecover, profitEvents_append, hl]
  simp [profitEvents]

theorem sameLedger_recoverLoop (addTrade : AddTradeFn) (orders : OrderStore) :
    ∀ (trades : List Trade) (c d : TradeCollector), SameLedger c d →
      SameLedger (recoverLoop addTrade orders c trades)
        (runCalls addTrade d (trades.map (Call.processTrade orders)))
  | [], c, d, h => by simpa [recoverLoop, runCalls] using h
  | td :: rest, c, d, h => by
    have hstep := sameLedger_ProcessTrade addTrade orders c d td h
    have hrun : runCalls addTrade d ((td :: rest).map (Call.processTrade orders)) =
        runCalls addTrade (ProcessTrade addTrade orders d td).2
          (rest.map (Call.processTrade orders)) := by
      simp [runCalls, callStep]
    rw [hrun]
    simp only [recoverLoop]
    split
    · exact sameLedger_recoverLoop addTrade orders rest _ _
        (sameLedger_EmitRecover _ _ td hstep.2)
    · exact sameLedger_recoverLoop addTrade orders rest _ _ hstep.2

/-! ### At most one application per key -/

theorem addTradeCount_append (k : TradeKey) (l₁ l₂ : List Effect) :
    addTradeCount k (l₁ ++ l₂) = addTradeCount k l₁ + addTradeCount k l₂ := by
  simp [addTradeCount, List.countP_append]

theorem addTradeCount_applied (k : TradeKey) (trade : Trade) (l tail : List Effect)
    (htail : addTradeCount k tail = 0) :
    addTradeCount k (l ++ Effect.addTrade trade :: Effect.emitTrade trade :: tail) =
      addTradeCount k l + (if trade.Key = k then 1 else 0) := by
  rw [addTradeCount_append]
  congr 1
  unfold addTradeCount at htail ⊢
  by_cases h : trade.Key = k <;>
    simp [List.countP_cons, Effect.isAddTradeOf, h, htail]

theorem addTradeCount_profit_tail (k : TradeKey) (trade : Trade) (b : Bool) (p q : Int)
    (rest : List Effect) (hrest : addTradeCount k rest = 0) :
    addTradeCount k ((if b = true then [Effect.emitProfit trade p q] else []) ++ rest) = 0 := by
  rw [addTradeCount_append, hrest]
  cases b <;> simp [addTradeCount, Effect.isAddTradeOf]

theorem oncePerKey_apply (k : TradeKey) (n : Nat) (c : TradeCollector) (trade : Trade)
    (pos : Position) (tail : List Effect) (htail : addTradeCount k tail = 0)
    (hk : trade.Key ∉ c.doneTrades) (hc : OncePerKey k n c) :
    OncePerKey k n { c with
      position := pos
      doneTrades := insert trade.Key c.doneTrades
      log := c.log ++ Effect.addTrade trade :: Effect.emitTrade trade :: tail } := by
  obtain ⟨h1, h2⟩ := hc
  unfold OncePerKey
  simp only [addTradeCount_applied k trade c.log tail htail]
  by_cases h : trade.Key = k
  · subst h
    have := h2 hk
    simp only [if_true, Finset.mem_insert, true_or, not_true_eq_false, false_implies, and_true]
    omega
  · simp only [h, if_false, Nat.add_zero, Finset.mem_insert]
    refine ⟨h1, fun hn => h2 fun hmem => hn (Or.inr hmem)⟩

theorem oncePerKey_processFilter (addTrade : AddTradeFn) (orders : OrderStore) (k : TradeKey)
    (n : Nat) (s : TradeCollector × Bool) (trade : Trade) (hs : OncePerKey k n s.1) :
    OncePerKey k n (processFilter addTrade orders s trade).2.1 := by
  unfold processFilter
  by_cases hk : trade.Key ∈ s.1.doneTrades
  · simpa [hk] using hs
  · by_cases ho : orders.Exists trade.OrderID = true
    · simp only [hk, if_false, ho, if_true, applyTrade_eq]
      have := oncePerKey_apply k n s.1 trade (addTrade s.1.position trade).1
        (if (addTrade s.1.position trade).2.2.2 = true then
            [Effect.emitProfit trade (addTrade s.1.position trade).2.1
              (addTrade s.1.position trade).2.2.1]
          else [])
        (by simpa using addTradeCount_profit_tail k trade _ _ _ [] rfl) hk hs
      exact this
    · simpa [hk, ho] using hs

theorem oncePerKey_Process (addTrade : AddTradeFn) (orders : OrderStore) (k : TradeKey)
    (n : Nat) (c : TradeCollector) (hc : OncePerKey k n c) :
    OncePerKey k n (Process addTrade orders c).2 := by
  have h := filterPass_invariant (processFilter addTrade orders)
    (fun s => OncePerKey k n s.1)
    (fun s trade hs => oncePerKey_processFilter addTrade orders k n s trade hs)
    c.tradeStore.trades (c, false) hc
  have hz : addTradeCount k
      (if (passResult addTrade orders c).2.2 = true then
        [Effect.emitPositionUpdate (passResult addTrade orders c).2.1.position]
      else []) = 0 := by
    split <;> simp [addTradeCount, Effect.isAddTradeOf]
  rw [Process_snd]
  unfold OncePerKey at h ⊢
  simp only [addTradeCount_append, hz, Nat.add_zero]
  exact h

theorem oncePerKey_ProcessTrade (addTrade : AddTradeFn) (orders : OrderStore) (k : TradeKey)
    (n : Nat) (c : TradeCollector) (trade : Trade) (hc : OncePerKey k n c) :
    OncePerKey k n (ProcessTrade addTrade orders c trade).2 := by
  by_cases hk : trade.Key ∈ c.doneTrades
  · rw [ProcessTrade_done addTrade orders c trade hk]
    exact hc
  · by_cases ho : orders.Exists trade.OrderID = true
    · rw [ProcessTrade_known addTrade orders c trade hk ho]
      exact oncePerKey_apply k n c trade _ _
        (addTradeCount_profit_tail k trade _ _ _ _
          (by simp [addTradeCount, Effect.isAddTradeOf])) hk hc
    · simp only [Bool.not_eq_true] at ho
      rw [ProcessTrade_unknown addTrade orders c trade hk ho]
      exact hc

theorem oncePerKey_callStep (addTrade : AddTradeFn) (k : TradeKey) (n : Nat)
    (c : TradeCollector) (call : Call) (hc : OncePerKey k n c) :
    OncePerKey k n (callStep addTrade c call) := by
  cases call with
  | processTrade orders trade => exact oncePerKey_ProcessTrade addTrade orders k n c trade hc
  | process orders visit =>
    simp only [callStep]
    split
    · exact oncePerKey_Process addTrade orders k n _ hc
    · exact hc

theorem oncePerKey_runCalls (addTrade : AddTradeFn) (k : TradeKey) (n : Nat) :
    ∀ (calls : List Call) (c : TradeCollector), OncePerKey k n c →
      OncePerKey k n (runCalls addTrade c calls)
  | [], _, hc => hc
  | call :: rest, c, hc => by
    unfold runCalls
    rw [List.foldl_cons]
    exact oncePerKey_runCalls addTrade k n rest _ (oncePerKey_callStep addTrade k n c call hc)

/-! ### The events of a recovery -/

theorem recoverEvents_append (l₁ l₂ : List Effect) :
    recoverEvents (l₁ ++ l₂) = recoverEvents l₁ ++ recoverEvents l₂ := by
  simp [recoverEvents, List.filterMap_append]

theorem recoverEvents_profit_tail (trade : Trade) (b : Bool) (p q : Int) (pos : Position) :
    recoverEvents ((if b = true then [Effect.emitProfit trade p q] else []) ++
      [Effect.emitPositionUpdate pos]) = [] := by
  cases b <;> simp [recoverEvents]

theorem recoverLoop_recoverEvents (addTrade : AddTradeFn) (orders : OrderStore) :
    ∀ (trades : List Trade) (c : TradeCollector),
      recoverEvents (recoverLoop addTrade orders c trades).log =
        recoverEvents c.log ++ firstDeliveries orders c.doneTrades trades
  | [], c => by simp [recoverLoop, firstDeliveries]
  | td :: rest, c => by
    simp only [recoverLoop, firstDeliveries]
    by_cases hk : td.Key ∈ c.doneTrades
    · rw [ProcessTrade_done addTrade orders c td hk]
      simp only [Bool.false_eq_true, if_false, hk, not_true_eq_false, false_and]
      exact recoverLoop_recoverEvents addTrade orders rest c
    · by_cases ho : orders.Exists td.OrderID = true
      · rw [ProcessTrade_known addTrade orders c td hk ho]
        simp only [if_true, hk, not_false_eq_true, ho, and_self]
        rw [recoverLoop_recoverEvents addTrade orders rest _]
        simp only [EmitRecover, recoverEvents_append, List.append_assoc]
        rw [show ∀ l : List Effect, Effect.addTrade td :: Effect.emitTrade td :: l =
          [Effect.addTrade td, Effect.emitTrade td] ++ l from fun _ => rfl,
          recoverEvents_append, recoverEvents_profit_tail]
        simp [recoverEvents]
      · have ho2 : orders.Exists td.OrderID = false := by simpa using ho
        rw [ProcessTrade_unknown addTrade orders c td hk ho2]
        simp only [Bool.false_eq_true, if_false, ho, and_false]
        exact recoverLoop_recoverEvents addTrade orders rest _

theorem newlyApplied_eq (addTrade : AddTradeFn) (orders : OrderStore) :
    ∀ (trades : List Trade) (c : TradeCollector),
      newlyApplied addTrade orders c trades = firstDeliveries orders c.doneTrades trades
  | [], c => by simp [newlyApplied, firstDeliveries]
  | td :: rest, c => by
    simp only [newlyApplied, firstDeliveries]
    by_cases hk : td.Key ∈ c.doneTrades
    · rw [ProcessTrade_done addTrade orders c td hk]
      simp only [Bool.false_eq_true, if_false, hk, not_true_eq_false, false_and]
      exact newlyApplied_eq addTrade orders rest c
    · by_cases ho : orders.Exists td.OrderID = true
      · rw [ProcessTrade_known addTrade orders c td hk ho]
        simp only [if_true, hk, not_false_eq_true, ho, and_self]
        rw [newlyApplied_eq addTrade orders rest _]
      · have ho2 : orders.Exists td.OrderID = false := by simpa using ho
        rw [ProcessTrade_unknown addTrade orders c td hk ho2]
        simp only [Bool.false_eq_true, if_false, ho, and_false]
        exact newlyApplied_eq addTrade orders rest _

theorem firstDeliveries_mem (orders : OrderStore) :
    ∀ (trades : List Trade) (done : Finset TradeKey) (td : Trade),
      td ∈ firstDeliveries orders done trades →
        td ∈ trades ∧ td.Key ∉ done ∧ orders.Exists td.OrderID = true
  | [], _, td, h => by simp [firstDeliveries] at h
  | u :: rest, done, td, h => by
    simp only [firstDeliveries] at h
    split at h
    · rename_i hu
      rcases List.mem_cons.1 h with h | h
      · subst h
        exact ⟨List.mem_cons_self _ _, hu.1, hu.2⟩
      · obtain ⟨h1, h2, h3⟩ := firstDeliveries_mem orders rest _ td h
        exact ⟨List.mem_cons_of_mem _ h1, fun hd => h2 (Finset.mem_insert_of_mem hd), h3⟩
    · obtain ⟨h1, h2, h3⟩ := firstDeliveries_mem orders rest _ td h
      exact ⟨List.mem_cons_of_mem _ h1, h2, h3⟩

theorem firstDeliveries_nodup (orders : OrderStore) :
    ∀ (trades : List Trade) (done : Finset TradeKey),
      ((firstDeliveries orders done trades).map Trade.Key).Nodup
  | [], _ => by simp [firstDeliveries]
  | u :: rest, done => by
    simp only [firstDeliveries]
    split
    · rw [List.map_cons, List.nodup_cons]
      refine ⟨?_, firstDeliveries_nodup orders rest _⟩
      intro hmem
      obtain ⟨v, hv, hkey⟩ := List.mem_map.1 hmem
      have := (firstDeliveries_mem orders rest _ v hv).2.1
      exact this (hkey ▸ Finset.mem_insert_self _ _)
    · exact firstDeliveries_nodup orders rest done

/-! ### Callbacks -/

theorem registerTrade_tradeCallbacks {W : Type} (cbs : List (Trade → W → W)) :
    ∀ c : Callbacks W, (c.registerTrade cbs).tradeCallbacks = c.tradeCallbacks ++ cbs := by
  induction cbs with
  | nil => intro c; simp [Callbacks.registerTrade]
  | cons cb rest ih =>
    intro c
    have := ih (c.OnTrade cb)
    simp only [Callbacks.registerTrade, List.foldl_cons] at this ⊢
    rw [this]
    simp [Callbacks.OnTrade]

theorem registerPositionUpdate_callbacks {W : Type} (cbs : List (Position → W → W)) :
    ∀ c : Callbacks W,
      (c.registerPositionUpdate cbs).positionUpdateCallbacks =
        c.positionUpdateCallbacks ++ cbs := by
  induction cbs with
  | nil => intro c; simp [Callbacks.registerPositionUpdate]
  | cons cb rest ih =>
    intro c
    have := ih (c.OnPositionUpdate cb)
    simp only [Callbacks.registerPositionUpdate, List.foldl_cons] at this ⊢
    rw [this]
    simp [Callbacks.OnPositionUpdate]

theorem foldl_record {α : Type} (a : α) (ids : List Nat) :
    ∀ w : List (Nat × α),
      (ids.map fun i => (Callbacks.record i : α → List (Nat × α) → List (Nat × α))).foldl
        (fun w cb => cb a w) w = w ++ ids.map fun i => (i, a) := by
  induction ids with
  | nil => intro w; simp
  | cons i rest ih =>
    intro w
    simp only [List.map_cons, List.foldl_cons, ih, Callbacks.record]
    simp


theorem recoverLoop_log (addTrade : AddTradeFn) (orders : OrderStore) :
    ∀ (trades : List Trade) (c : TradeCollector),
      (recoverLoop addTrade orders c trades).log =
        c.log ++ recoverTrace addTrade c.position (firstDeliveries orders c.doneTrades trades)
  | [], c => by simp [recoverLoop, firstDeliveries, recoverTrace]
  | td :: rest, c => by
    simp only [recoverLoop, firstDeliveries]
    by_cases hk : td.Key ∈ c.doneTrades
    · rw [ProcessTrade_done addTrade orders c td hk]
      simp only [Bool.false_eq_true, if_false, hk, not_true_eq_false, false_and]
      exact recoverLoop_log addTrade orders rest c
    · by_cases ho : orders.Exists td.OrderID = true
      · rw [ProcessTrade_known addTrade orders c td hk ho]
        simp only [if_true, hk, not_false_eq_true, ho, and_self]
        rw [recoverLoop_log addTrade orders rest _]
        simp [EmitRecover, recoverTrace]
      · have ho2 : orders.Exists td.OrderID = false := by simpa using ho
        rw [ProcessTrade_unknown addTrade orders c td hk ho2]
        simp only [Bool.false_eq_true, if_false, ho, and_false]
        exact recoverLoop_log addTrade orders rest _

theorem emitted_append (c d : TradeCollector) (l : List Effect) (h : d.log = c.log ++ l) :
    emitted c d = l := by
  unfold emitted
  rw [h, List.drop_left]

theorem recoverTrace_filter (addTrade : AddTradeFn) :
    ∀ (l : List Trade) (p : Position),
      (recoverTrace addTrade p l).filter Effect.isTradeOrRecover = tradeThenRecover l
  | [], _ => by simp [recoverTrace, tradeThenRecover]
  | td :: rest, p => by
    simp only [recoverTrace, tradeThenRecover]
    have ih := recoverTrace_filter addTrade rest (addTrade p td).1
    cases h : (addTrade p td).2.2.2 <;>
      simp [List.filter_cons, Effect.isTradeOrRecover, ih]

theorem deliverAll_append {W : Type} (reg : Callbacks W) (l₁ l₂ : List Effect) (w : W) :
    reg.deliverAll (l₁ ++ l₂) w = reg.deliverAll l₂ (reg.deliverAll l₁ w) := by
  simp [Callbacks.deliverAll, List.foldl_append]

theorem recoverTrace_recorder (addTrade : AddTradeFn) :
    ∀ (l : List Trade) (p : Position) (w : List (Nat × Trade)),
      Callbacks.tradeAndRecoverRecorder.deliverAll (recoverTrace addTrade p l) w =
        w ++ l.flatMap fun td => [(1, td), (2, td)]
  | [], _, w => by simp [recoverTrace, Callbacks.deliverAll]
  | td :: rest, p, w => by
    have ih := recoverTrace_recorder addTrade rest (addTrade p td).1
    simp only [recoverTrace]
    cases h : (addTrade p td).2.2.2 <;>
      simp [Callbacks.deliverAll, Callbacks.deliver, Callbacks.tradeAndRecoverRecorder,
        Callbacks.OnTrade, Callbacks.OnRecover, Callbacks.empty, Callbacks.EmitTrade,
        Callbacks.EmitRecover, Callbacks.EmitProfit, Callbacks.EmitPositionUpdate,
        Callbacks.record] at ih ⊢ <;>
      rw [ih] <;>
      simp

/-! ### The exact log of one pass -/

theorem filterPass_trace (addTrade : AddTradeFn) (orders : OrderStore) :
    ∀ (l : List Trade) (s : TradeCollector × Bool),
      (filterPass (processFilter addTrade orders) l s).2.1.log =
          s.1.log ++ applyTrace addTrade s.1.position
            (firstDeliveries orders s.1.doneTrades l) ∧
        (filterPass (processFilter addTrade orders) l s).2.1.position =
          applyPosition addTrade s.1.position (firstDeliveries orders s.1.doneTrades l) ∧
        (filterPass (processFilter addTrade orders) l s).2.2 =
          (s.2 || !(firstDeliveries orders s.1.doneTrades l).isEmpty) ∧
        (∀ k, k ∈ (filterPass (processFilter addTrade orders) l s).2.1.doneTrades ↔
          k ∈ s.1.doneTrades ∨ k ∈ (firstDeliveries orders s.1.doneTrades l).map Trade.Key)
  | [], s => by simp [filterPass, firstDeliveries, applyTrace, applyPosition]
  | u :: rest, s => by
    simp only [filterPass, firstDeliveries]
    by_cases hk : u.Key ∈ s.1.doneTrades
    · rw [processFilter_inert addTrade orders s u (Or.inl hk)]
      simp only [hk, not_true_eq_false, false_and, if_false]
      exact filterPass_trace addTrade orders rest s
    · by_cases ho : orders.Exists u.OrderID = true
      · rw [processFilter_apply addTrade orders s u hk ho]
        simp only [hk, not_false_eq_true, ho, and_self, if_true]
        obtain ⟨h1, h2, h3, h4⟩ := filterPass_trace addTrade orders rest
          (applyTrade addTrade { s.1 with doneTrades := insert u.Key s.1.doneTrades } u, true)
        simp only [applyTrade_eq] at h1 h2 h3 h4
        refine ⟨?_, ?_, ?_, ?_⟩
        · simp only [applyTrade_eq, h1, applyTrace]
          simp
        · simp only [applyTrade_eq, h2, applyPosition]
        · simp only [applyTrade_eq, h3]
          simp
        · intro k
          simp only [applyTrade_eq, h4 k, Finset.mem_insert, List.map_cons, List.mem_cons]
          tauto
      · have ho2 : orders.Exists u.OrderID = false := by simpa using ho
        rw [processFilter_inert addTrade orders s u (Or.inr ho2)]
        simp only [ho2, Bool.false_eq_true, and_false, if_false]
        exact filterPass_trace addTrade orders rest s

theorem Process_log (addTrade : AddTradeFn) (orders : OrderStore) (c : TradeCollector) :
    (Process addTrade orders c).2.log =
      c.log ++ (applyTrace addTrade c.position
          (firstDeliveries orders c.doneTrades c.tradeStore.trades) ++
        (if (firstDeliveries orders c.doneTrades c.tradeStore.trades).isEmpty then []
        else [Effect.emitPositionUpdate (applyPosition addTrade c.position
          (firstDeliveries orders c.doneTrades c.tradeStore.trades))])) := by
  obtain ⟨h1, h2, h3, _⟩ := filterPass_trace addTrade orders c.tradeStore.trades (c, false)
  rw [Process_snd]
  unfold passResult
  simp only [h1, h2, h3, Bool.false_or]
  cases (firstDeliveries orders c.doneTrades c.tradeStore.trades).isEmpty <;> simp

theorem Process_doneTrades (addTrade : AddTradeFn) (orders : OrderStore) (c : TradeCollector)
    (k : TradeKey) :
    k ∈ (Process addTrade orders c).2.doneTrades ↔
      k ∈ c.doneTrades ∨
        k ∈ (firstDeliveries orders c.doneTrades c.tradeStore.trades).map Trade.Key := by
  obtain ⟨_, _, _, h4⟩ := filterPass_trace addTrade orders c.tradeStore.trades (c, false)
  rw [Process_snd]
  exact h4 k

/-! ### The done set only grows -/

theorem doneGrows_refl (c : TradeCollector) : DoneGrows c c :=
  ⟨Finset.Subset.refl _, fun _ => Nat.le_refl _, fun _ h hn => absurd h hn⟩

theorem doneGrows_trans (c d e : TradeCollector) (h₁ : DoneGrows c d) (h₂ : DoneGrows d e) :
    DoneGrows c e := by
  obtain ⟨s1, m1, a1⟩ := h₁
  obtain ⟨s2, m2, a2⟩ := h₂
  refine ⟨s1.trans s2, fun k => (m1 k).trans (m2 k), ?_⟩
  intro k hk hn
  by_cases hd : k ∈ d.doneTrades
  · exact Nat.lt_of_lt_of_le (a1 k hd hn) (m2 k)
  · exact Nat.lt_of_le_of_lt (m1 k) (a2 k hk hd)

theorem doneGrows_log (c d : TradeCollector) (l : List Effect)
    (hd : d.doneTrades = c.doneTrades) (hl : d.log = c.log ++ l) : DoneGrows c d := by
  refine ⟨hd ▸ Finset.Subset.refl _, ?_, ?_⟩
  · intro k
    rw [hl, addTradeCount_append]
    exact Nat.le_add_right _ _
  · intro k hk hn
    rw [hd] at hk
    exact absurd hk hn

theorem doneGrows_applied (c d : TradeCollector) (trade : Trade) (tail : List Effect)
    (hd : d.doneTrades = insert trade.Key c.doneTrades)
    (hl : d.log = c.log ++ Effect.addTrade trade :: Effect.emitTrade trade :: tail) :
    DoneGrows c d := by
  have hcount : ∀ k, addTradeCount k d.log =
      addTradeCount k c.log + ((if trade.Key = k then 1 else 0) + addTradeCount k tail) := by
    intro k
    rw [hl, addTradeCount_append]
    congr 1
    unfold addTradeCount
    by_cases h : trade.Key = k
    · simp [List.countP_cons, Effect.isAddTradeOf, h]
      omega
    · simp [List.countP_cons, Effect.isAddTradeOf, h]
  refine ⟨?_, ?_, ?_⟩
  · rw [hd]
    exact Finset.subset_insert _ _
  · intro k
    rw [hcount]
    exact Nat.le_add_right _ _
  · intro k hk hn
    rw [hd, Finset.mem_insert] at hk
    rcases hk with hk | hk
    · rw [hcount, if_pos hk.symm]
      omega
    · exact absurd hk hn

theorem doneGrows_ProcessTrade (addTrade : AddTradeFn) (orders : OrderStore)
    (c : TradeCollector) (trade : Trade) :
    DoneGrows c (ProcessTrade addTrade orders c trade).2 := by
  by_cases hk : trade.Key ∈ c.doneTrades
  · rw [ProcessTrade_done addTrade orders c trade hk]
    exact doneGrows_refl c
  · by_cases ho : orders.Exists trade.OrderID = true
    · rw [ProcessTrade_known addTrade orders c trade hk ho]
      exact doneGrows_applied c _ trade _ rfl rfl
    · have ho2 : orders.Exists trade.OrderID = false := by simpa using ho
      rw [ProcessTrade_unknown addTrade orders c trade hk ho2]
      exact doneGrows_log c _ [] rfl (by simp)

theorem doneGrows_processFilter (addTrade : AddTradeFn) (orders : OrderStore)
    (s : TradeCollector × Bool) (trade : Trade) :
    DoneGrows s.1 (processFilter addTrade orders s trade).2.1 := by
  by_cases hk : trade.Key ∈ s.1.doneTrades
  · rw [processFilter_inert addTrade orders s trade (Or.inl hk)]
    exact doneGrows_refl _
  · by_cases ho : orders.Exists trade.OrderID = true
    · rw [processFilter_apply addTrade orders s trade hk ho]
      exact doneGrows_applied s.1 _ trade
        (if (addTrade s.1.position trade).2.2.2 = true then
          [Effect.emitProfit trade (addTrade s.1.position trade).2.1
            (addTrade s.1.position trade).2.2.1]
        else []) (by simp [applyTrade_eq]) (by simp only [applyTrade_eq])
    · have ho2 : orders.Exists trade.OrderID = false := by simpa using ho
      rw [processFilter_inert addTrade orders s trade (Or.inr ho2)]
      exact doneGrows_refl _

theorem doneGrows_Process (addTrade : AddTradeFn) (orders : OrderStore) (c : TradeCollector) :
    DoneGrows c (Process addTrade orders c).2 := by
  have h := filterPass_invariant (processFilter addTrade orders)
    (fun s => DoneGrows c s.1)
    (fun s trade hs => doneGrows_trans c s.1 _ hs
      (doneGrows_processFilter addTrade orders s trade))
    c.tradeStore.trades (c, false) (doneGrows_refl c)
  refine doneGrows_trans c _ _ h (doneGrows_log _ _
    (if (passResult addTrade orders c).2.2 then
      [Effect.emitPositionUpdate (passResult addTrade orders c).2.1.position]
    else []) ?_ ?_)
  · rw [Process_snd]
    rfl
  · rw [Process_snd]
    rfl

theorem doneGrows_recoverLoop (addTrade : AddTradeFn) (orders : OrderStore) :
    ∀ (trades : List Trade) (c : TradeCollector),
      DoneGrows c (recoverLoop addTrade orders c trades)
  | [], c => doneGrows_refl c
  | td :: rest, c => by
    simp only [recoverLoop]
    split
    · refine doneGrows_trans c _ _ (doneGrows_ProcessTrade addTrade orders c td)
        (doneGrows_trans _ _ _ ?_ (doneGrows_recoverLoop addTrade orders rest _))
      exact doneGrows_log _ _ [Effect.emitRecover td] rfl rfl
    · exact doneGrows_trans c _ _ (doneGrows_ProcessTrade addTrade orders c td)
        (doneGrows_recoverLoop addTrade orders rest _)

/-! ### When entries leave the pending store -/

theorem keys_ProcessTrade (addTrade : AddTradeFn) (orders : OrderStore) (c : TradeCollector)
    (trade u : Trade) (hu : u ∈ c.tradeStore.trades) :
    u.Key ∈ (ProcessTrade addTrade orders c trade).2.tradeStore.trades.map Trade.Key := by
  by_cases hk : trade.Key ∈ c.doneTrades
  · rw [ProcessTrade_done addTrade orders c trade hk]
    exact List.mem_map_of_mem _ hu
  · by_cases ho : orders.Exists trade.OrderID = true
    · rw [ProcessTrade_known addTrade orders c trade hk ho]
      exact List.mem_map_of_mem _ hu
    · have ho2 : orders.Exists trade.OrderID = false := by simpa using ho
      rw [ProcessTrade_unknown addTrade orders c trade hk ho2]
      show u.Key ∈ (c.tradeStore.Add trade).trades.map Trade.Key
      unfold TradeStore.Add
      split
      · simp only [List.map_map, List.mem_map, Function.comp]
        refine ⟨u, hu, ?_⟩
        by_cases hkey : u.Key = trade.Key <;> simp [hkey]
      · simp only [List.map_append, List.mem_append]
        exact Or.inl (List.mem_map_of_mem _ hu)

theorem Process_mem_trades (addTrade : AddTradeFn) (orders : OrderStore) (c : TradeCollector)
    (hkeys : KeysUnique c) (u : Trade) :
    u ∈ (Process addTrade orders c).2.tradeStore.trades ↔
      u ∈ c.tradeStore.trades ∧ u.Key ∉ c.doneTrades ∧ orders.Exists u.OrderID = false := by
  rw [Process_spec addTrade orders c hkeys]
  simp [List.mem_filter, stays]

theorem Process_count (addTrade : AddTradeFn) (orders : OrderStore) (c : TradeCollector)
    (hkeys : KeysUnique c) (u : Trade) (hu : u ∈ c.tradeStore.trades) :
    (Process addTrade orders c).2.log.count (Effect.addTrade u) =
      c.log.count (Effect.addTrade u) +
        (if u.Key ∉ c.doneTrades ∧ orders.Exists u.OrderID = true then 1 else 0) := by
  have hnodup : c.tradeStore.trades.Nodup := List.Nodup.of_map _ hkeys
  have hfilter : (c.tradeStore.trades.filter (applicable orders c.doneTrades)).Nodup :=
    hnodup.filter _
  have htail : ∀ (b : Bool) (p : Position),
      List.count (Effect.addTrade u) (if b = true then [] else [Effect.emitPositionUpdate p])
        = 0 := by
    intro b p
    cases b <;> simp
  rw [Process_spec addTrade orders c hkeys]
  simp only [List.count_append, applyAll_count, htail, Nat.add_zero]
  congr 1
  split
  · rename_i h
    exact List.count_eq_one_of_mem hfilter
      (by simp [List.mem_filter, applicable, hu, h.1, h.2])
  · rename_i h
    apply List.count_eq_zero_of_not_mem
    intro hmem
    simp only [List.mem_filter, applicable, Bool.and_eq_true, decide_eq_true_eq] at hmem
    exact h hmem.2

theorem Process_store_not_done (addTrade : AddTradeFn) (orders : OrderStore)
    (c : TradeCollector) (hkeys : KeysUnique c) (u : Trade)
    (hu : u ∈ (Process addTrade orders c).2.tradeStore.trades) :
    u.Key ∉ (Process addTrade orders c).2.doneTrades := by
  obtain ⟨hmem, hk, ho⟩ := (Process_mem_trades addTrade orders c hkeys u).1 hu
  rw [Process_spec addTrade orders c hkeys]
  intro hdone
  rcases (applyAll_doneTrades addTrade _ c u.Key).1 hdone with h | h
  · exact hk h
  · obtain ⟨v, hv, hkey⟩ := List.mem_map.1 h
    simp only [List.mem_filter, applicable, Bool.and_eq_true, decide_eq_true_eq] at hv
    have hvu : v = u := List.inj_on_of_nodup_map hkeys hv.1 hmem hkey
    rw [hvu, ho] at hv
    exact absurd hv.2.2 (by simp)

/-! ### Checkpoints of the stock distribution -/

theorem AddTrade_Base (p : Position) (trade : Trade) :
    (Position.AddTrade p trade).1.Base = p.Base + trade.signedQuantity := by
  unfold Position.AddTrade Trade.signedQuantity
  simp only
  split <;> split <;> rfl

theorem netQuantity_cons (start : Int) (trade : Trade) (rest : List Trade) :
    netQuantity start (trade :: rest) = netQuantity (start + trade.signedQuantity) rest := by
  simp [netQuantity, add_assoc]

theorem range_filter_succ (P : Nat → Bool) (n idx : Nat) :
    ((List.range (n + 1)).filter P).map (· + idx) =
      (if P 0 = true then [idx] else []) ++
        ((List.range n).filter fun i => P (i + 1)).map (· + (idx + 1)) := by
  have hfun : (fun x => x + idx) ∘ Nat.succ = fun x => x + (idx + 1) := by
    funext x
    simp only [Function.comp, Nat.succ_eq_add_one]
    omega
  have hpred : P ∘ Nat.succ = fun i => P (i + 1) := rfl
  rw [List.range_succ_eq_map, List.filter_cons]
  by_cases h0 : P 0 = true
  · simp only [h0, if_true, List.map_cons, List.filter_map, List.map_map, hfun, hpred]
    simp
  · simp only [h0, if_false, List.filter_map, List.map_map, hfun, hpred]
    simp
    intro a _ _
    omega

theorem addTradesLoop_checkpoints :
    ∀ (trades : List Trade) (m : StockDistribution) (idx : Nat) (checkpoints : List Nat),
      (StockDistribution.addTradesLoop m idx trades checkpoints).2 =
        checkpoints ++ ((List.range trades.length).filter fun i =>
          decide (netQuantity m.Stocks.Base (trades.take (i + 1)) = 0)).map (· + idx)
  | [], m, idx, checkpoints => by simp [StockDistribution.addTradesLoop]
  | trade :: rest, m, idx, checkpoints => by
    simp only [StockDistribution.addTradesLoop]
    rw [addTradesLoop_checkpoints rest, List.length_cons, range_filter_succ]
    simp only [AddTrade_Base, List.take_succ_cons, netQuantity_cons]
    have hzero : netQuantity (m.Stocks.Base + trade.signedQuantity) (List.take 0 rest) =
        m.Stocks.Base + trade.signedQuantity := by simp [netQuantity]
    rw [hzero]
    by_cases h : m.Stocks.Base + trade.signedQuantity = 0
    · simp [h]
    · simp [h]

/-! ### FTX: intervals and limits -/

theorem isIntervalSupportedInKLine_iff (interval : Ftx.Interval) :
    Ftx.isIntervalSupportedInKLine interval = true ↔ interval ∈ Ftx.sixIntervals := by
  unfold Ftx.isIntervalSupportedInKLine Ftx.supportedIntervals Ftx.sixIntervals
  simp only [List.lookup, List.mem_cons, List.mem_singleton, List.not_mem_nil, or_false]
  by_cases h1 : interval = "1m"
  · simp [h1]
  by_cases h2 : interval = "5m"
  · simp [h2]
  by_cases h3 : interval = "15m"
  · simp [h3]
  by_cases h4 : interval = "1h"
  · simp [h4]
  by_cases h5 : interval = "1d"
  · simp [h5]
  by_cases h6 : interval = "3d"
  · simp [h6]
  have e1 : (interval == "1m") = false := by simpa using h1
  have e2 : (interval == "5m") = false := by simpa using h2
  have e3 : (interval == "15m") = false := by simpa using h3
  have e4 : (interval == "1h") = false := by simpa using h4
  have e5 : (interval == "1d") = false := by simpa using h5
  have e6 : (interval == "3d") = false := by simpa using h6
  simp [e1, e2, e3, e4, e5, e6, h1, h2, h3, h4, h5, h6]

theorem queryKLines_unsupported {ε : Type} (client : Ftx.Client ε) (symbol : String)
    (interval : Ftx.Interval) (options : Ftx.KLineQueryOptions)
    (hvalid : ¬ options.StartTime.getD 0 > options.EndTime.getD client.now)
    (hs : Ftx.isIntervalSupportedInKLine interval = false) :
    Ftx._queryKLines client symbol interval options =
      ⟨Except.error (Ftx.QueryError.unsupportedInterval interval), []⟩ := by
  unfold Ftx._queryKLines
  simp only [hvalid, if_false, hs, Bool.not_false, if_true]

theorem queryKLines_waitFailed {ε : Type} (client : Ftx.Client ε) (symbol : String)
    (interval : Ftx.Interval) (options : Ftx.KLineQueryOptions)
    (hvalid : ¬ options.StartTime.getD 0 > options.EndTime.getD client.now)
    (hs : Ftx.isIntervalSupportedInKLine interval = true) (err : ε)
    (hw : client.wait = Except.error err) :
    Ftx._queryKLines client symbol interval options =
      ⟨Except.error (Ftx.QueryError.upstream err), []⟩ := by
  unfold Ftx._queryKLines
  simp only [hvalid, if_false, hs, Bool.not_true, hw]
  rfl

theorem queryKLines_requests {ε : Type} (client : Ftx.Client ε) (symbol : String)
    (interval : Ftx.Interval) (options : Ftx.KLineQueryOptions)
    (hvalid : ¬ options.StartTime.getD 0 > options.EndTime.getD client.now)
    (hs : Ftx.isIntervalSupportedInKLine interval = true) (u : Unit)
    (hw : client.wait = Except.ok u) :
    (Ftx._queryKLines client symbol interval options).requests =
      [Ftx.Request.historicalPrices (client.toLocalSymbol symbol) interval
        (options.StartTime.getD 0) (options.EndTime.getD client.now)] := by
  unfold Ftx._queryKLines
  simp only [hvalid, if_false, hs, Bool.not_true, hw]
  cases client.historicalPrices (client.toLocalSymbol symbol) interval
      (options.StartTime.getD 0) (options.EndTime.getD client.now) with
  | error err => rfl
  | ok resp =>
    cases hsucc : resp.Success with
    | false => simp [hsucc]
    | true =>
      simp only [hsucc, Bool.not_true]
      cases Ftx.toGlobalKLines client symbol interval resp.Result [] <;> rfl

/-! ### FTX: the fills that `QueryTrades` accepts -/

theorem acceptedSoFar_since {ε : Type} (client : Ftx.Client ε) (last : Nat)
    (st : Ftx.TradesState) (accepted : List Ftx.Fill) (t : Ftx.Time)
    (h : Ftx.AcceptedSoFar client last st accepted) :
    Ftx.AcceptedSoFar client last { st with since := t } accepted := h

theorem acceptedSoFar_accept {ε : Type} (client : Ftx.Client ε) (last : Nat)
    (st : Ftx.TradesState) (accepted : List Ftx.Fill) (fill : Ftx.Fill) (t : Trade)
    (hid : st.lastTradeID < fill.Id) (ht : client.toGlobalTrade fill = Except.ok t)
    (h : Ftx.AcceptedSoFar client last st accepted) :
    Ftx.AcceptedSoFar client last
      { since := fill.Time, tradeIDs := insert fill.Id st.tradeIDs, lastTradeID := fill.Id,
        trades := st.trades ++ [t] } (accepted ++ [fill]) := by
  obtain ⟨hconv, hpair, hbound, hlast⟩ := h
  refine ⟨?_, ?_, ?_, ?_⟩
  · exact List.rel_append hconv (List.Forall₂.cons ht List.Forall₂.nil)
  · rw [List.map_append, List.pairwise_append]
    refine ⟨hpair, by simp, ?_⟩
    intro a ha b hb
    simp only [List.map_cons, List.map_nil, List.mem_singleton] at hb
    obtain ⟨f, hf, hfa⟩ := List.mem_map.1 ha
    have := (hbound f hf).2
    omega
  · intro f hf
    rcases List.mem_append.1 hf with hf | hf
    · have := hbound f hf
      exact ⟨this.1, by simp only; omega⟩
    · simp only [List.mem_singleton] at hf
      subst hf
      exact ⟨by omega, Nat.le_refl _⟩
  · simp only
    omega

theorem fillsLoop_accepted {ε : Type} (client : Ftx.Client ε) (upto : Ftx.Time) (last : Nat) :
    ∀ (fills : List Ftx.Fill) (st st1 : Ftx.TradesState) (accepted : List Ftx.Fill),
      Ftx.fillsLoop client upto st fills = Except.ok st1 →
      Ftx.AcceptedSoFar client last st accepted →
      ∃ accepted1, Ftx.AcceptedSoFar client last st1 accepted1
  | [], st, st1, accepted, h, hinv => by
    simp only [Ftx.fillsLoop] at h
    cases h
    exact ⟨accepted, hinv⟩
  | fill :: rest, st, st1, accepted, h, hinv => by
    simp only [Ftx.fillsLoop] at h
    split at h
    · exact fillsLoop_accepted client upto last rest _ st1 accepted h
        (acceptedSoFar_since client last st accepted fill.Time hinv)
    · split at h
      · exact fillsLoop_accepted client upto last rest _ st1 accepted h
          (acceptedSoFar_since client last st accepted fill.Time hinv)
      · rename_i hnot
        have hid : st.lastTradeID < fill.Id := by
          by_contra hle
          exact hnot (Or.inl (by omega))
        split at h
        · cases h
        · rename_i t ht
          exact fillsLoop_accepted client upto last rest _ st1 (accepted ++ [fill]) h
            (acceptedSoFar_accept client last st accepted fill t hid ht hinv)

theorem tradesLoop_accepted {ε : Type} (client : Ftx.Client ε) (symbol : String)
    (upto : Ftx.Time) (limit : Int) (last : Nat) :
    ∀ (fuel : Nat) (st : Ftx.TradesState) (requests sent : List Ftx.Request)
      (trades : List Trade) (accepted : List Ftx.Fill),
      Ftx.tradesLoop client symbol upto limit fuel st requests = some ⟨Except.ok trades, sent⟩ →
      Ftx.AcceptedSoFar client last st accepted →
      ∃ accepted1, Ftx.ConvertedFrom client accepted1 trades ∧
        (accepted1.map Ftx.Fill.Id).Pairwise (· < ·) ∧ ∀ f ∈ accepted1, last < f.Id := by
  intro fuel
  induction fuel with
  | zero =>
    intro st requests sent trades accepted h hinv
    unfold Ftx.tradesLoop at h
    split at h
    · cases h
    · simp only [Option.some.injEq, Ftx.Outcome.mk.injEq, Except.ok.injEq] at h
      obtain ⟨ht, _⟩ := h
      subst ht
      exact ⟨accepted, hinv.1, hinv.2.1, fun f hf => (hinv.2.2.1 f hf).1⟩
  | succ fuel ih =>
    intro st requests sent trades accepted h hinv
    unfold Ftx.tradesLoop at h
    split at h
    · simp only at h
      split at h
      · cases h
      · rename_i fills hfills
        split at h
        · cases h
        · rename_i st1 hst1
          obtain ⟨accepted1, hinv1⟩ :=
            fillsLoop_accepted client upto last _ st st1 accepted hst1 hinv
          split at h
          · simp only [Option.some.injEq, Ftx.Outcome.mk.injEq, Except.ok.injEq] at h
            obtain ⟨ht, _⟩ := h
            subst ht
            exact ⟨accepted1, hinv1.1, hinv1.2.1, fun f hf => (hinv1.2.2.1 f hf).1⟩
          · exact ih st1 _ sent trades accepted1 h hinv1
    · simp only [Option.some.injEq, Ftx.Outcome.mk.injEq, Except.ok.injEq] at h
      obtain ⟨ht, _⟩ := h
      subst ht
      exact ⟨accepted, hinv.1, hinv.2.1, fun f hf => (hinv.2.2.1 f hf).1⟩

theorem convertedFrom_ids {ε : Type} (client : Ftx.Client ε)
    (hid : ∀ f t, client.toGlobalTrade f = Except.ok t → t.ID = f.Id) :
    ∀ (accepted : List Ftx.Fill) (trades : List Trade),
      Ftx.ConvertedFrom client accepted trades →
      trades.map Trade.ID = accepted.map Ftx.Fill.Id := by
  intro accepted trades h
  induction h with
  | nil => rfl
  | cons hft _ ih => simp [ih, hid _ _ hft]

/-! ### FTX: client order ids -/

theorem utf8ByteSize_go_append (l₁ l₂ : List Char) :
    String.utf8ByteSize.go (l₁ ++ l₂) =
      String.utf8ByteSize.go l₁ + String.utf8ByteSize.go l₂ := by
  induction l₁ with
  | nil => simp [String.utf8ByteSize.go]
  | cons c cs ih =>
    show String.utf8ByteSize.go (c :: (cs ++ l₂)) = _
    simp only [String.utf8ByteSize.go, ih]
    omega

theorem len_append (s t : String) : Ftx.len (s ++ t) = Ftx.len s + Ftx.len t := by
  cases s with
  | mk l₁ =>
    cases t with
    | mk l₂ =>
      show String.utf8ByteSize.go ((String.mk l₁ ++ String.mk l₂).data) = _
      rw [String.data_append]
      exact utf8ByteSize_go_append l₁ l₂

theorem length_le_len (s : String) : s.length ≤ Ftx.len s := by
  cases s with
  | mk l =>
    induction l with
    | nil => simp [Ftx.len, String.utf8ByteSize, String.utf8ByteSize.go]
    | cons c cs ih =>
      simp only [Ftx.len, String.utf8ByteSize, String.utf8ByteSize.go, String.length,
        List.length_cons] at ih ⊢
      have := Char.utf8Size_pos c
      omega

theorem len_brokerPrefix : Ftx.len "x-BBGO" = 6 := by decide

theorem brokerPrefix_eq : "x-" ++ Ftx.spotBrokerID = "x-BBGO" := by decide

/-! ### The run loop -/

theorem withVisit_self (c : TradeCollector) : c.withVisit c.tradeStore.trades = c := rfl

theorem runCalls_invariant (addTrade : AddTradeFn) (P : TradeCollector → Prop)
    (hP : ∀ c call, P c → P (callStep addTrade c call)) :
    ∀ (calls : List Call) (c : TradeCollector), P c → P (runCalls addTrade c calls)
  | [], _, h => h
  | call :: rest, c, h => by
    unfold runCalls
    rw [List.foldl_cons]
    exact runCalls_invariant addTrade P hP rest _ (hP c call h)

/-! ### A second pass right after a pass -/

theorem filterPass_keep (addTrade : AddTradeFn) (orders : OrderStore) :
    ∀ (l : List Trade) (s : TradeCollector × Bool),
      (∀ u ∈ l, u.Key ∉ s.1.doneTrades ∧ orders.Exists u.OrderID = false) →
      filterPass (processFilter addTrade orders) l s = (l, s)
  | [], s, _ => by simp [filterPass]
  | u :: rest, s, h => by
    have hu := h u (List.mem_cons_self _ _)
    have hstep : processFilter addTrade orders s u = (false, s) := by
      unfold processFilter
      simp [hu.1, hu.2]
    simp only [filterPass, hstep]
    rw [filterPass_keep addTrade orders rest s
      (fun v hv => h v (List.mem_cons_of_mem _ hv))]
    simp

theorem Process_keep (addTrade : AddTradeFn) (orders : OrderStore) (c : TradeCollector)
    (h : ∀ u ∈ c.tradeStore.trades, u.Key ∉ c.doneTrades ∧ orders.Exists u.OrderID = false) :
    Process addTrade orders c = (false, c) := by
  have hpass := filterPass_keep addTrade orders c.tradeStore.trades (c, false) h
  unfold Process
  simp [hpass]

/-! ### FTX: the k-lines that `QueryKLines` returns -/

theorem linesLoop_after (since : Ftx.Time) :
    ∀ (lines : List Ftx.KLine) (st : Ftx.KLinesState),
      (∀ k ∈ st.klines, Ftx.Unix since < Ftx.Unix k.StartTime) →
      ∀ k ∈ (Ftx.linesLoop since st lines).klines, Ftx.Unix since < Ftx.Unix k.StartTime
  | [], st, h => by simpa [Ftx.linesLoop] using h
  | line :: rest, st, h => by
    simp only [Ftx.linesLoop]
    apply linesLoop_after since rest
    intro k hk
    by_cases h1 : Ftx.Unix line.StartTime < Ftx.Unix st.currentEnd <;>
      by_cases h2 : Ftx.Unix line.StartTime > Ftx.Unix since <;>
      simp only [h1, h2, if_true, if_false, List.mem_append, List.mem_singleton] at hk
    · rcases hk with hk | hk
      · exact h k hk
      · rw [hk]; exact h2
    · exact h k hk
    · rcases hk with hk | hk
      · exact h k hk
      · rw [hk]; exact h2
    · exact h k hk

theorem klinesLoop_after {ε : Type} (clientAt : Nat → Ftx.Client ε)
    (duration : Ftx.Interval → Int) (symbol : String) (interval : Ftx.Interval)
    (since : Ftx.Time) (limit : Int) :
    ∀ (fuel turn : Nat) (st : Ftx.KLinesState) (requests sent : List Ftx.Request)
      (collected : List Ftx.KLine),
      Ftx.klinesLoop clientAt duration symbol interval since limit fuel turn st requests =
        some (Except.ok collected, sent) →
      (∀ k ∈ st.klines, Ftx.Unix since < Ftx.Unix k.StartTime) →
      ∀ k ∈ collected, Ftx.Unix since < Ftx.Unix k.StartTime := by
  intro fuel
  induction fuel with
  | zero =>
    intro turn st requests sent collected h
    simp [Ftx.klinesLoop] at h
  | succ fuel ih =>
    intro turn st requests sent collected h hst
    simp only [Ftx.klinesLoop] at h
    split at h
    · simp at h
    · rename_i lines _
      have hlines := linesLoop_after since lines st hst
      split at h
      · simp only [Option.some.injEq, Prod.mk.injEq, Except.ok.injEq] at h
        rw [← h.1]
        exact hst
      · split at h
        · simp only [Option.some.injEq, Prod.mk.injEq, Except.ok.injEq] at h
          rw [← h.1]
          exact hlines
        · split at h
          · simp only [Option.some.injEq, Prod.mk.injEq, Except.ok.injEq] at h
            rw [← h.1]
            exact hlines
          · split at h
            · simp only [Option.some.injEq, Prod.mk.injEq, Except.ok.injEq] at h
              rw [← h.1]
              exact hlines
            · exact ih (turn + 1) _ _ sent collected h hlines

theorem sorted_insertionSort_startsBefore (klines : List Ftx.KLine) :
    (klines.insertionSort Ftx.startsBefore).Pairwise Ftx.startsBefore :=
  @List.sorted_insertionSort Ftx.KLine Ftx.startsBefore _
    ⟨fun a b => le_total (Ftx.Unix a.StartTime) (Ftx.Unix b.StartTime)⟩
    ⟨fun _ _ _ hab hbc => le_trans hab hbc⟩ klines

theorem sortsSlice_stableSortSlice : Ftx.SortsSlice Ftx.stableSortSlice := by
  intro klines
  refine ⟨List.perm_insertionSort Ftx.startsBefore klines, ?_⟩
  exact (sorted_insertionSort_startsBefore klines).imp
    (fun hab => not_lt.mpr hab)

theorem sortAndLimit_spec (sortSlice : List Ftx.KLine → List Ftx.KLine)
    (hsort : Ftx.SortsSlice sortSlice) (klines : List Ftx.KLine) (limit : Int)
    (result : List Ftx.KLine) (h : Ftx.sortAndLimit sortSlice klines limit = some result) :
    result.Pairwise Ftx.startsBefore ∧
    (∀ k ∈ result, k ∈ klines) ∧
    (limit ≠ 0 → 0 < limit ∧ (result.length : Int) ≤ limit ∧
      result = (sortSlice klines).drop ((sortSlice klines).length - limit.toNat)) ∧
    (limit = 0 → result = sortSlice klines) := by
  have hperm := (hsort klines).1
  have hsorted : (sortSlice klines).Pairwise Ftx.startsBefore :=
    (hsort klines).2.imp (fun hab => not_lt.mp hab)
  unfold Ftx.sortAndLimit at h
  by_cases hl : limit = 0
  · simp only [hl, ne_eq, not_true_eq_false, if_false, Option.some.injEq] at h
    subst h
    exact ⟨hsorted, fun k hk => hperm.subset hk, fun hne => absurd hl hne, fun _ => rfl⟩
  · simp only [ne_eq, hl, not_false_eq_true, if_true] at h
    by_cases hpos : ((sortSlice klines).length : Int) - limit > 0
    · simp only [hpos, if_true] at h
      by_cases hle : ((sortSlice klines).length : Int) - limit ≤ (sortSlice klines).length
      · simp only [hle, if_true, Option.some.injEq] at h
        subst h
        have hnat : (((sortSlice klines).length : Int) - limit).toNat =
            (sortSlice klines).length - limit.toNat := by omega
        refine ⟨hsorted.sublist (List.drop_sublist _ _),
          fun k hk => hperm.subset ((List.drop_sublist _ _).subset hk),
          fun _ => ⟨by omega, ?_, by rw [hnat]⟩, fun h0 => absurd h0 hl⟩
        rw [List.length_drop]
        omega
      · simp only [hle, if_false] at h
        cases h
    · simp only [hpos, if_false, Option.some.injEq] at h
      subst h
      refine ⟨hsorted, fun k hk => hperm.subset hk, fun _ => ⟨?_, by omega, ?_⟩,
        fun h0 => absurd h0 hl⟩
      · have := Int.ofNat_nonneg (sortSlice klines).length
        omega
      · have : (sortSlice klines).length - limit.toNat = 0 := by omega
        rw [this, List.drop_zero]

/-! ### The run loop, wake-up by wake-up -/

theorem Run_cons (addTrade : AddTradeFn) (c : TradeCollector) (orders : OrderStore)
    (trade : Trade) (rest : List (Wake × OrderStore)) :
    Run addTrade c ((Wake.ticker, orders) :: rest) =
      Run addTrade (Process addTrade orders c).2 rest ∧
    Run addTrade c ((Wake.orderSig, orders) :: rest) =
      Run addTrade (Process addTrade orders c).2 rest ∧
    Run addTrade c ((Wake.tradeC trade, orders) :: rest) =
      Run addTrade (ProcessTrade addTrade orders c trade).2 rest ∧
    Run addTrade c ((Wake.ctxDone, orders) :: rest) = c := by
  refine ⟨?_, ?_, ?_, ?_⟩ <;> simp [Run, runStep]

theorem Run_runWork (addTrade : AddTradeFn) :
    ∀ (wakes : List (Wake × OrderStore)) (c : TradeCollector),
      Run addTrade c wakes = runWork addTrade c (workOf wakes)
  | [], c => rfl
  | (Wake.ctxDone, orders) :: rest, c => by
    simp [Run, runStep, workOf, runWork]
  | (Wake.ticker, orders) :: rest, c => by
    simp only [Run, runStep, if_true, workOf, runWork, List.foldl_cons, workStep]
    exact Run_runWork addTrade rest _
  | (Wake.orderSig, orders) :: rest, c => by
    simp only [Run, runStep, if_true, workOf, runWork, List.foldl_cons, workStep]
    exact Run_runWork addTrade rest _
  | (Wake.tradeC trade, orders) :: rest, c => by
    simp only [Run, runStep, if_true, workOf, runWork, List.foldl_cons, workStep]
    exact Run_runWork addTrade rest _

theorem workOf_length :
    ∀ wakes : List (Wake × OrderStore),
      (workOf wakes).length = (wakes.takeWhile (fun w => !w.1.isDone)).length
  | [] => rfl
  | (Wake.ctxDone, _) :: _ => by simp [workOf, Wake.isDone]
  | (Wake.ticker, _) :: rest => by simp [workOf, Wake.isDone, workOf_length rest]
  | (Wake.orderSig, _) :: rest => by simp [workOf, Wake.isDone, workOf_length rest]
  | (Wake.tradeC _, _) :: rest => by simp [workOf, Wake.isDone, workOf_length rest]

theorem workOf_length_all (wakes : List (Wake × OrderStore))
    (h : ∀ w ∈ wakes, w.1.isDone = false) : (workOf wakes).length = wakes.length := by
  rw [workOf_length, List.takeWhile_eq_self_iff.mpr]
  intro w hw
  simp [h w hw]

theorem runWork_runCalls (addTrade : AddTradeFn) :
    ∀ (work : List Work) (c : TradeCollector),
      ∃ calls : List Call, calls.length = work.length ∧
        runWork addTrade c work = runCalls addTrade c calls
  | [], c => ⟨[], rfl, rfl⟩
  | Work.process orders :: rest, c => by
    obtain ⟨more, hlen, hrun⟩ := runWork_runCalls addTrade rest (Process addTrade orders c).2
    refine ⟨Call.process orders c.tradeStore.trades :: more, by simp [hlen], ?_⟩
    simp only [runWork, runCalls, List.foldl_cons, workStep, callStep, withVisit_self,
      List.Perm.refl, if_true] at hrun ⊢
    exact hrun
  | Work.processTrade orders trade :: rest, c => by
    obtain ⟨more, hlen, hrun⟩ :=
      runWork_runCalls addTrade rest (ProcessTrade addTrade orders c trade).2
    refine ⟨Call.processTrade orders trade :: more, by simp [hlen], ?_⟩
    simp only [runWork, runCalls, List.foldl_cons, workStep, callStep] at hrun ⊢
    exact hrun

end TradeCollector

/-! ## Claims -/

open TradeCollector

/-- C1: along every finite sequence of `ProcessTrade` and `Process` calls, the
order store being arbitrary at each call, `Position.AddTrade` is called at
most once with a trade of key `k`: from any collector the count of such calls
grows by at most one, and from a new collector it is at most one. -/
theorem C1_addTrade_at_most_once_per_key (addTrade : AddTradeFn) (calls : List Call)
    (k : TradeKey) :
    (∀ c : TradeCollector,
      addTradeCount k (runCalls addTrade c calls).log ≤ addTradeCount k c.log + 1) ∧
    (∀ (symbol : String) (position : Position),
      addTradeCount k (runCalls addTrade (NewTradeCollector symbol position) calls).log ≤ 1) := by
  have key : ∀ c : TradeCollector,
      addTradeCount k (runCalls addTrade c calls).log ≤ addTradeCount k c.log + 1 := fun c =>
    (oncePerKey_runCalls addTrade k (addTradeCount k c.log) calls c
      ⟨Nat.le_succ _, fun _ => Nat.le_refl _⟩).1
  exact ⟨key, fun symbol position => by
    simpa [NewTradeCollector, addTradeCount] using key (NewTradeCollector symbol position)⟩

/-- C2: for a trade whose key is already in the done set, `ProcessTrade`
returns false and changes nothing: position, done set, pending store and the
log of `AddTrade` calls and emitted events stay as they were, whatever the
order store holds. -/
theorem C2_processTrade_done_noop (addTrade : AddTradeFn) (orders : OrderStore)
    (c : TradeCollector) (trade : Trade) (hdone : trade.Key ∈ c.doneTrades) :
    ProcessTrade addTrade orders c trade = (false, c) :=
  ProcessTrade_done addTrade orders c trade hdone

/-- Witness of C2: the sample buy, once applied, is delivered again. -/
theorem C2_processTrade_done_noop_witness :
    ProcessTrade Position.AddTrade knownOrders
        (ProcessTrade Position.AddTrade knownOrders sampleCollector sampleBuy).2 sampleBuy =
      (false, (ProcessTrade Position.AddTrade knownOrders sampleCollector sampleBuy).2) :=
  C2_processTrade_done_noop Position.AddTrade knownOrders
    (ProcessTrade Position.AddTrade knownOrders sampleCollector sampleBuy).2 sampleBuy
    (by decide)

/-- C3: for a trade whose key is not done and whose order exists in the order
store, `ProcessTrade` returns true, calls `Position.AddTrade` with the trade
exactly once, emits one trade event, the profit event when `AddTrade` reported
a profit, and one position-update event, adds the key to the done set and
leaves the pending store untouched; and `ProcessTrade` returns true in this
case only. -/
theorem C3_processTrade_applies (addTrade : AddTradeFn) (orders : OrderStore)
    (c : TradeCollector) (trade : Trade) :
    (trade.Key ∉ c.doneTrades ∧ orders.Exists trade.OrderID = true →
      ProcessTrade addTrade orders c trade =
        (true, { c with
          position := (addTrade c.position trade).1
          doneTrades := insert trade.Key c.doneTrades
          log := c.log ++ Effect.addTrade trade :: Effect.emitTrade trade ::
            ((if (addTrade c.position trade).2.2.2 then
              [Effect.emitProfit trade (addTrade c.position trade).2.1
                (addTrade c.position trade).2.2.1]
            else []) ++ [Effect.emitPositionUpdate (addTrade c.position trade).1]) })) ∧
    ((ProcessTrade addTrade orders c trade).1 = true →
      trade.Key ∉ c.doneTrades ∧ orders.Exists trade.OrderID = true) := by
  constructor
  · rintro ⟨hk, ho⟩
    exact ProcessTrade_known addTrade orders c trade hk ho
  · intro h
    by_cases hk : trade.Key ∈ c.doneTrades
    · rw [ProcessTrade_done addTrade orders c trade hk] at h
      simp at h
    · refine ⟨hk, ?_⟩
      by_cases ho : orders.Exists trade.OrderID = true
      · exact ho
      · simp only [Bool.not_eq_true] at ho
        rw [ProcessTrade_unknown addTrade orders c trade hk ho] at h
        simp at h

/-- Witness of C3: the sample buy on a fresh collector that knows order 10. -/
theorem C3_processTrade_applies_witness :
    (sampleBuy.Key ∉ sampleCollector.doneTrades ∧ knownOrders.Exists sampleBuy.OrderID = true) ∧
    (ProcessTrade Position.AddTrade knownOrders sampleCollector sampleBuy).1 = true ∧
    (ProcessTrade Position.AddTrade knownOrders sampleCollector sampleBuy).2.log =
      [Effect.addTrade sampleBuy, Effect.emitTrade sampleBuy,
        Effect.emitPositionUpdate ⟨"BTCUSDT", 100000000, 10000000000, 0⟩] :=
  have h : sampleBuy.Key ∉ sampleCollector.doneTrades ∧
      knownOrders.Exists sampleBuy.OrderID = true := by decide
  ⟨h, by
    rw [(C3_processTrade_applies Position.AddTrade knownOrders sampleCollector sampleBuy).1 h]
    exact ⟨rfl, by decide⟩⟩

/-- C4: for a trade whose key is not done and whose order does not exist in
the order store, `ProcessTrade` returns false, adds the trade to the pending
store, and leaves position, done set and log as they were. -/
theorem C4_processTrade_buffers (addTrade : AddTradeFn) (orders : OrderStore)
    (c : TradeCollector) (trade : Trade) (hk : trade.Key ∉ c.doneTrades)
    (ho : orders.Exists trade.OrderID = false) :
    ProcessTrade addTrade orders c trade =
        (false, { c with tradeStore := c.tradeStore.Add trade }) ∧
      trade ∈ (c.tradeStore.Add trade).trades :=
  ⟨ProcessTrade_unknown addTrade orders c trade hk ho, mem_Add _ _⟩

/-- Witness of C4: the sample buy on a fresh collector without any order. -/
theorem C4_processTrade_buffers_witness :
    ProcessTrade Position.AddTrade noOrders sampleCollector sampleBuy =
        (false, { sampleCollector with tradeStore := sampleCollector.tradeStore.Add sampleBuy }) ∧
      sampleBuy ∈ (sampleCollector.tradeStore.Add sampleBuy).trades :=
  C4_processTrade_buffers Position.AddTrade noOrders sampleCollector sampleBuy
    (by decide) (by decide)

/-- C5: after `ProcessTrade` returns, the key of the trade is in the done set
or the trade is held in the pending store; the result of `ProcessTrade` is a
boolean and the collector, there is no error result. -/
theorem C5_processTrade_never_loses (addTrade : AddTradeFn) (orders : OrderStore)
    (c : TradeCollector) (trade : Trade) :
    trade.Key ∈ (ProcessTrade addTrade orders c trade).2.doneTrades ∨
      trade ∈ (ProcessTrade addTrade orders c trade).2.tradeStore.trades := by
  by_cases hk : trade.Key ∈ c.doneTrades
  · left
    rw [ProcessTrade_done addTrade orders c trade hk]
    exact hk
  · by_cases ho : orders.Exists trade.OrderID = true
    · left
      rw [ProcessTrade_known addTrade orders c trade hk ho]
      simp
    · right
      simp only [Bool.not_eq_true] at ho
      rw [ProcessTrade_unknown addTrade orders c trade hk ho]
      exact mem_Add _ _

/-- C6, as stated, fails: with the sample sell of order 10 already buffered,
the sample buy of order 10 is delivered while the order is unknown; after the
order is registered `Process` applies the sell as well, so position and done
set differ from those after `ProcessTrade` with the order already known. -/
theorem C6_order_independence_counterexample :
    sampleBuy.Key ∉ sampleBuffered.doneTrades ∧
    noOrders.Exists sampleBuy.OrderID = false ∧
    knownOrders = noOrders.Add sampleBuy.OrderID ∧
    (Process Position.AddTrade knownOrders
        (ProcessTrade Position.AddTrade noOrders sampleBuffered sampleBuy).2).2.position ≠
      (ProcessTrade Position.AddTrade knownOrders sampleBuffered sampleBuy).2.position ∧
    (Process Position.AddTrade knownOrders
        (ProcessTrade Position.AddTrade noOrders sampleBuffered sampleBuy).2).2.doneTrades ≠
      (ProcessTrade Position.AddTrade knownOrders sampleBuffered sampleBuy).2.doneTrades := by
  decide

/-- C6, amended: when every other buffered trade is done or has an order that
is still unknown after the registration, delivering a trade whose key is not
done while its order is unknown, then registering the order and calling
`Process` (in whatever order its pass meets the pending trades), gives the
same position, the same done set, the same profit-event values and the same
log as `ProcessTrade` with the order already known. -/
theorem C6_order_independence_single (addTrade : AddTradeFn) (before after : OrderStore)
    (c : TradeCollector) (trade : Trade) (visit : List Trade)
    (hk : trade.Key ∉ c.doneTrades)
    (hbefore : before.Exists trade.OrderID = false)
    (hafter : after.Exists trade.OrderID = true)
    (hothers : ∀ u ∈ c.tradeStore.trades, u.Key ≠ trade.Key →
      u.Key ∈ c.doneTrades ∨ after.Exists u.OrderID = false)
    (hvisit : visit.Perm (ProcessTrade addTrade before c trade).2.tradeStore.trades) :
    (Process addTrade after
        ((ProcessTrade addTrade before c trade).2.withVisit visit)).2.position =
      (ProcessTrade addTrade after c trade).2.position ∧
    (Process addTrade after
        ((ProcessTrade addTrade before c trade).2.withVisit visit)).2.doneTrades =
      (ProcessTrade addTrade after c trade).2.doneTrades ∧
    profitEvents (Process addTrade after
        ((ProcessTrade addTrade before c trade).2.withVisit visit)).2.log =
      profitEvents (ProcessTrade addTrade after c trade).2.log ∧
    (Process addTrade after
        ((ProcessTrade addTrade before c trade).2.withVisit visit)).2.log =
      (ProcessTrade addTrade after c trade).2.log := by
  rw [ProcessTrade_unknown addTrade before c trade hk hbefore] at hvisit ⊢
  rw [ProcessTrade_known addTrade after c trade hk hafter]
  have hmem : trade ∈ visit := hvisit.symm.subset (mem_Add _ _)
  have hall : ∀ u ∈ visit,
      u = trade ∨ u.Key ∈ c.doneTrades ∨ after.Exists u.OrderID = false := by
    intro u hu
    rcases mem_Add_cases _ _ _ (hvisit.subset hu) with h | ⟨h1, h2⟩
    · exact Or.inl h
    · exact Or.inr (hothers u h1 h2)
  have hpass := filterPass_single addTrade after trade hafter visit
    (({ c with tradeStore := c.tradeStore.Add trade } : TradeCollector).withVisit visit, false)
    hall
  have hk2 : trade.Key ∉
      (({ c with tradeStore := c.tradeStore.Add trade } : TradeCollector).withVisit
        visit).doneTrades := hk
  simp only [hk2, if_false, hmem, if_true] at hpass
  have hlog : (Process addTrade after
      (({ c with tradeStore := c.tradeStore.Add trade } : TradeCollector).withVisit
        visit)).2.log =
      c.log ++ Effect.addTrade trade :: Effect.emitTrade trade ::
        ((if (addTrade c.position trade).2.2.2 then
          [Effect.emitProfit trade (addTrade c.position trade).2.1
            (addTrade c.position trade).2.2.1]
        else []) ++ [Effect.emitPositionUpdate (addTrade c.position trade).1]) := by
    rw [Process_snd]
    unfold passResult
    have hv : (({ c with tradeStore := c.tradeStore.Add trade } : TradeCollector).withVisit
        visit).tradeStore.trades = visit := rfl
    rw [hv, hpass]
    simp [applyTrade_eq, withVisit]
  refine ⟨?_, ?_, by rw [hlog], hlog⟩
  · rw [Process_snd]
    unfold passResult
    have hv : (({ c with tradeStore := c.tradeStore.Add trade } : TradeCollector).withVisit
        visit).tradeStore.trades = visit := rfl
    rw [hv, hpass]
    simp [applyTrade_eq, withVisit]
  · rw [Process_snd]
    unfold passResult
    have hv : (({ c with tradeStore := c.tradeStore.Add trade } : TradeCollector).withVisit
        visit).tradeStore.trades = visit := rfl
    rw [hv, hpass]
    simp [applyTrade_eq, withVisit]

/-- Witness of C6: the trade of order 11 is buffered and stays unknown; the
sample buy of order 10 is delivered before order 10 is registered. -/
theorem C6_order_independence_single_witness :
    (Process Position.AddTrade knownOrders
        ((ProcessTrade Position.AddTrade noOrders sampleBufferedOther sampleBuy).2.withVisit
          [sampleBuy, sampleOther])).2.position =
      (ProcessTrade Position.AddTrade knownOrders sampleBufferedOther sampleBuy).2.position ∧
    (Process Position.AddTrade knownOrders
        ((ProcessTrade Position.AddTrade noOrders sampleBufferedOther sampleBuy).2.withVisit
          [sampleBuy, sampleOther])).2.doneTrades =
      (ProcessTrade Position.AddTrade knownOrders sampleBufferedOther sampleBuy).2.doneTrades ∧
    profitEvents (Process Position.AddTrade knownOrders
        ((ProcessTrade Position.AddTrade noOrders sampleBufferedOther sampleBuy).2.withVisit
          [sampleBuy, sampleOther])).2.log =
      profitEvents (ProcessTrade Position.AddTrade knownOrders sampleBufferedOther sampleBuy).2.log ∧
    (Process Position.AddTrade knownOrders
        ((ProcessTrade Position.AddTrade noOrders sampleBufferedOther sampleBuy).2.withVisit
          [sampleBuy, sampleOther])).2.log =
      (ProcessTrade Position.AddTrade knownOrders sampleBufferedOther sampleBuy).2.log :=
  C6_order_independence_single Position.AddTrade noOrders knownOrders sampleBufferedOther
    sampleBuy [sampleBuy, sampleOther] (by decide) (by decide) (by decide) (by decide)
    (by decide)

/-- C7: one call of `Process` emits at most one position-update event; when it
called `AddTrade` at least once it returns true and emits exactly one, and
when it called `AddTrade` for no trade it returns false and emits none. -/
theorem C7_process_one_position_update (addTrade : AddTradeFn) (orders : OrderStore)
    (c : TradeCollector) :
    (Process addTrade orders c).2.log = c.log ++ emitted c (Process addTrade orders c).2 ∧
    (emitted c (Process addTrade orders c).2).countP Effect.isPositionUpdate ≤ 1 ∧
    (0 < (emitted c (Process addTrade orders c).2).countP Effect.isAddTrade →
      (Process addTrade orders c).1 = true ∧
      (emitted c (Process addTrade orders c).2).countP Effect.isPositionUpdate = 1) ∧
    ((emitted c (Process addTrade orders c).2).countP Effect.isAddTrade = 0 →
      (Process addTrade orders c).1 = false ∧
      (emitted c (Process addTrade orders c).2).countP Effect.isPositionUpdate = 0) := by
  obtain ⟨e, he, hupd, hadd⟩ := passLog_passResult addTrade orders c
  have hlog : (Process addTrade orders c).2.log = c.log ++ (e ++
      (if (passResult addTrade orders c).2.2 then
        [Effect.emitPositionUpdate (passResult addTrade orders c).2.1.position]
      else [])) := by
    rw [Process_snd]
    simp [he]
  have hem : emitted c (Process addTrade orders c).2 = e ++
      (if (passResult addTrade orders c).2.2 then
        [Effect.emitPositionUpdate (passResult addTrade orders c).2.1.position]
      else []) := by
    unfold emitted
    rw [hlog]
    simp
  rw [hem, Process_fst]
  refine ⟨hlog, ?_⟩
  by_cases hb : (passResult addTrade orders c).2.2 = true
  · have hpos := hadd.1 hb
    simp only [hb, if_true, List.countP_append, hupd]
    simp only [List.countP_cons, List.countP_nil, Effect.isPositionUpdate, Effect.isAddTrade]
    simp
    exact List.countP_pos_iff.mp hpos
  · have hzero : e.countP Effect.isAddTrade = 0 := by
      by_contra hne
      exact hb (hadd.2 (Nat.pos_of_ne_zero hne))
    simp only [hb, List.countP_append, hupd, hzero]
    simp

/-- C8: `Process` drains the pending store, whose entries have distinct keys:
a buffered trade whose key is not done and whose order exists is applied
(`AddTrade` is called with it once, its key is marked done) and removed; a
buffered trade whose key is already done is removed and `AddTrade` is not
called with it; afterwards the pending store holds exactly the previously
buffered trades whose key is not done and whose order is unknown. -/
theorem C8_process_drains (addTrade : AddTradeFn) (orders : OrderStore) (c : TradeCollector)
    (hkeys : KeysUnique c) :
    (∀ u ∈ c.tradeStore.trades, u.Key ∉ c.doneTrades → orders.Exists u.OrderID = true →
      (Process addTrade orders c).2.log.count (Effect.addTrade u) =
        c.log.count (Effect.addTrade u) + 1 ∧
      u.Key ∈ (Process addTrade orders c).2.doneTrades ∧
      u ∉ (Process addTrade orders c).2.tradeStore.trades) ∧
    (∀ u ∈ c.tradeStore.trades, u.Key ∈ c.doneTrades →
      (Process addTrade orders c).2.log.count (Effect.addTrade u) =
        c.log.count (Effect.addTrade u) ∧
      u ∉ (Process addTrade orders c).2.tradeStore.trades) ∧
    (Process addTrade orders c).2.tradeStore.trades =
      c.tradeStore.trades.filter (stays orders c.doneTrades) ∧
    (∀ u, u ∈ (Process addTrade orders c).2.tradeStore.trades ↔
      u ∈ c.tradeStore.trades ∧ u.Key ∉ c.doneTrades ∧ orders.Exists u.OrderID = false) := by
  have hnodup : c.tradeStore.trades.Nodup := List.Nodup.of_map _ hkeys
  have hfilter : (c.tradeStore.trades.filter (applicable orders c.doneTrades)).Nodup :=
    hnodup.filter _
  have htail : ∀ (u : Trade) (b : Bool) (p : Position),
      List.count (Effect.addTrade u) (if b = true then [] else [Effect.emitPositionUpdate p])
        = 0 := by
    intro u b p
    cases b <;> simp
  have hmem : ∀ u, u ∈ (Process addTrade orders c).2.tradeStore.trades ↔
      u ∈ c.tradeStore.trades ∧ u.Key ∉ c.doneTrades ∧ orders.Exists u.OrderID = false := by
    intro u
    rw [Process_spec addTrade orders c hkeys]
    simp [List.mem_filter, stays]
  refine ⟨?_, ?_, ?_, hmem⟩
  · intro u hu hk ho
    have happ : u ∈ c.tradeStore.trades.filter (applicable orders c.doneTrades) := by
      simp [List.mem_filter, applicable, hu, hk, ho]
    refine ⟨?_, ?_, ?_⟩
    · rw [Process_spec addTrade orders c hkeys]
      simp only [List.count_append, applyAll_count, htail, Nat.add_zero]
      rw [List.count_eq_one_of_mem hfilter happ]
    · rw [Process_spec addTrade orders c hkeys]
      exact (applyAll_doneTrades addTrade _ c u.Key).2
        (Or.inr (List.mem_map_of_mem _ happ))
    · intro hin
      have := ((hmem u).1 hin).2.2
      rw [ho] at this
      exact absurd this (by simp)
  · intro u hu hk
    refine ⟨?_, ?_⟩
    · rw [Process_spec addTrade orders c hkeys]
      simp only [List.count_append, applyAll_count, htail, Nat.add_zero]
      have : u ∉ c.tradeStore.trades.filter (applicable orders c.doneTrades) := by
        simp [List.mem_filter, applicable, hk]
      rw [List.count_eq_zero_of_not_mem this]
      rfl
    · intro hin
      exact ((hmem u).1 hin).2.1 hk
  · rw [Process_spec addTrade orders c hkeys]

/-- Witness of C8: in the sample collector the buy is done, the sell can be
applied and the trade of order 11 stays. -/
theorem C8_process_drains_witness :
    KeysUnique sampleMixed ∧
    (Process Position.AddTrade knownOrders sampleMixed).2.tradeStore.trades =
      sampleMixed.tradeStore.trades.filter (stays knownOrders sampleMixed.doneTrades) ∧
    (Process Position.AddTrade knownOrders sampleMixed).2.tradeStore.trades = [sampleOther] :=
  have h : KeysUnique sampleMixed := by unfold KeysUnique; decide
  ⟨h, (C8_process_drains Position.AddTrade knownOrders sampleMixed h).2.2.1, by decide⟩

/-- C9: `Recover` with a history query that returns the trades `trades` ends
with the same position, done set and pending store, and with the same sequence
of profit-event values, as `ProcessTrade` called on each of the trades in
order, which is what the run loop does with queued trades. -/
theorem C9_recover_equals_live {ε : Type} (addTrade : AddTradeFn) (orders : OrderStore)
    (c : TradeCollector) (trades : List Trade) :
    (Recover addTrade orders c (Except.ok trades : Except ε (List Trade))).2.position =
      (runCalls addTrade c (trades.map (Call.processTrade orders))).position ∧
    (Recover addTrade orders c (Except.ok trades : Except ε (List Trade))).2.doneTrades =
      (runCalls addTrade c (trades.map (Call.processTrade orders))).doneTrades ∧
    (Recover addTrade orders c (Except.ok trades : Except ε (List Trade))).2.tradeStore =
      (runCalls addTrade c (trades.map (Call.processTrade orders))).tradeStore ∧
    profitEvents (Recover addTrade orders c (Except.ok trades : Except ε (List Trade))).2.log =
      profitEvents (runCalls addTrade c (trades.map (Call.processTrade orders))).log :=
  sameLedger_recoverLoop addTrade orders trades c c ⟨rfl, rfl, rfl, rfl⟩

/-- C10: when the trade-history query fails with the error `err`, `Recover`
returns `err` itself and the collector is unchanged (no trade processed, no
event emitted); when the query succeeds `Recover` returns no error. -/
theorem C10_recover_error {ε : Type} (addTrade : AddTradeFn) (orders : OrderStore)
    (c : TradeCollector) (err : ε) (trades : List Trade) :
    Recover addTrade orders c (Except.error err) = (some err, c) ∧
    (Recover addTrade orders c (Except.ok trades : Except ε (List Trade))).1 = none :=
  ⟨rfl, rfl⟩

/-- C11: during `Recover` over the returned trades the recovered event is
emitted for exactly the trades for which `ProcessTrade` returned true, in the
order of the list; these are the trades whose order exists and whose key was
not done when they were met, so each of them is a trade of the list, none was
done before the call or only buffered, and no two of them share a key. -/
theorem C11_recover_events {ε : Type} (addTrade : AddTradeFn) (orders : OrderStore)
    (c : TradeCollector) (trades : List Trade) :
    recoverEvents (Recover addTrade orders c (Except.ok trades : Except ε (List Trade))).2.log =
      recoverEvents c.log ++ newlyApplied addTrade orders c trades ∧
    newlyApplied addTrade orders c trades = firstDeliveries orders c.doneTrades trades ∧
    (∀ td ∈ newlyApplied addTrade orders c trades,
      td ∈ trades ∧ td.Key ∉ c.doneTrades ∧ orders.Exists td.OrderID = true) ∧
    ((newlyApplied addTrade orders c trades).map Trade.Key).Nodup := by
  rw [newlyApplied_eq]
  exact ⟨recoverLoop_recoverEvents addTrade orders trades c, rfl,
    fun td h => firstDeliveries_mem orders trades _ td h,
    firstDeliveries_nodup orders trades _⟩

/-- C16: `EmitTrade` runs the handlers registered with `OnTrade`, each once, in
the order of registration, with the emitted trade, and `EmitPositionUpdate`
does the same for `OnPositionUpdate`; handlers that record their invocations,
registered as `ids` before a first emission and as `later` after it, yield the
record `ids` for the first value followed by `ids ++ later` for the second, so
a handler registered after an emission is not run for it. -/
theorem C16_emit_in_registration_order :
    (∀ (W : Type) (cbs : List (Trade → W → W)) (trade : Trade) (w : W),
      (Callbacks.empty.registerTrade cbs).EmitTrade trade w =
        cbs.foldl (fun w cb => cb trade w) w) ∧
    (∀ (W : Type) (cbs : List (Position → W → W)) (position : Position) (w : W),
      (Callbacks.empty.registerPositionUpdate cbs).EmitPositionUpdate position w =
        cbs.foldl (fun w cb => cb position w) w) ∧
    (∀ (ids later : List Nat) (first second : Trade),
      ((Callbacks.empty.registerTrade (ids.map Callbacks.record)).registerTrade
          (later.map Callbacks.record)).EmitTrade second
        ((Callbacks.empty.registerTrade (ids.map Callbacks.record)).EmitTrade first []) =
        (ids.map fun i => (i, first)) ++ ((ids ++ later).map fun i => (i, second))) ∧
    (∀ (ids later : List Nat) (first second : Position),
      ((Callbacks.empty.registerPositionUpdate (ids.map Callbacks.record)).registerPositionUpdate
          (later.map Callbacks.record)).EmitPositionUpdate second
        ((Callbacks.empty.registerPositionUpdate
          (ids.map Callbacks.record)).EmitPositionUpdate first []) =
        (ids.map fun i => (i, first)) ++ ((ids ++ later).map fun i => (i, second))) := by
  refine ⟨?_, ?_, ?_, ?_⟩
  · intro W cbs trade w
    simp [Callbacks.EmitTrade, registerTrade_tradeCallbacks, Callbacks.empty]
  · intro W cbs position w
    simp [Callbacks.EmitPositionUpdate, registerPositionUpdate_callbacks, Callbacks.empty]
  · intro ids later first second
    simp only [Callbacks.EmitTrade, registerTrade_tradeCallbacks, Callbacks.empty,
      List.nil_append, ← List.map_append, foldl_record]
  · intro ids later first second
    simp only [Callbacks.EmitPositionUpdate, registerPositionUpdate_callbacks, Callbacks.empty,
      List.nil_append, ← List.map_append, foldl_record]

/-- C12, as stated, fails: `Recover` applies the sample buy through
`ProcessTrade`, which emits the ordinary trade event before `Recover` emits
the recovered event, so a handler registered with `OnTrade` is invoked for the
trade. -/
theorem C12_recover_trade_event_counterexample :
    newlyApplied Position.AddTrade knownOrders sampleCollector [sampleBuy] = [sampleBuy] ∧
    Effect.emitTrade sampleBuy ∈
      (Recover Position.AddTrade knownOrders sampleCollector
        (Except.ok [sampleBuy] : Except String (List Trade))).2.log ∧
    (Callbacks.empty.OnTrade (Callbacks.record 1)).deliverAll
      (Recover Position.AddTrade knownOrders sampleCollector
        (Except.ok [sampleBuy] : Except String (List Trade))).2.log [] = [(1, sampleBuy)] := by
  decide

/-- C12, amended: for every trade newly applied during `Recover` the collector
emits the ordinary trade event and then the recovered event, trade after
trade in the order of the list; observers with one handler registered with
`OnTrade` (number 1) and one with `OnRecover` (number 2) see, for each newly
applied trade, handler 1 and then handler 2 invoked with it. -/
theorem C12_recover_trade_then_recover {ε : Type} (addTrade : AddTradeFn) (orders : OrderStore)
    (c : TradeCollector) (trades : List Trade) :
    (emitted c (Recover addTrade orders c
        (Except.ok trades : Except ε (List Trade))).2).filter Effect.isTradeOrRecover =
      tradeThenRecover (newlyApplied addTrade orders c trades) ∧
    Callbacks.tradeAndRecoverRecorder.deliverAll
        (emitted c (Recover addTrade orders c (Except.ok trades : Except ε (List Trade))).2) [] =
      (newlyApplied addTrade orders c trades).flatMap fun td => [(1, td), (2, td)] := by
  have hlog := recoverLoop_log addTrade orders trades c
  have hem : emitted c (Recover addTrade orders c
      (Except.ok trades : Except ε (List Trade))).2 =
      recoverTrace addTrade c.position (firstDeliveries orders c.doneTrades trades) :=
    emitted_append _ _ _ hlog
  rw [hem, newlyApplied_eq]
  refine ⟨recoverTrace_filter addTrade _ _, ?_⟩
  simpa using recoverTrace_recorder addTrade
    (firstDeliveries orders c.doneTrades trades) c.position []

/-- C13: in `ProcessTrade` and in `Process` every application of a trade to
the position is the call of `AddTrade`, then the trade event, then, exactly
when `AddTrade` reported a profit, the profit event with the trade and the
`(profit, netProfit)` that `AddTrade` returned: the log of `ProcessTrade` grows
by this block and the position-update event when it returns true and not at
all otherwise, and the log of `Process` grows by the blocks of the trades it
applies, in the order of the pass, and then the position-update event. -/
theorem C13_trade_and_profit_events (addTrade : AddTradeFn) (orders : OrderStore)
    (c : TradeCollector) (trade : Trade) :
    ((ProcessTrade addTrade orders c trade).1 = true →
      (ProcessTrade addTrade orders c trade).2.log =
        c.log ++ (applyTrace addTrade c.position [trade] ++
          [Effect.emitPositionUpdate (addTrade c.position trade).1])) ∧
    ((ProcessTrade addTrade orders c trade).1 = false →
      (ProcessTrade addTrade orders c trade).2.log = c.log) ∧
    (Process addTrade orders c).2.log =
      c.log ++ (applyTrace addTrade c.position
          (firstDeliveries orders c.doneTrades c.tradeStore.trades) ++
        (if (firstDeliveries orders c.doneTrades c.tradeStore.trades).isEmpty then []
        else [Effect.emitPositionUpdate (applyPosition addTrade c.position
          (firstDeliveries orders c.doneTrades c.tradeStore.trades))])) ∧
    (∀ (p : Position) (td : Trade) (rest : List Trade),
      applyTrace addTrade p (td :: rest) =
        Effect.addTrade td :: Effect.emitTrade td ::
          ((if (addTrade p td).2.2.2 then
            [Effect.emitProfit td (addTrade p td).2.1 (addTrade p td).2.2.1]
          else []) ++ applyTrace addTrade (addTrade p td).1 rest)) := by
  refine ⟨?_, ?_, Process_log addTrade orders c, fun _ _ _ => rfl⟩
  · intro h
    by_cases hk : trade.Key ∈ c.doneTrades
    · rw [ProcessTrade_done addTrade orders c trade hk] at h
      simp at h
    · by_cases ho : orders.Exists trade.OrderID = true
      · rw [ProcessTrade_known addTrade orders c trade hk ho]
        simp [applyTrace]
      · have ho2 : orders.Exists trade.OrderID = false := by simpa using ho
        rw [ProcessTrade_unknown addTrade orders c trade hk ho2] at h
        simp at h
  · intro h
    by_cases hk : trade.Key ∈ c.doneTrades
    · rw [ProcessTrade_done addTrade orders c trade hk]
    · by_cases ho : orders.Exists trade.OrderID = true
      · rw [ProcessTrade_known addTrade orders c trade hk ho] at h
        simp at h
      · have ho2 : orders.Exists trade.OrderID = false := by simpa using ho
        rw [ProcessTrade_unknown addTrade orders c trade hk ho2]

/-- C14: the done set is append-only: after `ProcessTrade`, after `Process`,
after `Recover` and after one turn of the loop of `Run` the done set contains
the done set from before, and every key that was added has a call of
`AddTrade` with a trade of that key among the calls the operation made. -/
theorem C14_done_set_append_only {ε : Type} (addTrade : AddTradeFn) (orders : OrderStore)
    (c : TradeCollector) (trade : Trade) (query : Except ε (List Trade)) (wake : Wake) :
    DoneGrows c (ProcessTrade addTrade orders c trade).2 ∧
    DoneGrows c (Process addTrade orders c).2 ∧
    DoneGrows c (Recover addTrade orders c query).2 ∧
    DoneGrows c (runStep addTrade orders c wake).2 := by
  refine ⟨doneGrows_ProcessTrade addTrade orders c trade,
    doneGrows_Process addTrade orders c, ?_, ?_⟩
  · cases query with
    | error err => exact doneGrows_refl c
    | ok trades => exact doneGrows_recoverLoop addTrade orders trades c
  · cases wake with
    | ctxDone => exact doneGrows_refl c
    | ticker => exact doneGrows_Process addTrade orders c
    | orderSig => exact doneGrows_Process addTrade orders c
    | tradeC td => exact doneGrows_ProcessTrade addTrade orders c td

/-- C15, as stated, fails: the sample buy is buffered, then delivered again
with its order known; `ProcessTrade` applies it and leaves it in the pending
store, and the following `Process` removes it without applying it. -/
theorem C15_removed_when_applied_counterexample :
    sampleBuy ∈ sampleBufferedBuy.tradeStore.trades ∧
    (ProcessTrade Position.AddTrade knownOrders sampleBufferedBuy sampleBuy).1 = true ∧
    Effect.addTrade sampleBuy ∈ emitted sampleBufferedBuy sampleAppliedBuy ∧
    sampleBuy ∈ sampleAppliedBuy.tradeStore.trades ∧
    sampleBuy ∉ (Process Position.AddTrade knownOrders sampleAppliedBuy).2.tradeStore.trades ∧
    Effect.addTrade sampleBuy ∉
      emitted sampleAppliedBuy (Process Position.AddTrade knownOrders sampleAppliedBuy).2 := by
  decide

/-- C15, amended: `ProcessTrade` takes no key out of the pending store, also
when it applies a trade that is buffered; a `Process` step on a pending store
with distinct keys removes exactly the entries whose key was already done and
the entries it applies in that step (`AddTrade` is called with such an entry
once, and with no other entry), and after it no entry of the pending store
has a done key. -/
theorem C15_entries_leave_in_process (addTrade : AddTradeFn) (orders : OrderStore)
    (c : TradeCollector) (trade : Trade) (hkeys : KeysUnique c) :
    (∀ u ∈ c.tradeStore.trades,
      u.Key ∈ (ProcessTrade addTrade orders c trade).2.tradeStore.trades.map Trade.Key) ∧
    (∀ u ∈ c.tradeStore.trades,
      (u ∉ (Process addTrade orders c).2.tradeStore.trades ↔
        u.Key ∈ c.doneTrades ∨ (u.Key ∉ c.doneTrades ∧ orders.Exists u.OrderID = true)) ∧
      (Process addTrade orders c).2.log.count (Effect.addTrade u) =
        c.log.count (Effect.addTrade u) +
          (if u.Key ∉ c.doneTrades ∧ orders.Exists u.OrderID = true then 1 else 0)) ∧
    (∀ u ∈ (Process addTrade orders c).2.tradeStore.trades,
      u ∈ c.tradeStore.trades ∧ u.Key ∉ (Process addTrade orders c).2.doneTrades) := by
  refine ⟨fun u hu => keys_ProcessTrade addTrade orders c trade u hu, ?_, ?_⟩
  · intro u hu
    refine ⟨?_, Process_count addTrade orders c hkeys u hu⟩
    rw [Process_mem_trades addTrade orders c hkeys u]
    by_cases hk : u.Key ∈ c.doneTrades
    · simp [hk]
    · cases ho : orders.Exists u.OrderID <;> simp [hk, hu]
  · intro u hu
    exact ⟨((Process_mem_trades addTrade orders c hkeys u).1 hu).1,
      Process_store_not_done addTrade orders c hkeys u hu⟩

/-- Witness of C15: the sample collector in which the buy is applied and still
buffered, the sell can be applied and the trade of order 11 stays. -/
theorem C15_entries_leave_in_process_witness :
    KeysUnique sampleMixed ∧
    (∀ u ∈ (Process Position.AddTrade knownOrders sampleMixed).2.tradeStore.trades,
      u ∈ sampleMixed.tradeStore.trades ∧
        u.Key ∉ (Process Position.AddTrade knownOrders sampleMixed).2.doneTrades) :=
  have h : KeysUnique sampleMixed := by unfold KeysUnique; decide
  ⟨h, (C15_entries_leave_in_process Position.AddTrade knownOrders sampleMixed sampleOther h).2.2⟩

/-- C17: scenario A for `Position.AddTrade`, amounts in units of `10^-8`: from
an empty position, whatever its symbol, former average cost and fees, buy 1.0
at 100 and buy 1.0 at 110 both report no realized profit and give the average
cost 105; the following sell of 1.5 at 120 reports a realized profit, the
gross profit 22.5, and leaves the quantity 0.5 at the average cost 105. -/
theorem C17_scenario_A (symbol currency : String) (averageCost fee f₁ f₂ f₃ : Int)
    (o₁ o₂ o₃ : Nat) :
    (Position.AddTrade ⟨symbol, 0, averageCost, fee⟩
      ⟨1, o₁, symbol, SideType.Buy, 10000000000, 100000000, f₁, currency, 0⟩).2.2.2 = false ∧
    (Position.AddTrade
      (Position.AddTrade ⟨symbol, 0, averageCost, fee⟩
        ⟨1, o₁, symbol, SideType.Buy, 10000000000, 100000000, f₁, currency, 0⟩).1
      ⟨2, o₂, symbol, SideType.Buy, 11000000000, 100000000, f₂, currency, 1⟩).2.2.2 = false ∧
    (Position.AddTrade
      (Position.AddTrade ⟨symbol, 0, averageCost, fee⟩
        ⟨1, o₁, symbol, SideType.Buy, 10000000000, 100000000, f₁, currency, 0⟩).1
      ⟨2, o₂, symbol, SideType.Buy, 11000000000, 100000000, f₂, currency, 1⟩).1.AverageCost =
        10500000000 ∧
    Position.AddTrade
      (Position.AddTrade
        (Position.AddTrade ⟨symbol, 0, averageCost, fee⟩
          ⟨1, o₁, symbol, SideType.Buy, 10000000000, 100000000, f₁, currency, 0⟩).1
        ⟨2, o₂, symbol, SideType.Buy, 11000000000, 100000000, f₂, currency, 1⟩).1
      ⟨3, o₃, symbol, SideType.Sell, 12000000000, 150000000, f₃, currency, 2⟩ =
        (⟨symbol, 50000000, 10500000000, fee + f₁ + f₂ + f₃⟩,
          2250000000, 2250000000 - f₃, true) := by
  simp [Position.AddTrade, fixedpoint.Mul, fixedpoint.Div, fixedpoint.One]
  decide

/-- C18: scenario B for `Position.AddTrade`, amounts in units of `10^-8`: from
an empty position, buy 2.0 at 100 and then sell 3.0 at 120; the sell, in one
call, reports the realized profit 40 on the closed 2.0 and leaves a short
position of 1.0 at the average cost 120; the following buy of 1.0 at 110
reports the realized profit 10 and leaves the quantity 0. -/
theorem C18_scenario_B (symbol currency : String) (averageCost fee f₁ f₂ f₃ : Int)
    (o₁ o₂ o₃ : Nat) :
    Position.AddTrade
      (Position.AddTrade ⟨symbol, 0, averageCost, fee⟩
        ⟨1, o₁, symbol, SideType.Buy, 10000000000, 200000000, f₁, currency, 0⟩).1
      ⟨2, o₂, symbol, SideType.Sell, 12000000000, 300000000, f₂, currency, 1⟩ =
        (⟨symbol, -100000000, 12000000000, fee + f₁ + f₂⟩,
          4000000000, 4000000000 - f₂, true) ∧
    (Position.AddTrade
      (Position.AddTrade
        (Position.AddTrade ⟨symbol, 0, averageCost, fee⟩
          ⟨1, o₁, symbol, SideType.Buy, 10000000000, 200000000, f₁, currency, 0⟩).1
        ⟨2, o₂, symbol, SideType.Sell, 12000000000, 300000000, f₂, currency, 1⟩).1
      ⟨3, o₃, symbol, SideType.Buy, 11000000000, 100000000, f₃, currency, 2⟩).2 =
        (1000000000, 1000000000 - f₃, true) ∧
    (Position.AddTrade
      (Position.AddTrade
        (Position.AddTrade ⟨symbol, 0, averageCost, fee⟩
          ⟨1, o₁, symbol, SideType.Buy, 10000000000, 200000000, f₁, currency, 0⟩).1
        ⟨2, o₂, symbol, SideType.Sell, 12000000000, 300000000, f₂, currency, 1⟩).1
      ⟨3, o₃, symbol, SideType.Buy, 11000000000, 100000000, f₃, currency, 2⟩).1.Base = 0 := by
  simp [Position.AddTrade, fixedpoint.Mul, fixedpoint.Div, fixedpoint.One]
  decide

/-- C19: the checkpoints that `StockDistribution.AddTrades` returns are exactly
the trade indices, in increasing order, at which the running net quantity is
zero, so their number is the number of such indices, and no error is
returned. -/
theorem C19_checkpoints (m : StockDistribution) (trades : List Trade) :
    (m.AddTrades trades).2.1 =
      (List.range trades.length).filter (fun i =>
        decide (netQuantity m.Stocks.Base (trades.take (i + 1)) = 0)) ∧
    (m.AddTrades trades).2.1.length =
      (List.range trades.length).countP (fun i =>
        decide (netQuantity m.Stocks.Base (trades.take (i + 1)) = 0)) ∧
    (m.AddTrades trades).2.2 = none := by
  have h := addTradesLoop_checkpoints trades m 0 []
  simp only [List.nil_append, Nat.add_zero, List.map_id'] at h
  refine ⟨h, ?_, rfl⟩
  show (StockDistribution.addTradesLoop m 0 trades []).2.length = _
  rw [h, List.countP_eq_length_filter]

/-- C20: an invalid time range is rejected: when the effective start (the
start time, or the zero time when it is nil) is after the effective end (the
end time, or the time of the clock when it is nil or zero), `QueryTrades`,
`_queryKLines` and `QueryDepositHistory` each return the error of the invalid
time range without a result and without having sent a request. -/
theorem C20_invalid_time_range_rejected {ε : Type} (client : Ftx.Client ε) :
    (∀ (fuel : Nat) (symbol : String) (options : Ftx.TradeQueryOptions),
      options.StartTime.getD 0 > options.EndTime.getD client.now →
      Ftx.QueryTrades client fuel symbol options =
        some ⟨Except.error (Ftx.QueryError.invalidTradesTimeRange
          (options.StartTime.getD 0) (options.EndTime.getD client.now)), []⟩) ∧
    (∀ (symbol : String) (interval : Ftx.Interval) (options : Ftx.KLineQueryOptions),
      options.StartTime.getD 0 > options.EndTime.getD client.now →
      Ftx._queryKLines client symbol interval options =
        ⟨Except.error (Ftx.QueryError.invalidKLinesTimeRange
          (options.StartTime.getD 0) (options.EndTime.getD client.now)), []⟩) ∧
    (∀ (asset : String) (since upto : Ftx.Time),
      since > (if upto = 0 then client.now else upto) →
      Ftx.QueryDepositHistory client asset since upto =
        ⟨Except.error (Ftx.QueryError.invalidDepositTimeRange since
          (if upto = 0 then client.now else upto)), []⟩) := by
  refine ⟨?_, ?_, ?_⟩
  · intro fuel symbol options h
    unfold Ftx.QueryTrades
    simp only [h, if_true]
  · intro symbol interval options h
    unfold Ftx._queryKLines
    simp only [h, if_true]
  · intro asset since upto h
    unfold Ftx.QueryDepositHistory
    simp only [h, if_true]

/-- Witness of C20: a query from time 10 to time 5, and a deposit query from
time 2000 without end at the clock time 1000. -/
theorem C20_invalid_time_range_rejected_witness :
    Ftx.QueryTrades Ftx.sampleClient 0 "BTCUSDT" ⟨some 10, some 5, 0, 0⟩ =
      some ⟨Except.error (Ftx.QueryError.invalidTradesTimeRange 10 5), []⟩ ∧
    Ftx._queryKLines Ftx.sampleClient "BTCUSDT" "1m" ⟨some 10, some 5, 0⟩ =
      ⟨Except.error (Ftx.QueryError.invalidKLinesTimeRange 10 5), []⟩ ∧
    Ftx.QueryDepositHistory Ftx.sampleClient "BTC" 2000 0 =
      ⟨Except.error (Ftx.QueryError.invalidDepositTimeRange 2000 1000), []⟩ :=
  ⟨(C20_invalid_time_range_rejected Ftx.sampleClient).1 0 "BTCUSDT" ⟨some 10, some 5, 0, 0⟩
      (by decide),
    (C20_invalid_time_range_rejected Ftx.sampleClient).2.1 "BTCUSDT" "1m" ⟨some 10, some 5, 0⟩
      (by decide),
    (C20_invalid_time_range_rejected Ftx.sampleClient).2.2 "BTC" 2000 0 (by decide)⟩

/-- C21, as stated, fails: with a valid time range and the supported interval
`1m`, `_queryKLines` returns an error without a request when the rate limiter
fails. -/
theorem C21_unsupported_interval_counterexample :
    ¬ ((some 0 : Option Ftx.Time).getD 0 > (some 5 : Option Ftx.Time).getD
      Ftx.sampleLimitedClient.now) ∧
    "1m" ∈ Ftx.sixIntervals ∧
    (Ftx._queryKLines Ftx.sampleLimitedClient "BTCUSDT" "1m" ⟨some 0, some 5, 0⟩).failed = true ∧
    (Ftx._queryKLines Ftx.sampleLimitedClient "BTCUSDT" "1m" ⟨some 0, some 5, 0⟩).requests = [] := by
  decide

/-- C21, amended: for a valid time range `_queryKLines` returns an error
without a request if and only if the interval is not one of `1m`, `5m`, `15m`,
`1h`, `1d`, `3d` or the rate limiter fails; for an interval that is not one of
the six the error is the error of the unsupported interval; and
`IsSupportedInterval` is true exactly for the six intervals. -/
theorem C21_unsupported_interval_rejected {ε : Type} (client : Ftx.Client ε) (symbol : String)
    (interval : Ftx.Interval) (options : Ftx.KLineQueryOptions)
    (hvalid : ¬ options.StartTime.getD 0 > options.EndTime.getD client.now) :
    (((Ftx._queryKLines client symbol interval options).failed = true ∧
        (Ftx._queryKLines client symbol interval options).requests = []) ↔
      (interval ∉ Ftx.sixIntervals ∨ client.waitFailed = true)) ∧
    (interval ∉ Ftx.sixIntervals →
      Ftx._queryKLines client symbol interval options =
        ⟨Except.error (Ftx.QueryError.unsupportedInterval interval), []⟩) ∧
    (Ftx.IsSupportedInterval interval = true ↔ interval ∈ Ftx.sixIntervals) := by
  have hiff := isIntervalSupportedInKLine_iff interval
  refine ⟨?_, ?_, hiff⟩
  · by_cases hs : Ftx.isIntervalSupportedInKLine interval = true
    · have hmem := hiff.1 hs
      cases hw : client.wait with
      | error err =>
        rw [queryKLines_waitFailed client symbol interval options hvalid hs err hw]
        simp [Ftx.Outcome.failed, Ftx.Client.waitFailed, hw]
      | ok u =>
        have hreq := queryKLines_requests client symbol interval options hvalid hs u hw
        simp [hreq, hmem, Ftx.Client.waitFailed, hw]
    · have hs2 : Ftx.isIntervalSupportedInKLine interval = false := by simpa using hs
      have hmem : interval ∉ Ftx.sixIntervals := fun h => hs (hiff.2 h)
      rw [queryKLines_unsupported client symbol interval options hvalid hs2]
      simp [Ftx.Outcome.failed, hmem]
  · intro hmem
    have hs2 : Ftx.isIntervalSupportedInKLine interval = false := by
      cases h : Ftx.isIntervalSupportedInKLine interval
      · rfl
      · exact absurd (hiff.1 h) hmem
    exact queryKLines_unsupported client symbol interval options hvalid hs2

/-- Witness of C21: the interval `2m` from time 0 to time 5. -/
theorem C21_unsupported_interval_rejected_witness :
    ¬ ((some 0 : Option Ftx.Time).getD 0 > (some 5 : Option Ftx.Time).getD
      Ftx.sampleClient.now) ∧
    "2m" ∉ Ftx.sixIntervals ∧
    Ftx._queryKLines Ftx.sampleClient "BTCUSDT" "2m" ⟨some 0, some 5, 0⟩ =
      ⟨Except.error (Ftx.QueryError.unsupportedInterval "2m"), []⟩ :=
  have hv : ¬ ((some 0 : Option Ftx.Time).getD 0 > (some 5 : Option Ftx.Time).getD
      Ftx.sampleClient.now) := by decide
  have hm : "2m" ∉ Ftx.sixIntervals := by decide
  ⟨hv, hm, (C21_unsupported_interval_rejected Ftx.sampleClient "BTCUSDT" "2m"
    ⟨some 0, some 5, 0⟩ hv).2.1 hm⟩

/-- C22: with a valid time range, `QueryTrades` with `Limit == 1` returns the
error of the limit without a result and without a fills request, and with
`Limit == 0` it runs its loop with the page size 200, as it does for
`Limit == 200`. -/
theorem C22_limit_one_and_default {ε : Type} (client : Ftx.Client ε) (fuel : Nat)
    (symbol : String) (options : Ftx.TradeQueryOptions)
    (hvalid : ¬ options.StartTime.getD 0 > options.EndTime.getD client.now) :
    (options.Limit = 1 →
      Ftx.QueryTrades client fuel symbol options =
        some ⟨Except.error Ftx.QueryError.limitOne, []⟩) ∧
    (options.Limit = 0 →
      Ftx.QueryTrades client fuel symbol options =
        Ftx.tradesLoop client symbol.toUpper (options.EndTime.getD client.now) 200 fuel
          ⟨options.StartTime.getD 0, ∅, options.LastTradeID, []⟩ [] ∧
      Ftx.QueryTrades client fuel symbol options =
        Ftx.QueryTrades client fuel symbol { options with Limit := 200 }) := by
  constructor
  · intro h
    unfold Ftx.QueryTrades
    simp only [hvalid, if_false, h, if_true]
  · intro h
    unfold Ftx.QueryTrades
    simp [hvalid, h]

/-- Witness of C22: a query from time 0 to time 5 with the limit 1. -/
theorem C22_limit_one_and_default_witness :
    Ftx.QueryTrades Ftx.sampleClient 3 "BTCUSDT" ⟨some 0, some 5, 1, 0⟩ =
      some ⟨Except.error Ftx.QueryError.limitOne, []⟩ :=
  (C22_limit_one_and_default Ftx.sampleClient 3 "BTCUSDT" ⟨some 0, some 5, 1, 0⟩
    (by decide)).1 rfl

/-- C23: the trades that a successful `QueryTrades` returns were converted, one
by one and in order, from fills whose ids increase strictly along the list
and are all greater than `options.LastTradeID`, so no fill id occurs twice,
whatever pages the exchange returned; when the conversion keeps the id of the
fill, the same holds of the ids of the returned trades. -/
theorem C23_trades_deduplicated {ε : Type} (client : Ftx.Client ε) (fuel : Nat)
    (symbol : String) (options : Ftx.TradeQueryOptions) (trades : List Trade)
    (sent : List Ftx.Request)
    (h : Ftx.QueryTrades client fuel symbol options = some ⟨Except.ok trades, sent⟩) :
    ∃ accepted : List Ftx.Fill,
      Ftx.ConvertedFrom client accepted trades ∧
      (accepted.map Ftx.Fill.Id).Pairwise (· < ·) ∧
      (∀ f ∈ accepted, options.LastTradeID < f.Id) ∧
      (accepted.map Ftx.Fill.Id).Nodup ∧
      ((∀ f t, client.toGlobalTrade f = Except.ok t → t.ID = f.Id) →
        (trades.map Trade.ID).Pairwise (· < ·) ∧
        (∀ t ∈ trades, options.LastTradeID < t.ID) ∧
        (trades.map Trade.ID).Nodup) := by
  unfold Ftx.QueryTrades at h
  by_cases hv : options.StartTime.getD 0 > options.EndTime.getD client.now
  · simp only [hv, if_true] at h
    cases h
  · by_cases hl : options.Limit = 1
    · simp only [hv, if_false, hl, if_true] at h
      cases h
    · simp only [hv, if_false, hl] at h
      obtain ⟨accepted, hconv, hpair, hlast⟩ :=
        tradesLoop_accepted client _ _ _ options.LastTradeID fuel
          ⟨options.StartTime.getD 0, ∅, options.LastTradeID, []⟩ [] sent trades [] h
          ⟨List.Forall₂.nil, List.Pairwise.nil, fun f hf => by simp at hf, Nat.le_refl _⟩
      have hnodup : (accepted.map Ftx.Fill.Id).Nodup :=
        hpair.imp fun hab => Nat.ne_of_lt hab
      refine ⟨accepted, hconv, hpair, hlast, hnodup, ?_⟩
      intro hid
      have hids := convertedFrom_ids client hid accepted trades hconv
      rw [hids]
      refine ⟨hpair, ?_, hnodup⟩
      intro t ht
      have hmem : t.ID ∈ trades.map Trade.ID := List.mem_map_of_mem _ ht
      rw [hids] at hmem
      obtain ⟨f, hf, hfid⟩ := List.mem_map.1 hmem
      rw [← hfid]
      exact hlast f hf

/-- Witness of C23: two pages that overlap in the fill 3. -/
theorem C23_trades_deduplicated_witness :
    ∃ accepted : List Ftx.Fill,
      Ftx.ConvertedFrom Ftx.samplePagedClient accepted
        [Ftx.sampleConvert (Ftx.sampleFill 1 10), Ftx.sampleConvert (Ftx.sampleFill 2 20),
          Ftx.sampleConvert (Ftx.sampleFill 3 30), Ftx.sampleConvert (Ftx.sampleFill 4 40)] ∧
      (accepted.map Ftx.Fill.Id).Pairwise (· < ·) :=
  let ⟨accepted, h1, h2, _⟩ :=
    C23_trades_deduplicated Ftx.samplePagedClient 5 "btcusdt" ⟨some 0, some 100, 3, 0⟩
      [Ftx.sampleConvert (Ftx.sampleFill 1 10), Ftx.sampleConvert (Ftx.sampleFill 2 20),
          Ftx.sampleConvert (Ftx.sampleFill 3 30), Ftx.sampleConvert (Ftx.sampleFill 4 40)]
      [Ftx.Request.fills "BTC/USDT" 0 100, Ftx.Request.fills "BTC/USDT" 30 100] rfl
  ⟨accepted, h1, h2⟩

/-- C24: `toGlobalOrder` returns an error that wraps
`errUnsupportedOrderStatus`, together with the zero-valued order, if and only
if the status of the order is not one of `new`, `open`, `closed`; for these
three statuses the returned error is nil. -/
theorem C24_unsupported_status {F : Type} [Zero F] (newFromFloat : F → Int)
    (r : Ftx.order F) :
    ((∃ err, (Ftx.toGlobalOrder newFromFloat r).2 = some err ∧
        err.Is Ftx.errUnsupportedOrderStatus = true ∧
        (Ftx.toGlobalOrder newFromFloat r).1 = (Ftx.Order.zero : Ftx.Order F)) ↔
      r.Status ∉ ["new", "open", "closed"]) ∧
    (r.Status ∈ ["new", "open", "closed"] → (Ftx.toGlobalOrder newFromFloat r).2 = none) ∧
    (r.Status ∉ ["new", "open", "closed"] →
      Ftx.toGlobalOrder newFromFloat r =
        ((Ftx.Order.zero : Ftx.Order F), some (Ftx.ConvertError.wrapped
          ("unsupported status " ++ r.Status ++ ": unsupported order status")
          Ftx.errUnsupportedOrderStatus))) := by
  have hnone : r.Status ∈ ["new", "open", "closed"] →
      (Ftx.toGlobalOrder newFromFloat r).2 = none := by
    intro h
    simp only [List.mem_cons, List.mem_singleton, List.not_mem_nil, or_false] at h
    unfold Ftx.toGlobalOrder
    rcases h with h | h | h
    · simp [h]
    · by_cases hc : newFromFloat r.FilledSize = fixedpoint.NewFromInt 0 <;> simp [h, hc]
    · by_cases hc : newFromFloat r.Size = newFromFloat r.FilledSize <;> simp [h, hc]
  have hsome : r.Status ∉ ["new", "open", "closed"] →
      Ftx.toGlobalOrder newFromFloat r =
        ((Ftx.Order.zero : Ftx.Order F), some (Ftx.ConvertError.wrapped
          ("unsupported status " ++ r.Status ++ ": unsupported order status")
          Ftx.errUnsupportedOrderStatus)) := by
    intro h
    simp only [List.mem_cons, List.mem_singleton, List.not_mem_nil, or_false, not_or] at h
    unfold Ftx.toGlobalOrder
    simp [h.1, h.2.1, h.2.2]
  refine ⟨⟨?_, ?_⟩, hnone, hsome⟩
  · rintro ⟨err, herr, _, _⟩ hmem
    rw [hnone hmem] at herr
    cases herr
  · intro h
    rw [hsome h]
    exact ⟨_, rfl, by simp [Ftx.ConvertError.Is, Ftx.errUnsupportedOrderStatus], rfl⟩

/-- C25: `toGlobalOrder` maps the status: `new` gives `OrderStatusNew`; `open`
gives `OrderStatusPartiallyFilled` when the filled size is not zero as a
fixed-point value and `OrderStatusNew` otherwise; `closed` gives
`OrderStatusFilled` when the size and the filled size are equal as fixed-point
values and `OrderStatusCanceled` otherwise; and `IsWorking` is true exactly
when the status is `open`. -/
theorem C25_status_mapping {F : Type} [Zero F] (newFromFloat : F → Int) (r : Ftx.order F) :
    (r.Status = "new" →
      (Ftx.toGlobalOrder newFromFloat r).1.Status = Ftx.OrderStatus.New) ∧
    (r.Status = "open" →
      (Ftx.toGlobalOrder newFromFloat r).1.Status =
        if newFromFloat r.FilledSize ≠ fixedpoint.NewFromInt 0 then
          Ftx.OrderStatus.PartiallyFilled
        else Ftx.OrderStatus.New) ∧
    (r.Status = "closed" →
      (Ftx.toGlobalOrder newFromFloat r).1.Status =
        if newFromFloat r.Size = newFromFloat r.FilledSize then Ftx.OrderStatus.Filled
        else Ftx.OrderStatus.Canceled) ∧
    ((Ftx.toGlobalOrder newFromFloat r).1.IsWorking = true ↔ r.Status = "open") := by
  refine ⟨?_, ?_, ?_, ?_⟩
  · intro h
    unfold Ftx.toGlobalOrder
    simp [h]
  · intro h
    unfold Ftx.toGlobalOrder
    by_cases hc : newFromFloat r.FilledSize = fixedpoint.NewFromInt 0 <;> simp [h, hc]
  · intro h
    unfold Ftx.toGlobalOrder
    by_cases hc : newFromFloat r.Size = newFromFloat r.FilledSize <;> simp [h, hc]
  · unfold Ftx.toGlobalOrder
    by_cases h1 : r.Status = "new"
    · simp [h1]
    · by_cases h2 : r.Status = "open"
      · by_cases hc : newFromFloat r.FilledSize = fixedpoint.NewFromInt 0 <;> simp [h2, hc]
      · by_cases h3 : r.Status = "closed"
        · by_cases hc : newFromFloat r.Size = newFromFloat r.FilledSize <;> simp [h3, hc]
        · simp [h1, h2, h3, Ftx.Order.zero]

/-- C26, as stated, fails: for a client order id of 14 characters of two bytes
each, `x-BBGO` followed by the id has 20 characters, which is at most 32, and
`newSpotClientOrderID` returns the id unchanged, because `len` counts the 34
bytes. -/
theorem C26_client_order_id_counterexample :
    Ftx.sampleWideID ≠ "" ∧
    ("x-BBGO" ++ Ftx.sampleWideID).length ≤ 32 ∧
    Ftx.newSpotClientOrderID Ftx.sampleUuid Ftx.sampleWideID ≠ "x-BBGO" ++ Ftx.sampleWideID ∧
    Ftx.newSpotClientOrderID Ftx.sampleUuid Ftx.sampleWideID = Ftx.sampleWideID := by
  decide

/-- C26, amended: for every non-empty `originalID` the result of
`newSpotClientOrderID` is `x-BBGO` followed by `originalID` when that has at
most 32 bytes and `originalID` unchanged otherwise, so `originalID` is always
a suffix of the result; for an empty `originalID` the result starts with
`x-BBGO` and has at most 32 characters. -/
theorem C26_client_order_id (uuid originalID : String) :
    (originalID ≠ "" → Ftx.len ("x-BBGO" ++ originalID) ≤ 32 →
      Ftx.newSpotClientOrderID uuid originalID = "x-BBGO" ++ originalID) ∧
    (originalID ≠ "" → 32 < Ftx.len ("x-BBGO" ++ originalID) →
      Ftx.newSpotClientOrderID uuid originalID = originalID) ∧
    (originalID ≠ "" → ∃ p, Ftx.newSpotClientOrderID uuid originalID = p ++ originalID) ∧
    (originalID = "" →
      (∃ rest, Ftx.newSpotClientOrderID uuid originalID = "x-BBGO" ++ rest) ∧
      (Ftx.newSpotClientOrderID uuid originalID).length ≤ 32) := by
  have hlen : Ftx.len ("x-BBGO" ++ originalID) = 6 + Ftx.len originalID := by
    rw [len_append, len_brokerPrefix]
  have hshort : originalID ≠ "" → Ftx.len ("x-BBGO" ++ originalID) ≤ 32 →
      Ftx.newSpotClientOrderID uuid originalID = "x-BBGO" ++ originalID := by
    intro hne hle
    unfold Ftx.newSpotClientOrderID
    simp only [brokerPrefix_eq, len_brokerPrefix, ne_eq, hne, not_false_eq_true, if_true]
    rw [if_neg (by omega)]
  have hlong : originalID ≠ "" → 32 < Ftx.len ("x-BBGO" ++ originalID) →
      Ftx.newSpotClientOrderID uuid originalID = originalID := by
    intro hne hgt
    unfold Ftx.newSpotClientOrderID
    simp only [brokerPrefix_eq, len_brokerPrefix, ne_eq, hne, not_false_eq_true, if_true]
    rw [if_pos (by omega)]
  refine ⟨hshort, hlong, ?_, ?_⟩
  · intro hne
    by_cases hle : Ftx.len ("x-BBGO" ++ originalID) ≤ 32
    · exact ⟨"x-BBGO", hshort hne hle⟩
    · exact ⟨"", by rw [hlong hne (by omega)]; simp⟩
  · intro he
    subst he
    unfold Ftx.newSpotClientOrderID
    simp only [brokerPrefix_eq, ne_eq, not_true_eq_false, if_false]
    by_cases hgt : Ftx.len ("x-BBGO" ++ uuid) > 32
    · simp only [hgt, if_true]
      refine ⟨⟨⟨uuid.data.take 26⟩, ?_⟩, ?_⟩
      · apply String.ext
        simp only [Ftx.first32, String.data_append]
        show List.take 32 ("x-BBGO".data ++ uuid.data) = "x-BBGO".data ++ List.take 26 uuid.data
        rw [List.take_append_eq_append_take]
        rfl
      · simp only [Ftx.first32, String.length]
        exact (List.length_take_le _ _)
    · simp only [hgt, if_false]
      refine ⟨⟨uuid, rfl⟩, ?_⟩
      have := length_le_len ("x-BBGO" ++ uuid)
      omega

/-- C27: each wake-up of the loop of `Run` does exactly one unit of work: for a
tick of the ticker and for an order signal the loop goes on from the collector
after one call of `Process`, for a trade from the trade channel from the
collector after one call of `ProcessTrade` with it, and when the context is
done `Run` returns the collector untouched, whatever wake-ups would follow.
So the collector after `Run` is the collector after the units of work of the
wake-ups, one for each wake-up before the end of the context and in their
order; it is the collector after as many `Process` and `ProcessTrade` calls,
and every property that each such call preserves holds after `Run`.  For the
sample buy taken from the channel before its order is known, an order signal
once it is known, the end of the context and a sell that is still in the
channel, `Run` buffers the buy, applies it in the `Process` of the signal and
never takes the sell. -/
theorem C27_run_loop_units (addTrade : AddTradeFn) :
    (∀ (orders : OrderStore) (c : TradeCollector) (trade : Trade),
      runStep addTrade orders c Wake.ticker = (true, (Process addTrade orders c).2) ∧
      runStep addTrade orders c Wake.orderSig = (true, (Process addTrade orders c).2) ∧
      runStep addTrade orders c (Wake.tradeC trade) =
        (true, (ProcessTrade addTrade orders c trade).2) ∧
      runStep addTrade orders c Wake.ctxDone = (false, c)) ∧
    (∀ (orders : OrderStore) (c : TradeCollector) (trade : Trade)
        (rest : List (Wake × OrderStore)),
      Run addTrade c ((Wake.ticker, orders) :: rest) =
        Run addTrade (Process addTrade orders c).2 rest ∧
      Run addTrade c ((Wake.orderSig, orders) :: rest) =
        Run addTrade (Process addTrade orders c).2 rest ∧
      Run addTrade c ((Wake.tradeC trade, orders) :: rest) =
        Run addTrade (ProcessTrade addTrade orders c trade).2 rest ∧
      Run addTrade c ((Wake.ctxDone, orders) :: rest) = c) ∧
    (∀ c : TradeCollector, Run addTrade c [] = c) ∧
    (∀ (c : TradeCollector) (wakes : List (Wake × OrderStore)),
      Run addTrade c wakes = runWork addTrade c (workOf wakes) ∧
      (workOf wakes).length = (wakes.takeWhile (fun w => !w.1.isDone)).length ∧
      ((∀ w ∈ wakes, w.1.isDone = false) → (workOf wakes).length = wakes.length)) ∧
    (∀ (c : TradeCollector) (wakes : List (Wake × OrderStore)),
      ∃ calls : List Call,
        calls.length = (wakes.takeWhile (fun w => !w.1.isDone)).length ∧
        Run addTrade c wakes = runCalls addTrade c calls) ∧
    (∀ (P : TradeCollector → Prop),
      (∀ c call, P c → P (callStep addTrade c call)) →
      ∀ (c : TradeCollector) (wakes : List (Wake × OrderStore)),
        P c → P (Run addTrade c wakes)) ∧
    Run Position.AddTrade sampleCollector
        [(Wake.tradeC sampleBuy, noOrders), (Wake.orderSig, knownOrders),
          (Wake.ctxDone, knownOrders), (Wake.tradeC sampleSell, knownOrders)] =
      (Process Position.AddTrade knownOrders
        (ProcessTrade Position.AddTrade noOrders sampleCollector sampleBuy).2).2 ∧
    (Run Position.AddTrade sampleCollector
        [(Wake.tradeC sampleBuy, noOrders), (Wake.orderSig, knownOrders),
          (Wake.ctxDone, knownOrders), (Wake.tradeC sampleSell, knownOrders)]).log =
      [Effect.addTrade sampleBuy, Effect.emitTrade sampleBuy,
        Effect.emitPositionUpdate ⟨"BTCUSDT", 100000000, 10000000000, 0⟩] := by
  refine ⟨fun _ _ _ => ⟨rfl, rfl, rfl, rfl⟩,
    fun orders c trade rest => Run_cons addTrade c orders trade rest, fun _ => rfl,
    fun c wakes => ⟨Run_runWork addTrade wakes c, workOf_length wakes,
      workOf_length_all wakes⟩, ?_, ?_, rfl, by decide⟩
  · intro c wakes
    obtain ⟨calls, hlen, hrun⟩ := runWork_runCalls addTrade (workOf wakes) c
    exact ⟨calls, by rw [hlen, workOf_length], by rw [Run_runWork, hrun]⟩
  · intro P hP c wakes hc
    obtain ⟨calls, _, hrun⟩ := runWork_runCalls addTrade (workOf wakes) c
    rw [Run_runWork, hrun]
    exact runCalls_invariant addTrade P hP calls c hc

/-- C28: while the order store is unchanged, a second call of `Process` right
after a first one, on a pending store with distinct keys and in whatever order
its pass meets the pending trades, returns false and leaves the collector,
its log of `AddTrade` calls and events included, exactly as the first call
left it. -/
theorem C28_process_idempotent (addTrade : AddTradeFn) (orders : OrderStore)
    (c : TradeCollector) (hkeys : KeysUnique c) :
    Process addTrade orders (Process addTrade orders c).2 =
      (false, (Process addTrade orders c).2) ∧
    (∀ visit : List Trade, visit.Perm (Process addTrade orders c).2.tradeStore.trades →
      Process addTrade orders ((Process addTrade orders c).2.withVisit visit) =
        (false, (Process addTrade orders c).2.withVisit visit)) := by
  have hstore : ∀ u ∈ (Process addTrade orders c).2.tradeStore.trades,
      u.Key ∉ (Process addTrade orders c).2.doneTrades ∧ orders.Exists u.OrderID = false :=
    fun u hu => ⟨Process_store_not_done addTrade orders c hkeys u hu,
      ((Process_mem_trades addTrade orders c hkeys u).1 hu).2.2⟩
  refine ⟨Process_keep addTrade orders _ hstore, ?_⟩
  intro visit hperm
  exact Process_keep addTrade orders _ fun u hu => hstore u (hperm.subset hu)

/-- Witness of C28: the sample collector in which the buy is applied and still
buffered, the sell can be applied and the trade of order 11 stays. -/
theorem C28_process_idempotent_witness :
    KeysUnique sampleMixed ∧
    Process Position.AddTrade knownOrders (Process Position.AddTrade knownOrders sampleMixed).2 =
      (false, (Process Position.AddTrade knownOrders sampleMixed).2) :=
  have h : KeysUnique sampleMixed := by unfold KeysUnique; decide
  ⟨h, (C28_process_idempotent Position.AddTrade knownOrders sampleMixed h).1⟩

/-- C29, as stated, fails: the exchange answers with two k-lines of the second
200, the first starting 0.7 seconds and the second 0.2 seconds into it.  The
closure of `sort.Slice` compares whole seconds, so neither is before the other
and the insertion sort leaves them as they were collected: the successful
`QueryKLines` returns the later start before the earlier one. -/
theorem C29_klines_sorted_counterexample :
    Ftx.QueryKLines Ftx.stableSortSlice (fun _ => Ftx.sampleSubSecondClient)
        (fun _ => 60000000000) 3 "BTCUSDT" "1m"
        ⟨some (Ftx.atSecond 150), some (Ftx.atSecond 300), 0⟩ =
      some ⟨(Except.ok
          [Ftx.sampleKLine "BTCUSDT" "1m" (Ftx.sampleCandleAt (Ftx.atSecond 200 + 700000000)),
            Ftx.sampleKLine "BTCUSDT" "1m" (Ftx.sampleCandleAt (Ftx.atSecond 200 + 200000000))] :
          Except (Ftx.QueryError String) (List Ftx.KLine)),
        [Ftx.Request.historicalPrices "BTC/USDT" "1m" (Ftx.atSecond 150) (Ftx.atSecond 300)]⟩ ∧
    ¬ [Ftx.sampleKLine "BTCUSDT" "1m" (Ftx.sampleCandleAt (Ftx.atSecond 200 + 700000000)),
        Ftx.sampleKLine "BTCUSDT" "1m" (Ftx.sampleCandleAt (Ftx.atSecond 200 + 200000000))].Pairwise
      (fun a b => a.StartTime ≤ b.StartTime) := by
  refine ⟨rfl, ?_⟩
  decide

/-- C29, amended: the k-lines that a successful `QueryKLines` returns are
sorted by start time in whole seconds, in non-decreasing order; each of them
starts, in whole seconds, strictly after the requested start; and when
`options.Limit` is not zero there are at most `Limit` of them, namely the last
`Limit` elements of the sorted list of the k-lines that the loop collected.
This holds for every sort that keeps the promise of `sort.Slice`. -/
theorem C29_klines_sorted_and_limited {ε : Type} (sortSlice : List Ftx.KLine → List Ftx.KLine)
    (clientAt : Nat → Ftx.Client ε)
    (duration : Ftx.Interval → Int) (fuel : Nat) (symbol : String) (interval : Ftx.Interval)
    (options : Ftx.KLineQueryOptions) (result : List Ftx.KLine) (sent : List Ftx.Request)
    (hsort : Ftx.SortsSlice sortSlice)
    (h : Ftx.QueryKLines sortSlice clientAt duration fuel symbol interval options =
      some ⟨Except.ok result, sent⟩) :
    result.Pairwise (fun a b => Ftx.Unix a.StartTime ≤ Ftx.Unix b.StartTime) ∧
    (∀ k ∈ result, Ftx.Unix (options.StartTime.getD 0) < Ftx.Unix k.StartTime) ∧
    (options.Limit ≠ 0 → (result.length : Int) ≤ options.Limit) ∧
    ∃ collected : List Ftx.KLine,
      Ftx.klinesLoop clientAt duration symbol interval (options.StartTime.getD 0)
        options.Limit fuel 0 ⟨options.EndTime.getD (clientAt 0).now, []⟩ [] =
          some (Except.ok collected, sent) ∧
      (options.Limit ≠ 0 →
        result = (sortSlice collected).drop
          ((sortSlice collected).length - options.Limit.toNat)) ∧
      (options.Limit = 0 → result = sortSlice collected) := by
  unfold Ftx.QueryKLines at h
  simp only at h
  split at h
  · cases h
  · cases h
  · rename_i collected requests hloop
    split at h
    · cases h
    · rename_i limited hlimited
      simp only [Option.some.injEq, Ftx.Outcome.mk.injEq, Except.ok.injEq] at h
      obtain ⟨h1, h2⟩ := h
      subst h1
      subst h2
      obtain ⟨hsorted, hmem, hlimit, hzero⟩ :=
        sortAndLimit_spec sortSlice hsort collected options.Limit limited hlimited
      have hafter := klinesLoop_after clientAt duration symbol interval
        (options.StartTime.getD 0) options.Limit fuel 0 _ [] requests collected hloop
        (fun k hk => by simp at hk)
      exact ⟨hsorted, fun k hk => hafter k (hmem k hk), fun hne => (hlimit hne).2.1,
        collected, hloop, fun hne => (hlimit hne).2.2, hzero⟩

/-- Witness of C29: the exchange returns the candles of second 30, 20 and 5
for a query from second 1 with the limit 2; the loop collects all three, and
the k-lines of second 20 and second 30, in this order, are the result. -/
theorem C29_klines_sorted_and_limited_witness :
    Ftx.SortsSlice Ftx.stableSortSlice ∧
    Ftx.QueryKLines Ftx.stableSortSlice (fun _ => Ftx.sampleKLineClient)
        (fun _ => 60000000000) 3 "BTCUSDT" "1m"
        ⟨some (Ftx.atSecond 1), some (Ftx.atSecond 100), 2⟩ =
      some ⟨(Except.ok [Ftx.sampleKLine "BTCUSDT" "1m" (Ftx.sampleCandle 20),
            Ftx.sampleKLine "BTCUSDT" "1m" (Ftx.sampleCandle 30)] :
          Except (Ftx.QueryError String) (List Ftx.KLine)),
        [Ftx.Request.historicalPrices "BTC/USDT" "1m" (Ftx.atSecond 1) (Ftx.atSecond 100)]⟩ ∧
    [Ftx.sampleKLine "BTCUSDT" "1m" (Ftx.sampleCandle 20),
        Ftx.sampleKLine "BTCUSDT" "1m" (Ftx.sampleCandle 30)].Pairwise
      (fun a b => Ftx.Unix a.StartTime ≤ Ftx.Unix b.StartTime) ∧
    (∀ k ∈ [Ftx.sampleKLine "BTCUSDT" "1m" (Ftx.sampleCandle 20),
        Ftx.sampleKLine "BTCUSDT" "1m" (Ftx.sampleCandle 30)],
      Ftx.Unix ((some (Ftx.atSecond 1) : Option Ftx.Time).getD 0) < Ftx.Unix k.StartTime) ∧
    Ftx.klinesLoop (fun _ => Ftx.sampleKLineClient) (fun _ => 60000000000) "BTCUSDT" "1m"
        (Ftx.atSecond 1) 2 3 0 ⟨Ftx.atSecond 100, []⟩ [] =
      some (Except.ok [Ftx.sampleKLine "BTCUSDT" "1m" (Ftx.sampleCandle 30),
          Ftx.sampleKLine "BTCUSDT" "1m" (Ftx.sampleCandle 20),
          Ftx.sampleKLine "BTCUSDT" "1m" (Ftx.sampleCandle 5)],
        [Ftx.Request.historicalPrices "BTC/USDT" "1m" (Ftx.atSecond 1) (Ftx.atSecond 100)]) :=
  have h := C29_klines_sorted_and_limited Ftx.stableSortSlice (fun _ => Ftx.sampleKLineClient)
    (fun _ => 60000000000) 3 "BTCUSDT" "1m" ⟨some (Ftx.atSecond 1), some (Ftx.atSecond 100), 2⟩
    [Ftx.sampleKLine "BTCUSDT" "1m" (Ftx.sampleCandle 20),
      Ftx.sampleKLine "BTCUSDT" "1m" (Ftx.sampleCandle 30)]
    [Ftx.Request.historicalPrices "BTC/USDT" "1m" (Ftx.atSecond 1) (Ftx.atSecond 100)]
    sortsSlice_stableSortSlice rfl
  ⟨sortsSlice_stableSortSlice, rfl, h.1, h.2.1, rfl⟩

/-- C30: the function `calculateMomentum2` returns an error exactly when the
k-line slice is empty or shorter than the window, and the value is then 0;
otherwise the error is nil and the value is `(valA + valB + valC / 3) * valD`
of the last k-line of the slice, whatever the k-lines before it are.  On three
k-lines with the window 3 and rational numbers for `float64` the value is
`(6 + 4 + 3 / 3) * 2 = 22`, and with the window 4 the error is returned. -/
theorem C30_momentum2 {F : Type} [Zero F] [Add F] [Mul F] [Div F] [OfNat F 3]
    (klines : List Ftx.KLine) (window : Int) (valA valB valC valD : Factorzoo.KLineValueMapper F) :
    ((Factorzoo.calculateMomentum2 klines window valA valB valC valD).2 ≠ none ↔
      (klines.length = 0 ∨ (klines.length : Int) < window)) ∧
    ((klines.length = 0 ∨ (klines.length : Int) < window) →
      Factorzoo.calculateMomentum2 klines window valA valB valC valD =
        (0, some (Factorzoo.MomentumError.insufficientElements window))) ∧
    (¬ (klines.length = 0 ∨ (klines.length : Int) < window) →
      ∃ last : Ftx.KLine, klines.getLast? = some last ∧
        Factorzoo.calculateMomentum2 klines window valA valB valC valD =
          ((valA last + valB last + valC last / 3) * valD last, none)) ∧
    Factorzoo.calculateMomentum2 Factorzoo.sampleWindow 3
        (fun k => (k.High : ℚ)) (fun k => (k.Low : ℚ)) (fun k => (k.Close : ℚ))
        (fun k => (k.Volume : ℚ)) = (22, none) ∧
    Factorzoo.calculateMomentum2 Factorzoo.sampleWindow 4
        (fun k => (k.High : ℚ)) (fun k => (k.Low : ℚ)) (fun k => (k.Close : ℚ))
        (fun k => (k.Volume : ℚ)) =
      (0, some (Factorzoo.MomentumError.insufficientElements 4)) := by
  refine ⟨?_, ?_, ?_, ?_, ?_⟩
  · by_cases h : klines.length = 0 ∨ (klines.length : Int) < window
    · simp only [Factorzoo.calculateMomentum2, dif_pos h]
      exact ⟨fun _ => h, fun _ hn => Option.noConfusion hn⟩
    · simp only [Factorzoo.calculateMomentum2, dif_neg h]
      exact ⟨fun hn => absurd rfl hn, fun hc => absurd hc h⟩
  · intro h
    simp only [Factorzoo.calculateMomentum2, dif_pos h]
  · intro h
    have h0 : klines.length ≠ 0 := fun h0 => h (Or.inl h0)
    have hlast : klines.length - 1 < klines.length := by omega
    refine ⟨klines.get ⟨klines.length - 1, hlast⟩, ?_, ?_⟩
    · rw [List.getLast?_eq_getElem?, List.getElem?_eq_getElem hlast]
      rfl
    · simp only [Factorzoo.calculateMomentum2, dif_neg h]
  · have h : ¬ (Factorzoo.sampleWindow.length = 0 ∨ (Factorzoo.sampleWindow.length : Int) < 3) := by
      decide
    simp only [Factorzoo.calculateMomentum2, dif_neg h]
    simp only [Factorzoo.sampleWindow, List.length_cons, List.length_nil, List.get]
    norm_num
  · have h : Factorzoo.sampleWindow.length = 0 ∨ (Factorzoo.sampleWindow.length : Int) < 4 := by
      decide
    simp only [Factorzoo.calculateMomentum2, dif_pos h]


end Bbgo
